import Mathlib

/-!
Verification of the matching-engine core of `src/Main_File.py` (REG-NMS-inspired
crypto matching engine: price-time priority, market/limit/IOC/FOK orders).

Shallow embedding conventions:

* Python `float` prices and quantities are modelled as exact rationals `ℚ`,
  following the spec's quantity model ("quantities are exact decimals with
  fixed scale").
* A `SortedDict` price map is modelled as an association list of
  `(price, level)` pairs kept sorted with the BEST price first: for asks the
  list is ascending by price (`peekitem(0)` of the source = our head), for
  bids the list is descending by price (`peekitem(-1)` of the source = our
  head).  A `deque` level is a `List RestingOrder` with the FIFO head first.
* The MongoDB `orders` collection is an association list keyed by order id;
  `insert_one` appends, `update_one` updates the first matching entry, and
  `find_one` returns the first matching entry, matching Mongo's semantics for
  the unique ids the engine generates.  `ORDER-<uuid>` identifiers are
  modelled by a monotone `Nat` counter (`nextId`); uuid freshness becomes
  counter freshness.  Timestamps and `TRADE-<uuid>` ids carry no logic and
  are omitted.
* The WebSocket broadcast and HTTP transport carry no matching logic and are
  omitted; `HTTPException` early returns become `Except` errors (raised
  before any state mutation, exactly as in the source).
* The source's `while remaining > 0` matching loop is embedded as a
  fuel-indexed recursion.  Each iteration either pops a maker from the
  opposite side or drives `remaining` to `0`, so `sideCount opp + 1` units of
  fuel (the number of resting opposite orders plus one) make the embedded
  loop exit only through the source's own exit conditions; the lemma
  `matchLoop_exit_shape` certifies this.
-/

namespace Engine

/-- Python `str.upper()` (ASCII), written over the character list so that it
is kernel-computable. -/
def strUp (s : String) : String := ⟨s.data.map Char.toUpper⟩

/-- Python `str.lower()` (ASCII), written over the character list so that it
is kernel-computable. -/
def strLo (s : String) : String := ⟨s.data.map Char.toLower⟩

attribute [local semireducible] Rat.add Rat.mul Rat.inv Rat.sub

/-- Input payload of `POST /submit_order` (`OrderIn` in the source). -/
structure OrderIn where
  symbol : String
  order_type : String
  side : String
  quantity : ℚ
  price : Option ℚ := none
deriving DecidableEq, Repr

/-- One resting order fragment inside a price level: the source stores
`{"order_id": ..., "quantity": ...}` dictionaries in each deque. -/
structure RestingOrder where
  order_id : Nat
  quantity : ℚ
deriving DecidableEq, Repr

/-- A price level: FIFO deque of resting orders, head = front of the deque. -/
abbrev Level := List RestingOrder

/-- One side of a book: `(price, level)` pairs, best price first
(asks ascending, bids descending). -/
abbrev BookSide := List (ℚ × Level)

/-- A per-symbol order book: the source's `{'bids': SortedDict, 'asks': SortedDict}`. -/
structure Book where
  bids : BookSide := []
  asks : BookSide := []
deriving DecidableEq, Repr

/-- A trade record as inserted into `trades_collection` (uuid and timestamp
fields omitted, they carry no matching logic). -/
structure Trade where
  symbol : String
  price : ℚ
  quantity : ℚ
  maker_order_id : Nat
  taker_order_id : Nat
  aggressor_side : String
deriving DecidableEq, Repr

/-- A document of the `orders_collection`: the fields the engine reads back. -/
structure DBRecord where
  symbol : String
  user : String
  side : String
  typ : String
  quantity : ℚ
  price : Option ℚ
  status : String
deriving DecidableEq, Repr

/-- The `orders_collection`, keyed by order id. -/
abbrev OrdersDB := List (Nat × DBRecord)

/-- Whole engine state: `order_books`, `orders_collection`, `trades_collection`
and the id counter. -/
structure EngineState where
  books : List (String × Book) := []
  orders : OrdersDB := []
  trades : List Trade := []
  nextId : Nat := 0
deriving DecidableEq, Repr

/-- The empty initial state (no books, no orders, no trades). -/
def initialState : EngineState := {}

/-- First-match association lookup on the books registry. -/
def lookupBook : List (String × Book) → String → Option Book
  | [], _ => none
  | (s, b) :: rest, sym => if s = sym then some b else lookupBook rest sym

/-- Replace the (first) entry of a symbol in the books registry. -/
def setBook : List (String × Book) → String → Book → List (String × Book)
  | [], sym, b => [(sym, b)]
  | (s, b0) :: rest, sym, b =>
      if s = sym then (sym, b) :: rest else (s, b0) :: setBook rest sym b

/-- Source `get_order_book`: canonicalize the symbol, get or create its book.
Returns the canonical key, the book and the (possibly extended) registry. -/
def get_order_book (books : List (String × Book)) (symbol : String) :
    String × Book × List (String × Book) :=
  let sym := (strUp symbol)
  match lookupBook books sym with
  | some b => (sym, b, books)
  | none => (sym, {}, books ++ [(sym, {})])

/-- Mongo `find_one({"order_id": id})` on the orders collection. -/
def lookupOrder : OrdersDB → Nat → Option DBRecord
  | [], _ => none
  | (i, r) :: rest, id => if i = id then some r else lookupOrder rest id

/-- Mongo `update_one({"order_id": id}, {"$set": {"status": s}})`. -/
def updateStatus : OrdersDB → Nat → String → OrdersDB
  | [], _, _ => []
  | (i, r) :: rest, id, s =>
      if i = id then (i, { r with status := s }) :: rest
      else (i, r) :: updateStatus rest id s

/-- Mongo `update_one({"order_id": id}, {"$set": {"quantity": q, "status": s}})`. -/
def updateQtyStatus : OrdersDB → Nat → ℚ → String → OrdersDB
  | [], _, _, _ => []
  | (i, r) :: rest, id, q, s =>
      if i = id then (i, { r with quantity := q, status := s }) :: rest
      else (i, r) :: updateQtyStatus rest id q s

/-- Source `get_best_price`: best bid (the SortedDict's `peekitem(-1)`, our
head of the descending bid list) and best ask (`peekitem(0)`, our head of the
ascending ask list). -/
def get_best_price (bids asks : BookSide) : Option ℚ × Option ℚ :=
  (bids.head?.map Prod.fst, asks.head?.map Prod.fst)

/-- Marketability of an opposite level against the incoming order.  This is
the single price test of the source, used both in the FOK availability scan
(`ask_price <= price` / `bid_price >= price`, or no price) and, negated, in
the matching-loop break (`best_ask > price` / `best_bid < price`). -/
def marketable (side : String) (price : Option ℚ) (levelPrice : ℚ) : Bool :=
  match price with
  | none => true
  | some p => if side = "buy" then levelPrice ≤ p else p ≤ levelPrice

/-- Total quantity resting at one level. -/
def levelQty : Level → ℚ
  | [] => 0
  | o :: rest => o.quantity + levelQty rest

/-- Sum of the quantities at the marketable levels of one side
(the FOK pre-check accumulator over `book['asks'].items()` / `...['bids']...`). -/
def sideAvail (side : String) (price : Option ℚ) : BookSide → ℚ
  | [] => 0
  | (p, lvl) :: rest =>
      (if marketable side price p then levelQty lvl else 0) + sideAvail side price rest

/-- Source FOK pre-check `available`: summed marketable quantity on the
opposite side of the incoming order. -/
def fokAvailable (side : String) (price : Option ℚ) (book : Book) : ℚ :=
  if side = "buy" then sideAvail side price book.asks else sideAvail side price book.bids

/-- The side of the book opposite to the incoming order (the side it
matches against). -/
def oppOf (side : String) (book : Book) : BookSide :=
  if side = "buy" then book.asks else book.bids

/-- Number of resting orders on a side (used to bound the matching loop). -/
def sideCount : BookSide → Nat
  | [] => 0
  | (_, lvl) :: rest => lvl.length + sideCount rest

/-- Result of the matching loop: final `remaining`, the consumed opposite
side, the updated orders collection, the emitted trades (in match order) and
the last `match_price` (the source's `match_price` local, used by the dead
resting-price fallback). -/
structure LoopResult where
  remaining : ℚ
  opp : BookSide
  orders : OrdersDB
  trades : List Trade
  lastPrice : Option ℚ
deriving DecidableEq, Repr

/-- The source's matching loop (`while remaining > 0:` ... in `submit_order`).
One iteration: stop if the opposite side is empty or its best level is not
marketable; otherwise trade `min(remaining, maker.quantity)` with the head
maker of the best level at that level's price, pop the maker when depleted,
drop the level when emptied, update the maker's persisted state
(`filled` / `partial`), and stop immediately after one trade for IOC orders. -/
def matchLoop (typ side : String) (price : Option ℚ) (taker_id : Nat) (symbol : String) :
    Nat → ℚ → BookSide → OrdersDB → LoopResult
  | 0, remaining, opp, orders =>
      ⟨remaining, opp, orders, [], none⟩
  | fuel + 1, remaining, opp, orders =>
      if 0 < remaining then
        match opp with
        | [] => ⟨remaining, [], orders, [], none⟩
        | (match_price, queue) :: restLevels =>
          if marketable side price match_price then
            match queue with
            | [] =>
              -- Unreachable on engine states: empty levels are removed eagerly
              -- below, so the source's `queue[0]` always finds a maker.
              ⟨remaining, (match_price, []) :: restLevels, orders, [], none⟩
            | maker :: makers =>
              let trade_qty := min remaining maker.quantity
              let makerQty := maker.quantity - trade_qty
              let remaining1 := remaining - trade_qty
              let t : Trade :=
                { symbol := symbol, price := match_price, quantity := trade_qty,
                  maker_order_id := maker.order_id, taker_order_id := taker_id,
                  aggressor_side := side }
              let opp1 : BookSide :=
                if makerQty = 0 then
                  (if makers = [] then restLevels else (match_price, makers) :: restLevels)
                else
                  (match_price, { maker with quantity := makerQty } :: makers) :: restLevels
              let orders1 :=
                if makerQty = 0 then updateStatus orders maker.order_id "filled"
                else updateQtyStatus orders maker.order_id makerQty "partial"
              if typ = "ioc" then ⟨remaining1, opp1, orders1, [t], some match_price⟩
              else
                let res := matchLoop typ side price taker_id symbol fuel remaining1 opp1 orders1
                ⟨res.remaining, res.opp, res.orders, t :: res.trades,
                 some (res.lastPrice.getD match_price)⟩
          else ⟨remaining, (match_price, queue) :: restLevels, orders, [], none⟩
      else ⟨remaining, opp, orders, [], none⟩

/-- Insert a resting remainder on its own side: find or create the level of
`p` (keeping the best-first ordering of the side; `isBid = true` means
descending prices) and append the order at the back of the level's deque. -/
def insertOwn (isBid : Bool) (p : ℚ) (o : RestingOrder) : BookSide → BookSide
  | [] => [(p, [o])]
  | (q, lvl) :: rest =>
      if p = q then (q, lvl ++ [o]) :: rest
      else if (if isBid then q < p else p < q) then (p, [o]) :: (q, lvl) :: rest
      else (q, lvl) :: insertOwn isBid p o rest

/-- Validation failures of `submit_order` (HTTP 400s raised before any
state mutation). -/
inductive SubmitError
  | invalidQuantity
  | missingPrice
deriving DecidableEq, Repr

/-- The JSON body returned by `submit_order`.  The source returns plain
dicts whose key sets differ between paths, so every field beyond the always
present `order_id` is an `Option` recording whether the key was present. -/
structure SubmitResult where
  order_id : Nat
  trades : Option (List Trade) := none
  status : Option String := none
  filled : Option Bool := none
deriving DecidableEq, Repr

/-- Source `submit_order`: validate, persist the new order as `open`, run the
FOK feasibility pre-check, run the matching loop, then handle the residual
(rest a limit remainder, cancel an IOC/market/FOK remainder, or finalize
`filled`). -/
def submit_order (st : EngineState) (user : String) (order : OrderIn) :
    Except SubmitError (SubmitResult × EngineState) :=
  let symbol := (strUp order.symbol)
  let side := (strLo order.side)
  let typ := (strLo order.order_type)
  let qty := order.quantity
  if qty ≤ 0 then .error .invalidQuantity
  else if (typ = "limit" ∨ typ = "ioc" ∨ typ = "fok") ∧ order.price = none then
    .error .missingPrice
  else
    let price := if typ = "limit" ∨ typ = "ioc" ∨ typ = "fok" then order.price else none
    let order_id := st.nextId
    let orders0 := st.orders ++
      [(order_id,
        { symbol := symbol, user := user, side := side, typ := typ,
          quantity := qty, price := price, status := "open" })]
    let gob := get_order_book st.books symbol
    let sym := gob.1
    let book := gob.2.1
    let books0 := gob.2.2
    let remaining := qty
    if typ = "fok" ∧ fokAvailable side price book < remaining then
      .ok ({ order_id := order_id, status := some "cancelled", filled := some false },
           { books := books0, orders := updateStatus orders0 order_id "cancelled",
             trades := st.trades, nextId := st.nextId + 1 })
    else
      let opp := oppOf side book
      let res := matchLoop typ side price order_id symbol (sideCount opp + 1)
                   remaining opp orders0
      let book1 : Book :=
        if side = "buy" then { book with asks := res.opp } else { book with bids := res.opp }
      if 0 < res.remaining then
        if typ = "limit" then
          -- `resting_price`: the limit price, falling back to the last
          -- `match_price` (dead for limit orders, which always carry a price).
          match (match price with | some p => some p | none => res.lastPrice : Option ℚ) with
          | none =>
            .ok ({ order_id := order_id, trades := some res.trades },
                 { books := setBook books0 sym book1,
                   orders := updateStatus res.orders order_id "cancelled",
                   trades := st.trades ++ res.trades, nextId := st.nextId + 1 })
          | some rp =>
            let book2 : Book :=
              if side = "buy" then
                { book1 with
                  bids := insertOwn true rp ⟨order_id, res.remaining⟩ book1.bids }
              else
                { book1 with
                  asks := insertOwn false rp ⟨order_id, res.remaining⟩ book1.asks }
            .ok ({ order_id := order_id, trades := some res.trades },
                 { books := setBook books0 sym book2,
                   orders := updateQtyStatus res.orders order_id res.remaining "open",
                   trades := st.trades ++ res.trades, nextId := st.nextId + 1 })
        else
          .ok ({ order_id := order_id, trades := some res.trades },
               { books := setBook books0 sym book1,
                 orders := updateStatus res.orders order_id "cancelled",
                 trades := st.trades ++ res.trades, nextId := st.nextId + 1 })
      else
        .ok ({ order_id := order_id, trades := some res.trades },
             { books := setBook books0 sym book1,
               orders := updateStatus res.orders order_id "filled",
               trades := st.trades ++ res.trades, nextId := st.nextId + 1 })

/-- Failures of `cancel_order` (HTTP 404 / 400, raised before any mutation). -/
inductive CancelError
  | notFound
  | alreadyTerminal
deriving DecidableEq, Repr

/-- The JSON body returned by a successful `cancel_order`. -/
structure CancelResult where
  order_id : Nat
  status : String
deriving DecidableEq, Repr

/-- Remove the first order with the given id from a level (the source scans
the deque and `remove`s the first match, then breaks). -/
def removeOrderFromLevel (id : Nat) : Level → Level
  | [] => []
  | o :: rest => if o.order_id = id then rest else o :: removeOrderFromLevel id rest

/-- Remove an order from the level at price `p` of a side, dropping the level
if it becomes empty (`if not queue: del side_book[price]`). -/
def removeFromSide (p : ℚ) (id : Nat) : BookSide → BookSide
  | [] => []
  | (q, lvl) :: rest =>
      if q = p then
        (match removeOrderFromLevel id lvl with
         | [] => rest
         | lvl1 => (q, lvl1) :: rest)
      else (q, lvl) :: removeFromSide p id rest

/-- Source `cancel_order`: look the order up in the orders collection, fail
with 404 when unknown and with 400 when already `filled`/`cancelled`,
otherwise remove the resting remainder from its recorded side and price and
persist status `cancelled`. -/
def cancel_order (st : EngineState) (user : String) (order_id : Nat) :
    Except CancelError (CancelResult × EngineState) :=
  match lookupOrder st.orders order_id with
  | none => .error .notFound
  | some dbOrder =>
    if dbOrder.status = "filled" ∨ dbOrder.status = "cancelled" then
      .error .alreadyTerminal
    else
      let gob := get_order_book st.books dbOrder.symbol
      let sym := gob.1
      let book := gob.2.1
      let books0 := gob.2.2
      let newBook : Book :=
        match dbOrder.price with
        | none =>
          -- The source would compare `None` against float keys here; every
          -- non-terminal record the engine writes carries a price, so this
          -- membership test can only be reached with a price.
          book
        | some p =>
          if dbOrder.side = "buy" then
            { book with bids := removeFromSide p order_id book.bids }
          else
            { book with asks := removeFromSide p order_id book.asks }
      .ok ({ order_id := order_id, status := "cancelled" },
           { books := setBook books0 sym newBook,
             orders := updateStatus st.orders order_id "cancelled",
             trades := st.trades, nextId := st.nextId })

/-! ### Observation functions and well-formedness predicates -/

/-- Book of a symbol in a state (the empty book when the symbol has none),
canonicalizing the symbol the way `get_order_book` does. -/
def bookOf (st : EngineState) (s : String) : Book :=
  (lookupBook st.books (strUp s)).getD {}

/-- Persisted status of an order id. -/
def statusOf (orders : OrdersDB) (id : Nat) : Option String :=
  (lookupOrder orders id).map (·.status)

/-- The price keys of a side, best first. -/
def pricesOf (s : BookSide) : List ℚ := s.map Prod.fst

/-- Flatten a side into its `(level price, order id)` pairs in priority order
(best level first, FIFO within a level): the exact order in which the
matching loop consumes makers. -/
def flattenPM : BookSide → List (ℚ × Nat)
  | [] => []
  | (p, lvl) :: rest => lvl.map (fun o => (p, o.order_id)) ++ flattenPM rest

/-- All order ids resting in a book. -/
def bookIds (b : Book) : List Nat :=
  (flattenPM b.bids).map Prod.snd ++ (flattenPM b.asks).map Prod.snd

/-- All order ids resting in a books registry. -/
def booksIds : List (String × Book) → List Nat
  | [] => []
  | sb :: rest => bookIds sb.2 ++ booksIds rest

/-- Total quantity an order id has resting in one level. -/
def levelQtyOf (id : Nat) : Level → ℚ
  | [] => 0
  | o :: rest => (if o.order_id = id then o.quantity else 0) + levelQtyOf id rest

/-- Total quantity an order id has resting on one side. -/
def sideQty (id : Nat) : BookSide → ℚ
  | [] => 0
  | (_, lvl) :: rest => levelQtyOf id lvl + sideQty id rest

/-- Total quantity an order id has resting in one book. -/
def bookQtyOf (id : Nat) (b : Book) : ℚ := sideQty id b.bids + sideQty id b.asks

/-- Total quantity an order id has resting across a books registry. -/
def booksQty (id : Nat) : List (String × Book) → ℚ
  | [] => 0
  | sb :: rest => bookQtyOf id sb.2 + booksQty id rest

/-- Total quantity an order id has resting anywhere in a state. -/
def stQty (st : EngineState) (id : Nat) : ℚ := booksQty id st.books

/-- Total traded quantity of a trade list. -/
def tradeQtySum : List Trade → ℚ
  | [] => 0
  | t :: ts => t.quantity + tradeQtySum ts

/-- Total quantity a trade list executed against a given maker id. -/
def makerFillSum (id : Nat) : List Trade → ℚ
  | [] => 0
  | t :: ts => (if t.maker_order_id = id then t.quantity else 0) + makerFillSum id ts

/-- `xs` is an initial segment of `ys`. -/
def FrontOf (xs ys : List α) : Prop := ∃ t, xs ++ t = ys

/-- `xs` is a final segment of `ys`. -/
def BackOf (xs ys : List α) : Prop := ∃ t, t ++ xs = ys

/-- Price keys strictly sorted best-first (`isBid = true`: descending,
modelling the bid `SortedDict` read from its maximum; `isBid = false`:
ascending, the ask `SortedDict` read from its minimum). -/
def sortedSide (isBid : Bool) (s : BookSide) : Prop :=
  List.Pairwise (fun a b => if isBid then b < a else a < b) (pricesOf s)

/-- Weak best-first ordering of the side an incoming order with aggressor
side `side` matches against. -/
def headBest (side : String) (s : BookSide) : Prop :=
  List.Pairwise (fun a b => if side = "buy" then a ≤ b else b ≤ a) (pricesOf s)

/-- Every level of the side is a non-empty queue of positive quantities
(the source removes empty levels eagerly and never rests `qty ≤ 0`). -/
def posSide (s : BookSide) : Prop :=
  ∀ pl ∈ s, pl.2 ≠ [] ∧ ∀ o ∈ pl.2, 0 < o.quantity

/-- No crossed book: every bid price is strictly below every ask price. -/
def NoCross (b : Book) : Prop :=
  ∀ pb ∈ pricesOf b.bids, ∀ pa ∈ pricesOf b.asks, pb < pa

/-- Well-formed book: both sides sorted best-first, positive non-empty
levels, and not crossed. -/
def WFBook (b : Book) : Prop :=
  sortedSide true b.bids ∧ sortedSide false b.asks ∧
  posSide b.bids ∧ posSide b.asks ∧ NoCross b

/-- Every resting order of the side is indexed in the orders collection with
matching symbol (up to the canonical key), matching side and matching price:
the coherence the source relies on when `cancel_order` navigates from a
Mongo record back into the book. -/
def LocatedSide (orders : OrdersDB) (key : String) (isBids : Bool) (s : BookSide) : Prop :=
  ∀ pr ∈ flattenPM s, ∃ rec, lookupOrder orders pr.2 = some rec ∧
    (strUp rec.symbol) = key ∧
    (if isBids then rec.side = "buy" else rec.side ≠ "buy") ∧
    rec.price = some pr.1

/-- State invariant maintained by every reachable engine state. -/
structure Inv (st : EngineState) : Prop where
  wf : ∀ sb ∈ st.books, WFBook sb.2
  located : ∀ sb ∈ st.books,
    LocatedSide st.orders sb.1 true sb.2.bids ∧ LocatedSide st.orders sb.1 false sb.2.asks
  idsLt : ∀ id ∈ booksIds st.books, id < st.nextId
  idsNodup : (booksIds st.books).Nodup
  keysNodup : (st.books.map Prod.fst).Nodup
  ordKeysLt : ∀ p ∈ st.orders, p.1 < st.nextId
  tradesLt : ∀ t ∈ st.trades, t.maker_order_id < st.nextId

/-- Reachability: every state obtainable from the empty engine by a sequence
of (successful) submissions and cancellations.  Failed requests raise before
mutating anything, so they do not change the state. -/
inductive Reach : EngineState → Prop
  | init : Reach initialState
  | submitStep (st : EngineState) (u : String) (o : OrderIn) (r : SubmitResult)
      (st' : EngineState) : Reach st → submit_order st u o = .ok (r, st') → Reach st'
  | cancelStep (st : EngineState) (u : String) (id : Nat) (r : CancelResult)
      (st' : EngineState) : Reach st → cancel_order st u id = .ok (r, st') → Reach st'

/-- One external request. -/
inductive Op
  | sub (user : String) (o : OrderIn)
  | can (user : String) (id : Nat)
deriving Repr

/-- Apply one request to a state; failed requests leave the state unchanged
(the source raises its `HTTPException`s before any mutation). -/
def runOp (st : EngineState) : Op → EngineState
  | .sub u o => match submit_order st u o with | .ok p => p.2 | .error _ => st
  | .can u id => match cancel_order st u id with | .ok p => p.2 | .error _ => st

/-- Run a request trace from a state. -/
def runFrom (st : EngineState) : List Op → EngineState
  | [] => st
  | op :: rest => runFrom (runOp st op) rest

/-- Run a request trace from the empty engine. -/
def runOps (ops : List Op) : EngineState := runFrom initialState ops

/-- Original submitted quantity of the order that a trace run from `st`
assigns the identifier `id` to (`0` when the trace never creates it). -/
def origQtyAux (st : EngineState) : List Op → Nat → ℚ
  | [], _ => 0
  | op :: rest, id =>
    match op with
    | .sub u o =>
      match submit_order st u o with
      | .ok p => if p.1.order_id = id then o.quantity else origQtyAux p.2 rest id
      | .error _ => origQtyAux st rest id
    | .can u i =>
      match cancel_order st u i with
      | .ok p => origQtyAux p.2 rest id
      | .error _ => origQtyAux st rest id

/-- Original submitted quantity of order `id` along a trace from the empty
engine. -/
def origQty (ops : List Op) (id : Nat) : ℚ := origQtyAux initialState ops id

/-! ### Named projections of the paths of `submit_order`

These definitions name the intermediate values `submit_order` computes
(normalized type/side/price, the fetched book, the loop result, the possible
final states), so that theorems can speak about them; `submit_ok_cases`
proves they match the source function. -/

/-- Normalized order type (`typ` in the source). -/
def subTyp (o : OrderIn) : String := (strLo o.order_type)

/-- Normalized side (`side` in the source). -/
def subSide (o : OrderIn) : String := (strLo o.side)

/-- Normalized price: the submitted price for priced types, `None` for the
rest (`price` in the source). -/
def subPrice (o : OrderIn) : Option ℚ :=
  if subTyp o = "limit" ∨ subTyp o = "ioc" ∨ subTyp o = "fok" then o.price else none

/-- The Mongo document `submit_order` inserts for a new order. -/
def newRec (u : String) (o : OrderIn) : DBRecord :=
  { symbol := (strUp o.symbol), user := u, side := subSide o, typ := subTyp o,
    quantity := o.quantity, price := subPrice o, status := "open" }

/-- The canonical books-registry key `submit_order` uses. -/
def subKey (o : OrderIn) : String := (strUp (strUp o.symbol))

/-- The book `submit_order` fetches (or creates empty). -/
def subBook (st : EngineState) (o : OrderIn) : Book := bookOf st (strUp o.symbol)

/-- The books registry after `get_order_book` (possibly extended by a fresh
empty book). -/
def subBooks0 (st : EngineState) (o : OrderIn) : List (String × Book) :=
  (get_order_book st.books (strUp o.symbol)).2.2

/-- The orders collection right after the `open` insert. -/
def subOrders0 (st : EngineState) (u : String) (o : OrderIn) : OrdersDB :=
  st.orders ++ [(st.nextId, newRec u o)]

/-- The opposite side the submission matches against. -/
def subOpp (st : EngineState) (o : OrderIn) : BookSide :=
  oppOf (subSide o) (subBook st o)

/-- The matching-loop result of the submission. -/
def subRes (st : EngineState) (u : String) (o : OrderIn) : LoopResult :=
  matchLoop (subTyp o) (subSide o) (subPrice o) st.nextId (strUp o.symbol)
    (sideCount (subOpp st o) + 1) o.quantity (subOpp st o) (subOrders0 st u o)

/-- The book with the consumed opposite side written back. -/
def subBook1 (st : EngineState) (u : String) (o : OrderIn) : Book :=
  if subSide o = "buy" then { subBook st o with asks := (subRes st u o).opp }
  else { subBook st o with bids := (subRes st u o).opp }

/-- The book after additionally resting the limit remainder at `rp`. -/
def subBook2 (st : EngineState) (u : String) (o : OrderIn) (rp : ℚ) : Book :=
  if subSide o = "buy" then
    { subBook1 st u o with
      bids := insertOwn true rp ⟨st.nextId, (subRes st u o).remaining⟩ (subBook1 st u o).bids }
  else
    { subBook1 st u o with
      asks := insertOwn false rp ⟨st.nextId, (subRes st u o).remaining⟩ (subBook1 st u o).asks }

/-- Final state of the FOK-infeasibility path. -/
def subFokSt (st : EngineState) (u : String) (o : OrderIn) : EngineState :=
  { books := subBooks0 st o,
    orders := updateStatus (subOrders0 st u o) st.nextId "cancelled",
    trades := st.trades, nextId := st.nextId + 1 }

/-- Final state of the matching path, parametrized by the final book and the
final orders collection. -/
def subFinSt (st : EngineState) (u : String) (o : OrderIn) (b : Book) (odb : OrdersDB) :
    EngineState :=
  { books := setBook (subBooks0 st o) (subKey o) b, orders := odb,
    trades := st.trades ++ (subRes st u o).trades, nextId := st.nextId + 1 }

/-- The book a successful `cancel_order` writes back for the cancelled
order's symbol. -/
def cancelBook (st : EngineState) (dbOrder : DBRecord) (id : Nat) : Book :=
  match dbOrder.price with
  | none => bookOf st dbOrder.symbol
  | some p =>
    if dbOrder.side = "buy" then
      { bookOf st dbOrder.symbol with
        bids := removeFromSide p id (bookOf st dbOrder.symbol).bids }
    else
      { bookOf st dbOrder.symbol with
        asks := removeFromSide p id (bookOf st dbOrder.symbol).asks }

/-- The fields of an orders-collection record that the matching loop never
touches (everything except quantity and status). -/
def dbStatic (r : DBRecord) : String × String × String × String × Option ℚ :=
  (r.symbol, r.user, r.side, r.typ, r.price)

/-! ### Concrete request traces used to exercise the definitions

Small concrete orders, traces and result extractors; they instantiate the
claim theorems on runnable inputs. -/

/-- Extract the payload of a successful submission (dummy fallback for the
error case, which the concrete uses below never hit). -/
def okSub (st : EngineState) (u : String) (o : OrderIn) : SubmitResult × EngineState :=
  match submit_order st u o with
  | .ok p => p
  | .error _ => ({ order_id := st.nextId }, st)

/-- A placeholder trade (never a real one; fallback for list extraction). -/
def dummyTrade : Trade :=
  { symbol := "", price := 0, quantity := 0, maker_order_id := 0, taker_order_id := 0,
    aggressor_side := "" }

/-- Resting sell 0.4 @ 100. -/
def c1Sell1 : OrderIn :=
  { symbol := "BTC", order_type := "limit", side := "sell", quantity := 2/5, price := some 100 }

/-- Resting sell 0.6 @ 100, queued behind `c1Sell1`. -/
def c1Sell2 : OrderIn :=
  { symbol := "BTC", order_type := "limit", side := "sell", quantity := 3/5, price := some 100 }

/-- IOC buy 1.0 @ 100 against the two resting asks. -/
def c1Buy : OrderIn :=
  { symbol := "BTC", order_type := "ioc", side := "buy", quantity := 1, price := some 100 }

/-- Book with two makers at one ask level. -/
def c1St : EngineState := runOps [Op.sub "alice" c1Sell1, Op.sub "bob" c1Sell2]

/-- Result of the IOC submission. -/
def c1Out : SubmitResult × EngineState := okSub c1St "carol" c1Buy

/-- Market buy on an empty book: success path with a `trades` key only. -/
def c2o : OrderIn :=
  { symbol := "BTC", order_type := "market", side := "buy", quantity := 1, price := none }

/-- Result of submitting `c2o` to the empty engine. -/
def c2Out : SubmitResult × EngineState := okSub initialState "alice" c2o

/-- FOK buy on an empty book: infeasibility path with a `status` key only. -/
def c2f : OrderIn :=
  { symbol := "BTC", order_type := "fok", side := "buy", quantity := 1, price := some 100 }

/-- Result of submitting `c2f` to the empty engine. -/
def c2fOut : SubmitResult × EngineState := okSub initialState "alice" c2f

/-- FOK buy against an empty book (infeasible). -/
def c3o : OrderIn :=
  { symbol := "BTC", order_type := "fok", side := "buy", quantity := 1, price := some 100 }

/-- Result of submitting `c3o` to the empty engine. -/
def c3Out : SubmitResult × EngineState := okSub initialState "alice" c3o

/-- A bid at 99 and an ask at 101: a two-sided uncrossed book. -/
def c4Ops : List Op :=
  [Op.sub "alice" { symbol := "BTC", order_type := "limit", side := "buy",
                    quantity := 1, price := some 99 },
   Op.sub "bob" { symbol := "BTC", order_type := "limit", side := "sell",
                  quantity := 1, price := some 101 }]

/-- Asks at two levels: 0.4 @ 100 then 0.6 @ 101. -/
def c5St : EngineState := runOps
  [Op.sub "alice" { symbol := "BTC", order_type := "limit", side := "sell",
                    quantity := 2/5, price := some 100 },
   Op.sub "bob" { symbol := "BTC", order_type := "limit", side := "sell",
                  quantity := 3/5, price := some 101 }]

/-- Limit buy 1.0 @ 101 sweeping both ask levels. -/
def c5o : OrderIn :=
  { symbol := "BTC", order_type := "limit", side := "buy", quantity := 1, price := some 101 }

/-- Result of the sweeping buy. -/
def c5Out : SubmitResult × EngineState := okSub c5St "carol" c5o

/-- A single resting ask 1.0 @ 100. -/
def c6St : EngineState := runOps
  [Op.sub "alice" { symbol := "BTC", order_type := "limit", side := "sell",
                    quantity := 1, price := some 100 }]

/-- Limit buy 1.0 @ 105 against the ask at 100. -/
def c6o : OrderIn :=
  { symbol := "BTC", order_type := "limit", side := "buy", quantity := 1, price := some 105 }

/-- The single trade that buy produces. -/
def c6t : Trade := ((subRes c6St "bob" c6o).trades).headD dummyTrade

/-- One resting open bid (order id 0). -/
def c7Ops : List Op :=
  [Op.sub "alice" { symbol := "BTC", order_type := "limit", side := "buy",
                    quantity := 1, price := some 100 }]

/-- A maker filled by an incoming crossing order. -/
def c8Ops : List Op :=
  [Op.sub "alice" { symbol := "BTC", order_type := "limit", side := "sell",
                    quantity := 1, price := some 100 },
   Op.sub "bob" { symbol := "BTC", order_type := "limit", side := "buy",
                  quantity := 1, price := some 100 }]

/-! ### Basic lemmas about the registry and collection helpers -/

theorem lookupOrder_append (a b : OrdersDB) (i : Nat) :
    lookupOrder (a ++ b) i =
      match lookupOrder a i with | some r => some r | none => lookupOrder b i := by
  induction a with
  | nil => rfl
  | cons p rest ih =>
    by_cases hp : p.1 = i
    · simp [lookupOrder, hp]
    · simpa [lookupOrder, hp] using ih

theorem lookupOrder_eq_none (db : OrdersDB) (n : Nat) (h : ∀ p ∈ db, p.1 ≠ n) :
    lookupOrder db n = none := by
  induction db with
  | nil => rfl
  | cons p rest ih =>
    have := h p (List.mem_cons_self p rest)
    simp only [lookupOrder, if_neg this]
    exact ih fun q hq => h q (List.mem_cons_of_mem p hq)

theorem lookupOrder_updateStatus (db : OrdersDB) (n : Nat) (s : String) (i : Nat) :
    lookupOrder (updateStatus db n s) i =
      if i = n then (lookupOrder db n).map (fun r => { r with status := s })
      else lookupOrder db i := by
  induction db with
  | nil => simp [updateStatus, lookupOrder]
  | cons p rest ih =>
    by_cases hp : p.1 = n
    · by_cases hin : i = n
      · subst hin
        simp [updateStatus, lookupOrder, hp]
      · have hni : ¬n = i := fun h => hin h.symm
        simp [updateStatus, lookupOrder, hp, hin, hni]
    · by_cases hip : p.1 = i
      · have hin : ¬i = n := fun h => hp (hip.trans h)
        simp [updateStatus, lookupOrder, hp, hip, hin]
      · simpa [updateStatus, lookupOrder, hp, hip] using ih

theorem lookupOrder_updateQtyStatus (db : OrdersDB) (n : Nat) (q : ℚ) (s : String) (i : Nat) :
    lookupOrder (updateQtyStatus db n q s) i =
      if i = n then (lookupOrder db n).map (fun r => { r with quantity := q, status := s })
      else lookupOrder db i := by
  induction db with
  | nil => simp [updateQtyStatus, lookupOrder]
  | cons p rest ih =>
    by_cases hp : p.1 = n
    · by_cases hin : i = n
      · subst hin
        simp [updateQtyStatus, lookupOrder, hp]
      · have hni : ¬n = i := fun h => hin h.symm
        simp [updateQtyStatus, lookupOrder, hp, hin, hni]
    · by_cases hip : p.1 = i
      · have hin : ¬i = n := fun h => hp (hip.trans h)
        simp [updateQtyStatus, lookupOrder, hp, hip, hin]
      · simpa [updateQtyStatus, lookupOrder, hp, hip] using ih

theorem updateStatus_keys (db : OrdersDB) (n : Nat) (s : String) :
    (updateStatus db n s).map Prod.fst = db.map Prod.fst := by
  induction db with
  | nil => rfl
  | cons p rest ih =>
    by_cases hp : p.1 = n <;> simp [updateStatus, hp, ih]

theorem updateQtyStatus_keys (db : OrdersDB) (n : Nat) (q : ℚ) (s : String) :
    (updateQtyStatus db n q s).map Prod.fst = db.map Prod.fst := by
  induction db with
  | nil => rfl
  | cons p rest ih =>
    by_cases hp : p.1 = n <;> simp [updateQtyStatus, hp, ih]

theorem lookupBook_eq_none (bl : List (String × Book)) (k : String) :
    lookupBook bl k = none ↔ k ∉ bl.map Prod.fst := by
  induction bl with
  | nil => simp [lookupBook]
  | cons p rest ih =>
    by_cases hp : p.1 = k
    · simp [lookupBook, hp]
    · have hk : ¬k = p.1 := fun h => hp h.symm
      simp [lookupBook, hp, ih, hk]

theorem lookupBook_mem (bl : List (String × Book)) (k : String) (b : Book)
    (h : lookupBook bl k = some b) : (k, b) ∈ bl := by
  induction bl with
  | nil => simp [lookupBook] at h
  | cons p rest ih =>
    cases p with
    | mk s b0 =>
      by_cases hp : s = k
      · subst hp
        simp only [lookupBook, if_pos rfl] at h
        injection h with h
        subst h
        exact List.mem_cons_self _ _
      · simp only [lookupBook, if_neg hp] at h
        exact List.mem_cons_of_mem _ (ih h)

theorem setBook_absent (bl : List (String × Book)) (k : String) (b : Book)
    (h : lookupBook bl k = none) : setBook bl k b = bl ++ [(k, b)] := by
  induction bl with
  | nil => rfl
  | cons p rest ih =>
    by_cases hp : p.1 = k
    · simp [lookupBook, hp] at h
    · simp only [lookupBook, if_neg hp] at h
      cases p
      simp only [setBook, if_neg hp, List.cons_append, List.cons.injEq, true_and]
      exact ih h

theorem setBook_decomp (bl : List (String × Book)) (k : String) (b ob : Book)
    (h : lookupBook bl k = some ob) :
    ∃ pre post, bl = pre ++ (k, ob) :: post ∧ setBook bl k b = pre ++ (k, b) :: post ∧
      k ∉ pre.map Prod.fst := by
  induction bl with
  | nil => simp [lookupBook] at h
  | cons p rest ih =>
    cases p with
    | mk s b0 =>
      by_cases hp : s = k
      · subst hp
        simp only [lookupBook, if_pos rfl] at h
        injection h with h
        subst h
        exact ⟨[], rest, rfl, by simp [setBook], by simp⟩
      · simp only [lookupBook, if_neg hp] at h
        obtain ⟨pre, post, h1, h2, h3⟩ := ih h
        refine ⟨(s, b0) :: pre, post, by rw [h1, List.cons_append], ?_, ?_⟩
        · simp only [setBook, if_neg hp, h2, List.cons_append]
        · rw [List.map_cons]
          intro hmem
          rcases List.mem_cons.mp hmem with hh | hh
          · exact hp hh.symm
          · exact h3 hh

theorem lookupBook_setBook (bl : List (String × Book)) (k : String) (b : Book) (q : String) :
    lookupBook (setBook bl k b) q = if q = k then some b else lookupBook bl q := by
  induction bl with
  | nil =>
    by_cases hq : q = k
    · simp [setBook, lookupBook, hq]
    · have hk : ¬k = q := fun h => hq h.symm
      simp [setBook, lookupBook, hq, hk]
  | cons p rest ih =>
    cases p with
    | mk s b0 =>
      by_cases hs : s = k
      · subst hs
        by_cases hq : s = q
        · subst hq
          simp [setBook, lookupBook]
        · have hqs : ¬q = s := fun h => hq h.symm
          simp [setBook, lookupBook, hq, hqs]
      · simp only [setBook, if_neg hs, lookupBook]
        by_cases hsq : s = q
        · subst hsq
          simp [hs]
        · simp [hsq, ih]

theorem booksIds_append (a b : List (String × Book)) :
    booksIds (a ++ b) = booksIds a ++ booksIds b := by
  induction a with
  | nil => rfl
  | cons p rest ih => simp [booksIds, ih]

theorem booksQty_append (id : Nat) (a b : List (String × Book)) :
    booksQty id (a ++ b) = booksQty id a + booksQty id b := by
  induction a with
  | nil => simp [booksQty]
  | cons p rest ih =>
    simp only [List.cons_append, List.append_eq, booksQty, ih]
    ring

/-! ### The matching loop: conservation and structure lemmas -/

theorem matchLoop_remaining_eq (typ side : String) (price : Option ℚ) (tid : Nat) (sym : String)
    (fuel : Nat) :
    ∀ (r : ℚ) (opp : BookSide) (odb : OrdersDB),
      (matchLoop typ side price tid sym fuel r opp odb).remaining
        = r - tradeQtySum (matchLoop typ side price tid sym fuel r opp odb).trades := by
  induction fuel with
  | zero =>
    intro r opp odb
    simp [matchLoop, tradeQtySum]
  | succ fuel ih =>
    intro r opp odb
    rcases opp with _ | ⟨⟨mp, queue⟩, restL⟩
    · simp only [matchLoop]
      split <;> simp [tradeQtySum]
    rcases queue with _ | ⟨maker, makers⟩
    · simp only [matchLoop]
      split
      · split <;> simp [tradeQtySum]
      · simp [tradeQtySum]
    simp only [matchLoop]
    split
    · split
      · split
        · simp only [LoopResult.remaining, LoopResult.trades, tradeQtySum]
          ring
        · simp only [LoopResult.remaining, LoopResult.trades, tradeQtySum, ih]
          ring
      · simp [tradeQtySum]
    · simp [tradeQtySum]

theorem matchLoop_sideQty (typ side : String) (price : Option ℚ) (tid : Nat) (sym : String)
    (fuel : Nat) :
    ∀ (r : ℚ) (opp : BookSide) (odb : OrdersDB) (id : Nat),
      sideQty id (matchLoop typ side price tid sym fuel r opp odb).opp
        + makerFillSum id (matchLoop typ side price tid sym fuel r opp odb).trades
        = sideQty id opp := by
  induction fuel with
  | zero =>
    intro r opp odb id
    simp [matchLoop, makerFillSum]
  | succ fuel ih =>
    intro r opp odb id
    rcases opp with _ | ⟨⟨mp, queue⟩, restL⟩
    · simp only [matchLoop]
      split <;> simp [makerFillSum]
    rcases queue with _ | ⟨maker, makers⟩
    · simp only [matchLoop]
      split
      · split <;> simp [makerFillSum]
      · simp [makerFillSum]
    simp only [matchLoop]
    split
    · split
      · -- a trade happens
        split
        · -- IOC: single trade, stop
          simp only [LoopResult.opp, LoopResult.trades]
          by_cases hdep : maker.quantity - min r maker.quantity = 0
          · have hq : min r maker.quantity = maker.quantity := (sub_eq_zero.mp hdep).symm
            rw [if_pos hdep]
            by_cases hmk : makers = []
            · subst hmk
              rw [if_pos rfl]
              by_cases hid : maker.order_id = id <;>
                simp [makerFillSum, sideQty, levelQtyOf, hq, hid] <;> ring
            · rw [if_neg hmk]
              by_cases hid : maker.order_id = id <;>
                simp [makerFillSum, sideQty, levelQtyOf, hq, hid] <;> ring
          · rw [if_neg hdep]
            by_cases hid : maker.order_id = id <;>
              simp [makerFillSum, sideQty, levelQtyOf, hid] <;> ring
        · -- continue matching
          simp only [LoopResult.opp, LoopResult.trades]
          rw [makerFillSum, add_left_comm, ih]
          by_cases hdep : maker.quantity - min r maker.quantity = 0
          · have hq : min r maker.quantity = maker.quantity := (sub_eq_zero.mp hdep).symm
            rw [if_pos hdep]
            by_cases hmk : makers = []
            · subst hmk
              rw [if_pos rfl]
              by_cases hid : maker.order_id = id <;>
                simp [makerFillSum, sideQty, levelQtyOf, hq, hid] <;> ring
            · rw [if_neg hmk]
              by_cases hid : maker.order_id = id <;>
                simp [makerFillSum, sideQty, levelQtyOf, hq, hid] <;> ring
          · rw [if_neg hdep]
            by_cases hid : maker.order_id = id <;>
              simp [makerFillSum, sideQty, levelQtyOf, hid] <;> ring
      · simp [makerFillSum]
    · simp [makerFillSum]

theorem matchLoop_nonpos (typ side : String) (price : Option ℚ) (tid : Nat) (sym : String)
    (fuel : Nat) (r : ℚ) (opp : BookSide) (odb : OrdersDB) (hr : ¬0 < r) :
    matchLoop typ side price tid sym fuel r opp odb = ⟨r, opp, odb, [], none⟩ := by
  cases fuel with
  | zero => rfl
  | succ fuel => simp only [matchLoop, if_neg hr]

theorem matchLoop_min_eq (r mq : ℚ) (hdep : ¬mq - min r mq = 0) : min r mq = r := by
  rcases le_total r mq with hle | hle
  · exact min_eq_left hle
  · refine absurd ?_ hdep
    rw [min_eq_right hle]
    ring

theorem matchLoop_remaining_nonneg (typ side : String) (price : Option ℚ) (tid : Nat)
    (sym : String) (fuel : Nat) :
    ∀ (r : ℚ) (opp : BookSide) (odb : OrdersDB), 0 ≤ r →
      0 ≤ (matchLoop typ side price tid sym fuel r opp odb).remaining := by
  induction fuel with
  | zero =>
    intro r opp odb hr
    simpa [matchLoop] using hr
  | succ fuel ih =>
    intro r opp odb hr
    rcases opp with _ | ⟨⟨mp, queue⟩, restL⟩
    · simp only [matchLoop]
      split <;> simpa using hr
    rcases queue with _ | ⟨maker, makers⟩
    · simp only [matchLoop]
      split
      · split <;> simpa using hr
      · simpa using hr
    simp only [matchLoop]
    split
    · split
      · have hr1 : (0 : ℚ) ≤ r - min r maker.quantity := by
          have := min_le_left r maker.quantity
          linarith
        split
        · simpa using hr1
        · simpa using ih (r - min r maker.quantity) _ _ hr1
      · simpa using hr
    · simpa using hr

theorem posSide_cons (p : ℚ) (l : Level) (s : BookSide) :
    posSide ((p, l) :: s) ↔ (l ≠ [] ∧ ∀ o ∈ l, 0 < o.quantity) ∧ posSide s := by
  simp [posSide]

theorem matchLoop_posSide (typ side : String) (price : Option ℚ) (tid : Nat) (sym : String)
    (fuel : Nat) :
    ∀ (r : ℚ) (opp : BookSide) (odb : OrdersDB), posSide opp →
      posSide (matchLoop typ side price tid sym fuel r opp odb).opp := by
  induction fuel with
  | zero =>
    intro r opp odb hp
    simpa [matchLoop] using hp
  | succ fuel ih =>
    intro r opp odb hp
    rcases opp with _ | ⟨⟨mp, queue⟩, restL⟩
    · simp only [matchLoop]
      split <;> simpa using hp
    rcases queue with _ | ⟨maker, makers⟩
    · simp only [matchLoop]
      split
      · split <;> simpa using hp
      · simpa using hp
    obtain ⟨⟨-, hql⟩, hrest⟩ := (posSide_cons mp (maker :: makers) restL).mp hp
    have hmq : 0 < maker.quantity := hql maker (List.mem_cons_self _ _)
    have hmakers : ∀ o ∈ makers, 0 < o.quantity :=
      fun o ho => hql o (List.mem_cons_of_mem _ ho)
    simp only [matchLoop]
    split
    · split
      · have hstep : ∀ oq : BookSide,
            oq = (if maker.quantity - min r maker.quantity = 0 then
                    (if makers = [] then restL else (mp, makers) :: restL)
                  else (mp, { maker with quantity := maker.quantity - min r maker.quantity }
                    :: makers) :: restL) → posSide oq := by
          intro oq hoq
          subst hoq
          by_cases hdep : maker.quantity - min r maker.quantity = 0
          · rw [if_pos hdep]
            by_cases hmk : makers = []
            · rw [if_pos hmk]
              exact hrest
            · rw [if_neg hmk]
              exact (posSide_cons _ _ _).mpr ⟨⟨hmk, hmakers⟩, hrest⟩
          · rw [if_neg hdep]
            refine (posSide_cons _ _ _).mpr ⟨⟨by simp, ?_⟩, hrest⟩
            intro o ho
            rcases List.mem_cons.mp ho with ho | ho
            · subst ho
              have hle := min_le_right r maker.quantity
              have : (0 : ℚ) ≤ maker.quantity - min r maker.quantity := by linarith
              simpa using lt_of_le_of_ne this (Ne.symm hdep)
            · exact hmakers o ho
        split
        · exact hstep _ rfl
        · exact ih _ _ _ (hstep _ rfl)
      · simpa using hp
    · simpa using hp

theorem matchLoop_trades_pos (typ side : String) (price : Option ℚ) (tid : Nat) (sym : String)
    (fuel : Nat) :
    ∀ (r : ℚ) (opp : BookSide) (odb : OrdersDB), posSide opp →
      ∀ t ∈ (matchLoop typ side price tid sym fuel r opp odb).trades, 0 < t.quantity := by
  induction fuel with
  | zero =>
    intro r opp odb hp t ht
    simp [matchLoop] at ht
  | succ fuel ih =>
    intro r opp odb hp t ht
    rcases opp with _ | ⟨⟨mp, queue⟩, restL⟩
    · simp only [matchLoop] at ht
      split at ht <;> simp at ht
    rcases queue with _ | ⟨maker, makers⟩
    · simp only [matchLoop] at ht
      split at ht
      · split at ht <;> simp at ht
      · simp at ht
    obtain ⟨⟨-, hql⟩, hrest⟩ := (posSide_cons mp (maker :: makers) restL).mp hp
    have hmq : 0 < maker.quantity := hql maker (List.mem_cons_self _ _)
    have hmakers : ∀ o ∈ makers, 0 < o.quantity :=
      fun o ho => hql o (List.mem_cons_of_mem _ ho)
    have hp1 : posSide (if maker.quantity - min r maker.quantity = 0 then
        (if makers = [] then restL else (mp, makers) :: restL)
      else (mp, { maker with quantity := maker.quantity - min r maker.quantity }
        :: makers) :: restL) := by
      by_cases hdep : maker.quantity - min r maker.quantity = 0
      · rw [if_pos hdep]
        by_cases hmk : makers = []
        · rw [if_pos hmk]
          exact hrest
        · rw [if_neg hmk]
          exact (posSide_cons _ _ _).mpr ⟨⟨hmk, hmakers⟩, hrest⟩
      · rw [if_neg hdep]
        refine (posSide_cons _ _ _).mpr ⟨⟨by simp, ?_⟩, hrest⟩
        intro o ho
        rcases List.mem_cons.mp ho with ho | ho
        · subst ho
          have hle := min_le_right r maker.quantity
          have : (0 : ℚ) ≤ maker.quantity - min r maker.quantity := by linarith
          simpa using lt_of_le_of_ne this (Ne.symm hdep)
        · exact hmakers o ho
    simp only [matchLoop] at ht
    split at ht
    · next hr =>
      split at ht
      · have htq : 0 < min r maker.quantity := lt_min hr hmq
        split at ht
        · simp only [LoopResult.trades, List.mem_singleton] at ht
          subst ht
          simpa using htq
        · simp only [LoopResult.trades, List.mem_cons] at ht
          rcases ht with ht | ht
          · subst ht
            simpa using htq
          · exact ih _ _ _ hp1 t ht
      · simp at ht
    · simp at ht

theorem matchLoop_trades_facts (typ side : String) (price : Option ℚ) (tid : Nat) (sym : String)
    (fuel : Nat) :
    ∀ (r : ℚ) (opp : BookSide) (odb : OrdersDB),
      ∀ t ∈ (matchLoop typ side price tid sym fuel r opp odb).trades,
        t.taker_order_id = tid ∧ t.aggressor_side = side ∧ t.symbol = sym ∧
        marketable side price t.price = true := by
  induction fuel with
  | zero =>
    intro r opp odb t ht
    simp [matchLoop] at ht
  | succ fuel ih =>
    intro r opp odb t ht
    rcases opp with _ | ⟨⟨mp, queue⟩, restL⟩
    · simp only [matchLoop] at ht
      split at ht <;> simp at ht
    rcases queue with _ | ⟨maker, makers⟩
    · simp only [matchLoop] at ht
      split at ht
      · split at ht <;> simp at ht
      · simp at ht
    simp only [matchLoop] at ht
    split at ht
    · split at ht
      · next hmkt =>
        split at ht
        · simp only [LoopResult.trades, List.mem_singleton] at ht
          subst ht
          exact ⟨rfl, rfl, rfl, hmkt⟩
        · simp only [LoopResult.trades, List.mem_cons] at ht
          rcases ht with ht | ht
          · subst ht
            exact ⟨rfl, rfl, rfl, hmkt⟩
          · exact ih _ _ _ t ht
      · simp at ht
    · simp at ht

/-! ### Initial and final segments -/

theorem frontOf_nil (ys : List α) : FrontOf [] ys := ⟨ys, rfl⟩

theorem frontOf_cons (a : α) (xs ys : List α) (h : FrontOf xs ys) :
    FrontOf (a :: xs) (a :: ys) := by
  obtain ⟨t, ht⟩ := h
  exact ⟨t, by simp [ht]⟩

theorem frontOf_mem (xs ys : List α) (a : α) (h : FrontOf xs ys) (ha : a ∈ xs) : a ∈ ys := by
  obtain ⟨t, ht⟩ := h
  rw [← ht]
  exact List.mem_append_left t ha

theorem frontOf_map (f : α → β) (xs ys : List α) (h : FrontOf xs ys) :
    FrontOf (xs.map f) (ys.map f) := by
  obtain ⟨t, ht⟩ := h
  exact ⟨t.map f, by rw [← List.map_append, ht]⟩

theorem frontOf_pairwise (R : α → α → Prop) (xs ys : List α) (h : FrontOf xs ys)
    (hp : ys.Pairwise R) : xs.Pairwise R := by
  obtain ⟨t, ht⟩ := h
  rw [← ht] at hp
  exact (List.pairwise_append.mp hp).1

theorem frontOf_length (xs ys : List α) (h : FrontOf xs ys) : xs.length ≤ ys.length := by
  obtain ⟨t, ht⟩ := h
  rw [← ht]
  simp

theorem frontOf_getElem (xs ys : List α) (h : FrontOf xs ys) (i : Nat) (hi : i < xs.length)
    (hi' : i < ys.length) : xs[i] = ys[i] := by
  obtain ⟨t, ht⟩ := h
  subst ht
  exact (List.getElem_append_left hi).symm

theorem backOf_refl (xs : List α) : BackOf xs xs := ⟨[], rfl⟩

theorem backOf_trans (xs ys zs : List α) (h1 : BackOf xs ys) (h2 : BackOf ys zs) :
    BackOf xs zs := by
  obtain ⟨t1, ht1⟩ := h1
  obtain ⟨t2, ht2⟩ := h2
  exact ⟨t2 ++ t1, by rw [List.append_assoc, ht1, ht2]⟩

theorem backOf_cons (a : α) (xs : List α) : BackOf xs (a :: xs) := ⟨[a], rfl⟩

theorem backOf_mem (xs ys : List α) (a : α) (h : BackOf xs ys) (ha : a ∈ xs) : a ∈ ys := by
  obtain ⟨t, ht⟩ := h
  rw [← ht]
  exact List.mem_append_right t ha

theorem backOf_pairwise (R : α → α → Prop) (xs ys : List α) (h : BackOf xs ys)
    (hp : ys.Pairwise R) : xs.Pairwise R := by
  obtain ⟨t, ht⟩ := h
  rw [← ht] at hp
  exact (List.pairwise_append.mp hp).2.1

/-! ### Sum helpers -/

theorem tradeQtySum_append (a b : List Trade) :
    tradeQtySum (a ++ b) = tradeQtySum a + tradeQtySum b := by
  induction a with
  | nil => simp [tradeQtySum]
  | cons t rest ih =>
    simp only [List.cons_append, List.append_eq, tradeQtySum, ih]
    ring

theorem makerFillSum_append (id : Nat) (a b : List Trade) :
    makerFillSum id (a ++ b) = makerFillSum id a + makerFillSum id b := by
  induction a with
  | nil => simp [makerFillSum]
  | cons t rest ih =>
    simp only [List.cons_append, List.append_eq, makerFillSum, ih]
    ring

theorem makerFillSum_eq_zero (id : Nat) (ts : List Trade)
    (h : ∀ t ∈ ts, t.maker_order_id ≠ id) : makerFillSum id ts = 0 := by
  induction ts with
  | nil => rfl
  | cons t rest ih =>
    have := h t (List.mem_cons_self t rest)
    simp only [makerFillSum, if_neg this, zero_add]
    exact ih fun t' ht' => h t' (List.mem_cons_of_mem t ht')

theorem tradeQtySum_nonneg (ts : List Trade) (h : ∀ t ∈ ts, 0 < t.quantity) :
    0 ≤ tradeQtySum ts := by
  induction ts with
  | nil => simp [tradeQtySum]
  | cons t rest ih =>
    have h1 := h t (List.mem_cons_self t rest)
    have h2 := ih fun t' ht' => h t' (List.mem_cons_of_mem t ht')
    simp only [tradeQtySum]
    positivity

theorem makerFillSum_le_tradeQtySum (id : Nat) (ts : List Trade)
    (h : ∀ t ∈ ts, 0 < t.quantity) : makerFillSum id ts ≤ tradeQtySum ts := by
  induction ts with
  | nil => simp [makerFillSum, tradeQtySum]
  | cons t rest ih =>
    have h1 := h t (List.mem_cons_self t rest)
    have h2 := ih fun t' ht' => h t' (List.mem_cons_of_mem t ht')
    simp only [makerFillSum, tradeQtySum]
    by_cases hid : t.maker_order_id = id
    · simp only [if_pos hid]
      linarith
    · simp only [if_neg hid]
      linarith

theorem get_order_book_fst (bl : List (String × Book)) (s : String) :
    (get_order_book bl s).1 = (strUp s) := by
  simp only [get_order_book]
  cases h : lookupBook bl (strUp s) <;> simp [h]

theorem get_order_book_book (bl : List (String × Book)) (s : String) :
    (get_order_book bl s).2.1 = (lookupBook bl (strUp s)).getD {} := by
  simp only [get_order_book]
  cases h : lookupBook bl (strUp s) <;> simp [h]

/-- Characterization of every successful return of `submit_order`: the
validation passed, the id is the state's counter, and the result and final
state take one of the four source shapes (FOK infeasibility; limit residual
rested; IOC/market residual cancelled; fully filled). -/
theorem submit_ok_cases (st : EngineState) (u : String) (o : OrderIn) (r : SubmitResult)
    (st' : EngineState) (h : submit_order st u o = .ok (r, st')) :
    0 < o.quantity ∧ r.order_id = st.nextId ∧
    ((subTyp o = "fok" ∧ fokAvailable (subSide o) (subPrice o) (subBook st o) < o.quantity ∧
        r = { order_id := st.nextId, status := some "cancelled", filled := some false } ∧
        st' = subFokSt st u o)
     ∨ (¬(subTyp o = "fok" ∧ fokAvailable (subSide o) (subPrice o) (subBook st o) < o.quantity) ∧
        r = { order_id := st.nextId, trades := some (subRes st u o).trades } ∧
        ((0 < (subRes st u o).remaining ∧ subTyp o = "limit" ∧
           ∃ rp, subPrice o = some rp ∧
             st' = subFinSt st u o (subBook2 st u o rp)
                     (updateQtyStatus (subRes st u o).orders st.nextId
                       (subRes st u o).remaining "open"))
         ∨ (0 < (subRes st u o).remaining ∧ subTyp o ≠ "limit" ∧
             st' = subFinSt st u o (subBook1 st u o)
                     (updateStatus (subRes st u o).orders st.nextId "cancelled"))
         ∨ (¬0 < (subRes st u o).remaining ∧
             st' = subFinSt st u o (subBook1 st u o)
                     (updateStatus (subRes st u o).orders st.nextId "filled"))))) := by
  simp only [submit_order] at h
  split at h
  · exact absurd h (by simp)
  next hqty =>
  split at h
  · exact absurd h (by simp)
  next hpr =>
  have hq : 0 < o.quantity := lt_of_not_le hqty
  rw [get_order_book_fst, get_order_book_book] at h
  rw [show (strLo o.order_type) = subTyp o from rfl] at h
  rw [show (strLo o.side) = subSide o from rfl] at h
  rw [show (if subTyp o = "limit" ∨ subTyp o = "ioc" ∨ subTyp o = "fok" then o.price else none)
        = subPrice o from rfl] at h
  rw [show (lookupBook st.books (strUp (strUp o.symbol))).getD {} = subBook st o from rfl] at h
  rw [show (strUp (strUp o.symbol)) = subKey o from rfl] at h
  rw [show oppOf (subSide o) (subBook st o) = subOpp st o from rfl] at h
  rw [show ({ symbol := (strUp o.symbol)
              user := u
              side := subSide o
              typ := subTyp o
              quantity := o.quantity
              price := subPrice o
              status := "open" } : DBRecord)
        = newRec u o from rfl] at h
  rw [show st.orders ++ [(st.nextId, newRec u o)] = subOrders0 st u o from rfl] at h
  rw [show matchLoop (subTyp o) (subSide o) (subPrice o) st.nextId (strUp o.symbol)
        (sideCount (subOpp st o) + 1) o.quantity (subOpp st o) (subOrders0 st u o)
        = subRes st u o from rfl] at h
  rw [show (get_order_book st.books (strUp o.symbol)).2.2 = subBooks0 st o from rfl] at h
  rw [show (if subSide o = "buy" then { subBook st o with asks := (subRes st u o).opp }
        else { subBook st o with bids := (subRes st u o).opp }) = subBook1 st u o from rfl] at h
  split at h
  · -- FOK infeasibility path
    next hfok =>
    injection h with h
    injection h with hr hst
    subst hr hst
    exact ⟨hq, rfl, Or.inl ⟨hfok.1, hfok.2, rfl, by simp only [subFokSt]⟩⟩
  next hfok =>
  split at h
  · -- a residual remains
    next hrem =>
    split at h
    · -- limit: rest the residual
      next hlim =>
      have hop : ∃ q, o.price = some q := by
        rcases ho : o.price with _ | q
        · refine absurd ⟨Or.inl ?_, ho⟩ hpr
          exact hlim
        · exact ⟨q, rfl⟩
      obtain ⟨q, hop⟩ := hop
      have hprice : subPrice o = some q := by
        rw [subPrice, if_pos (Or.inl hlim), hop]
      split at h
      · -- dead branch: a limit order always carries a price
        next heq =>
        rw [hprice] at heq
        exact absurd heq (by simp)
      next rp heq =>
      rw [hprice] at heq
      injection heq with heq
      injection h with h
      injection h with hr hst
      subst hr hst
      refine ⟨hq, rfl, Or.inr ⟨hfok, rfl, Or.inl ⟨hrem, hlim, rp, ?_, ?_⟩⟩⟩
      · rw [hprice, heq]
      · rw [show subBook2 st u o rp =
          (if subSide o = "buy" then
            { subBook1 st u o with
              bids := insertOwn true rp ⟨st.nextId, (subRes st u o).remaining⟩
                (subBook1 st u o).bids }
          else
            { subBook1 st u o with
              asks := insertOwn false rp ⟨st.nextId, (subRes st u o).remaining⟩
                (subBook1 st u o).asks }) from rfl]
        simp only [subFinSt]
    · -- non-limit residual: cancel the remainder
      next hlim =>
      injection h with h
      injection h with hr hst
      subst hr hst
      exact ⟨hq, rfl, Or.inr ⟨hfok, rfl, Or.inr (Or.inl ⟨hrem, hlim, by simp only [subFinSt]⟩)⟩⟩
  · -- fully filled
    next hrem =>
    injection h with h
    injection h with hr hst
    subst hr hst
    exact ⟨hq, rfl, Or.inr ⟨hfok, rfl, Or.inr (Or.inr ⟨hrem, by simp only [subFinSt]⟩)⟩⟩


/-! ### More matching-loop lemmas: untouched record fields, segment
structure, exit conditions -/

theorem updateStatus_static (db : OrdersDB) (n : Nat) (s : String) (i : Nat) :
    (lookupOrder (updateStatus db n s) i).map dbStatic = (lookupOrder db i).map dbStatic := by
  rw [lookupOrder_updateStatus]
  by_cases hin : i = n
  · subst hin
    cases lookupOrder db i <;> simp [dbStatic]
  · rw [if_neg hin]

theorem updateQtyStatus_static (db : OrdersDB) (n : Nat) (q : ℚ) (s : String) (i : Nat) :
    (lookupOrder (updateQtyStatus db n q s) i).map dbStatic
      = (lookupOrder db i).map dbStatic := by
  rw [lookupOrder_updateQtyStatus]
  by_cases hin : i = n
  · subst hin
    cases lookupOrder db i <;> simp [dbStatic]
  · rw [if_neg hin]

theorem matchLoop_orders_static (typ side : String) (price : Option ℚ) (tid : Nat)
    (sym : String) (fuel : Nat) :
    ∀ (r : ℚ) (opp : BookSide) (odb : OrdersDB) (i : Nat),
      (lookupOrder (matchLoop typ side price tid sym fuel r opp odb).orders i).map dbStatic
        = (lookupOrder odb i).map dbStatic := by
  induction fuel with
  | zero =>
    intro r opp odb i
    simp [matchLoop]
  | succ fuel ih =>
    intro r opp odb i
    rcases opp with _ | ⟨⟨mp, queue⟩, restL⟩
    · simp only [matchLoop]
      split <;> simp
    rcases queue with _ | ⟨maker, makers⟩
    · simp only [matchLoop]
      split
      · split <;> simp
      · simp
    simp only [matchLoop]
    split
    · split
      · split
        · simp only [LoopResult.orders]
          split
          · exact updateStatus_static _ _ _ _
          · exact updateQtyStatus_static _ _ _ _ _
        · simp only [LoopResult.orders]
          rw [ih]
          split
          · exact updateStatus_static _ _ _ _
          · exact updateQtyStatus_static _ _ _ _ _
      · simp
    · simp

theorem matchLoop_orders_keys (typ side : String) (price : Option ℚ) (tid : Nat)
    (sym : String) (fuel : Nat) :
    ∀ (r : ℚ) (opp : BookSide) (odb : OrdersDB),
      (matchLoop typ side price tid sym fuel r opp odb).orders.map Prod.fst
        = odb.map Prod.fst := by
  induction fuel with
  | zero =>
    intro r opp odb
    simp [matchLoop]
  | succ fuel ih =>
    intro r opp odb
    rcases opp with _ | ⟨⟨mp, queue⟩, restL⟩
    · simp only [matchLoop]
      split <;> simp
    rcases queue with _ | ⟨maker, makers⟩
    · simp only [matchLoop]
      split
      · split <;> simp
      · simp
    simp only [matchLoop]
    split
    · split
      · split
        · simp only [LoopResult.orders]
          split
          · exact updateStatus_keys _ _ _
          · exact updateQtyStatus_keys _ _ _ _
        · simp only [LoopResult.orders]
          rw [ih]
          split
          · exact updateStatus_keys _ _ _
          · exact updateQtyStatus_keys _ _ _ _
      · simp
    · simp

theorem pricesOf_cons (p : ℚ) (l : Level) (s : BookSide) :
    pricesOf ((p, l) :: s) = p :: pricesOf s := rfl

theorem matchLoop_frontOf (typ side : String) (price : Option ℚ) (tid : Nat) (sym : String)
    (fuel : Nat) :
    ∀ (r : ℚ) (opp : BookSide) (odb : OrdersDB),
      FrontOf ((matchLoop typ side price tid sym fuel r opp odb).trades.map
          (fun t => (t.price, t.maker_order_id)))
        (flattenPM opp) := by
  induction fuel with
  | zero =>
    intro r opp odb
    simpa [matchLoop] using frontOf_nil _
  | succ fuel ih =>
    intro r opp odb
    rcases opp with _ | ⟨⟨mp, queue⟩, restL⟩
    · simp only [matchLoop]
      split <;> simpa using frontOf_nil _
    rcases queue with _ | ⟨maker, makers⟩
    · simp only [matchLoop]
      split
      · split <;> simpa using frontOf_nil _
      · simpa using frontOf_nil _
    simp only [matchLoop]
    split
    · split
      · split
        · -- IOC: single trade
          simp only [LoopResult.trades, List.map_cons, List.map_nil, flattenPM]
          exact ⟨List.map (fun o => (mp, o.order_id)) makers ++ flattenPM restL, rfl⟩
        · -- continue
          simp only [LoopResult.trades, List.map_cons, flattenPM]
          by_cases hdep : maker.quantity - min r maker.quantity = 0
          · rw [if_pos hdep]
            by_cases hmk : makers = []
            · subst hmk
              rw [if_pos rfl]
              simp only [List.map_nil, List.nil_append]
              exact frontOf_cons _ _ _ (ih _ _ _)
            · rw [if_neg hmk]
              exact frontOf_cons _ _ _ (ih _ _ _)
          · rw [if_neg hdep]
            have hmin : min r maker.quantity = r := matchLoop_min_eq r maker.quantity hdep
            rw [matchLoop_nonpos typ side price tid sym fuel _ _ _ (by rw [hmin]; simp)]
            exact ⟨List.map (fun o => (mp, o.order_id)) makers ++ flattenPM restL, rfl⟩
      · simpa using frontOf_nil _
    · simpa using frontOf_nil _

theorem matchLoop_prices_backOf (typ side : String) (price : Option ℚ) (tid : Nat)
    (sym : String) (fuel : Nat) :
    ∀ (r : ℚ) (opp : BookSide) (odb : OrdersDB),
      BackOf (pricesOf (matchLoop typ side price tid sym fuel r opp odb).opp)
        (pricesOf opp) := by
  induction fuel with
  | zero =>
    intro r opp odb
    simpa [matchLoop] using backOf_refl _
  | succ fuel ih =>
    intro r opp odb
    rcases opp with _ | ⟨⟨mp, queue⟩, restL⟩
    · simp only [matchLoop]
      split <;> simpa using backOf_refl _
    rcases queue with _ | ⟨maker, makers⟩
    · simp only [matchLoop]
      split
      · split <;> simpa using backOf_refl _
      · simpa using backOf_refl _
    simp only [matchLoop]
    split
    · split
      · have hstep : ∀ s : BookSide,
            s = (if maker.quantity - min r maker.quantity = 0 then
                  (if makers = [] then restL else (mp, makers) :: restL)
                else (mp, { maker with quantity := maker.quantity - min r maker.quantity }
                  :: makers) :: restL) →
            BackOf (pricesOf s) (pricesOf ((mp, maker :: makers) :: restL)) := by
          intro s hs
          subst hs
          by_cases hdep : maker.quantity - min r maker.quantity = 0
          · rw [if_pos hdep]
            by_cases hmk : makers = []
            · rw [if_pos hmk, pricesOf_cons]
              exact backOf_cons _ _
            · rw [if_neg hmk, pricesOf_cons, pricesOf_cons]
              exact backOf_refl _
          · rw [if_neg hdep, pricesOf_cons, pricesOf_cons]
            exact backOf_refl _
        split
        · exact hstep _ rfl
        · exact backOf_trans _ _ _ (ih _ _ _) (hstep _ rfl)
      · simpa using backOf_refl _
    · simpa using backOf_refl _

theorem matchLoop_flatten_backOf (typ side : String) (price : Option ℚ) (tid : Nat)
    (sym : String) (fuel : Nat) :
    ∀ (r : ℚ) (opp : BookSide) (odb : OrdersDB),
      BackOf (flattenPM (matchLoop typ side price tid sym fuel r opp odb).opp)
        (flattenPM opp) := by
  induction fuel with
  | zero =>
    intro r opp odb
    simpa [matchLoop] using backOf_refl _
  | succ fuel ih =>
    intro r opp odb
    rcases opp with _ | ⟨⟨mp, queue⟩, restL⟩
    · simp only [matchLoop]
      split <;> simpa using backOf_refl _
    rcases queue with _ | ⟨maker, makers⟩
    · simp only [matchLoop]
      split
      · split <;> simpa using backOf_refl _
      · simpa using backOf_refl _
    simp only [matchLoop]
    split
    · split
      · have hstep : ∀ s : BookSide,
            s = (if maker.quantity - min r maker.quantity = 0 then
                  (if makers = [] then restL else (mp, makers) :: restL)
                else (mp, { maker with quantity := maker.quantity - min r maker.quantity }
                  :: makers) :: restL) →
            BackOf (flattenPM s) (flattenPM ((mp, maker :: makers) :: restL)) := by
          intro s hs
          subst hs
          by_cases hdep : maker.quantity - min r maker.quantity = 0
          · rw [if_pos hdep]
            by_cases hmk : makers = []
            · subst hmk
              rw [if_pos rfl]
              simpa [flattenPM] using backOf_cons (mp, maker.order_id) (flattenPM restL)
            · rw [if_neg hmk]
              simpa [flattenPM] using
                backOf_cons (mp, maker.order_id)
                  (List.map (fun o => (mp, o.order_id)) makers ++ flattenPM restL)
          · rw [if_neg hdep]
            simpa [flattenPM] using
              backOf_refl ((mp, maker.order_id)
                :: (List.map (fun o => (mp, o.order_id)) makers ++ flattenPM restL))
        split
        · exact hstep _ rfl
        · exact backOf_trans _ _ _ (ih _ _ _) (hstep _ rfl)
      · simpa using backOf_refl _
    · simpa using backOf_refl _


theorem posSide_step (r mp : ℚ) (maker : RestingOrder) (makers : Level) (restL : BookSide)
    (hp : posSide ((mp, maker :: makers) :: restL)) :
    posSide (if maker.quantity - min r maker.quantity = 0 then
              (if makers = [] then restL else (mp, makers) :: restL)
            else (mp, { maker with quantity := maker.quantity - min r maker.quantity }
              :: makers) :: restL) := by
  obtain ⟨⟨-, hql⟩, hrest⟩ := (posSide_cons mp (maker :: makers) restL).mp hp
  have hmakers : ∀ o ∈ makers, 0 < o.quantity :=
    fun o ho => hql o (List.mem_cons_of_mem _ ho)
  by_cases hdep : maker.quantity - min r maker.quantity = 0
  · rw [if_pos hdep]
    by_cases hmk : makers = []
    · rw [if_pos hmk]
      exact hrest
    · rw [if_neg hmk]
      exact (posSide_cons _ _ _).mpr ⟨⟨hmk, hmakers⟩, hrest⟩
  · rw [if_neg hdep]
    refine (posSide_cons _ _ _).mpr ⟨⟨by simp, ?_⟩, hrest⟩
    intro o ho
    rcases List.mem_cons.mp ho with ho | ho
    · subst ho
      have hle := min_le_right r maker.quantity
      have : (0 : ℚ) ≤ maker.quantity - min r maker.quantity := by linarith
      simpa using lt_of_le_of_ne this (Ne.symm hdep)
    · exact hmakers o ho

theorem marketable_mono (side : String) (price : Option ℚ) (p q : ℚ)
    (hrel : if side = "buy" then p ≤ q else q ≤ p)
    (hf : marketable side price p = false) : marketable side price q = false := by
  rcases price with _ | pp
  · simp [marketable] at hf
  · by_cases hb : side = "buy"
    · simp only [marketable, if_pos hb] at hf ⊢
      simp only [if_pos hb] at hrel
      simp only [decide_eq_false_iff_not] at hf ⊢
      intro hc
      exact hf (le_trans hrel hc)
    · simp only [marketable, if_neg hb] at hf ⊢
      simp only [if_neg hb] at hrel
      simp only [decide_eq_false_iff_not] at hf ⊢
      intro hc
      exact hf (le_trans hc hrel)

theorem sideAvail_zero (side : String) (price : Option ℚ) (s : BookSide)
    (h : ∀ q ∈ pricesOf s, marketable side price q = false) :
    sideAvail side price s = 0 := by
  induction s with
  | nil => rfl
  | cons pl rest ih =>
    rcases pl with ⟨p, l⟩
    have hp := h p (by simp [pricesOf])
    have hrest : ∀ q ∈ pricesOf rest, marketable side price q = false := by
      intro q hq
      exact h q (by simp [pricesOf] at hq ⊢; right; exact hq)
    simp [sideAvail, hp, ih hrest]

theorem matchLoop_exit_shape (typ side : String) (price : Option ℚ) (tid : Nat) (sym : String)
    (fuel : Nat) :
    ∀ (r : ℚ) (opp : BookSide) (odb : OrdersDB), posSide opp → sideCount opp < fuel →
      typ ≠ "ioc" →
      (matchLoop typ side price tid sym fuel r opp odb).remaining ≤ 0 ∨
      (matchLoop typ side price tid sym fuel r opp odb).opp = [] ∨
      ∃ p l s, (matchLoop typ side price tid sym fuel r opp odb).opp = (p, l) :: s ∧
        marketable side price p = false := by
  induction fuel with
  | zero =>
    intro r opp odb hp hfuel htyp
    exact absurd hfuel (Nat.not_lt_zero _)
  | succ fuel ih =>
    intro r opp odb hp hfuel htyp
    by_cases hr : 0 < r
    · rcases opp with _ | ⟨⟨mp, queue⟩, restL⟩
      · right
        left
        simp [matchLoop, hr]
      rcases queue with _ | ⟨maker, makers⟩
      · obtain ⟨⟨hne, -⟩, -⟩ := (posSide_cons mp [] restL).mp hp
        exact absurd rfl hne
      by_cases hmkt : marketable side price mp = true
      · simp only [matchLoop]
        rw [if_pos hr, if_pos hmkt, if_neg htyp]
        simp only [LoopResult.remaining, LoopResult.opp]
        by_cases hdep : maker.quantity - min r maker.quantity = 0
        · refine ih _ _ _ (posSide_step r mp maker makers restL hp) ?_ htyp
          have hc : sideCount ((mp, maker :: makers) :: restL)
              = makers.length + 1 + sideCount restL := by
            simp [sideCount]
          rw [if_pos hdep]
          by_cases hmk : makers = []
          · rw [if_pos hmk]
            subst hmk
            simp only [List.length_nil] at hc
            omega
          · rw [if_neg hmk]
            have hg : sideCount ((mp, makers) :: restL)
                = makers.length + sideCount restL := by
              simp [sideCount]
            omega
        · left
          have h0 : r - min r maker.quantity = 0 := by
            rw [matchLoop_min_eq r _ hdep]
            ring
          rw [matchLoop_nonpos _ _ _ _ _ _ _ _ _ (by rw [h0]; simp)]
          simp [h0]
      · right
        right
        refine ⟨mp, maker :: makers, restL, ?_, ?_⟩
        · simp [matchLoop, hr, hmkt]
        · cases hb : marketable side price mp
          · rfl
          · exact absurd hb hmkt
    · left
      rw [matchLoop_nonpos _ _ _ _ _ _ _ _ _ hr]
      simpa using le_of_not_lt hr

theorem matchLoop_fok_fills (typ side : String) (price : Option ℚ) (tid : Nat) (sym : String)
    (fuel : Nat) :
    ∀ (r : ℚ) (opp : BookSide) (odb : OrdersDB), 0 ≤ r →
      r ≤ sideAvail side price opp → typ ≠ "ioc" → posSide opp → headBest side opp →
      sideCount opp < fuel →
      (matchLoop typ side price tid sym fuel r opp odb).remaining = 0 := by
  induction fuel with
  | zero =>
    intro r opp odb h0 havail htyp hp hb hfuel
    exact absurd hfuel (Nat.not_lt_zero _)
  | succ fuel ih =>
    intro r opp odb h0 havail htyp hp hb hfuel
    by_cases hr : 0 < r
    · rcases opp with _ | ⟨⟨mp, queue⟩, restL⟩
      · exfalso
        simp only [sideAvail] at havail
        linarith
      rcases queue with _ | ⟨maker, makers⟩
      · obtain ⟨⟨hne, -⟩, -⟩ := (posSide_cons mp [] restL).mp hp
        exact absurd rfl hne
      by_cases hmkt : marketable side price mp = true
      · have havc : r ≤ maker.quantity + levelQty makers + sideAvail side price restL := by
          simp only [sideAvail, hmkt, if_true, levelQty] at havail
          linarith
        simp only [matchLoop]
        rw [if_pos hr, if_pos hmkt, if_neg htyp]
        simp only [LoopResult.remaining]
        by_cases hdep : maker.quantity - min r maker.quantity = 0
        · have hqq : min r maker.quantity = maker.quantity := (sub_eq_zero.mp hdep).symm
          refine ih _ _ _ ?_ ?_ htyp (posSide_step r mp maker makers restL hp) ?_ ?_
          · have := min_le_left r maker.quantity
            linarith
          · rw [if_pos hdep]
            by_cases hmk : makers = []
            · rw [if_pos hmk]
              subst hmk
              simp only [levelQty] at havc
              linarith [hqq]
            · rw [if_neg hmk]
              simp only [sideAvail, hmkt, if_true]
              linarith [hqq]
          · rw [if_pos hdep]
            by_cases hmk : makers = []
            · rw [if_pos hmk]
              exact (List.pairwise_cons.mp hb).2
            · rw [if_neg hmk]
              exact hb
          · have hc : sideCount ((mp, maker :: makers) :: restL)
                = makers.length + 1 + sideCount restL := by
              simp [sideCount]
            rw [if_pos hdep]
            by_cases hmk : makers = []
            · rw [if_pos hmk]
              subst hmk
              simp only [List.length_nil] at hc
              omega
            · rw [if_neg hmk]
              have hg : sideCount ((mp, makers) :: restL)
                  = makers.length + sideCount restL := by
                simp [sideCount]
              omega
        · have h0' : r - min r maker.quantity = 0 := by
            rw [matchLoop_min_eq r _ hdep]
            ring
          rw [matchLoop_nonpos _ _ _ _ _ _ _ _ _ (by rw [h0']; simp)]
          simpa using h0'
      · exfalso
        have hfp : marketable side price mp = false := by
          cases hbb : marketable side price mp
          · rfl
          · exact absurd hbb hmkt
        have hall : ∀ q ∈ pricesOf ((mp, maker :: makers) :: restL),
            marketable side price q = false := by
          intro q hq
          rw [pricesOf_cons] at hq
          rcases List.mem_cons.mp hq with hq | hq
          · subst hq
            exact hfp
          · have hrel := (List.pairwise_cons.mp hb).1 q hq
            exact marketable_mono side price mp q hrel hfp
        have hz := sideAvail_zero side price _ hall
        rw [hz] at havail
        linarith
    · rw [matchLoop_nonpos _ _ _ _ _ _ _ _ _ hr]
      simpa using le_antisymm (le_of_not_lt hr) h0


/-! ### Resting insertion and cancellation removal -/

theorem insertOwn_cons (isBid : Bool) (p : ℚ) (o : RestingOrder) (q : ℚ) (lvl : Level)
    (rest : BookSide) :
    insertOwn isBid p o ((q, lvl) :: rest)
      = if p = q then (q, lvl ++ [o]) :: rest
        else if (if isBid then q < p else p < q) then (p, [o]) :: (q, lvl) :: rest
        else (q, lvl) :: insertOwn isBid p o rest := rfl

theorem insertOwn_prices_mem (isBid : Bool) (p : ℚ) (o : RestingOrder) (s : BookSide) :
    ∀ x ∈ pricesOf (insertOwn isBid p o s), x = p ∨ x ∈ pricesOf s := by
  induction s with
  | nil =>
    intro x hx
    simp [insertOwn, pricesOf] at hx
    exact Or.inl hx
  | cons ql rest ih =>
    rcases ql with ⟨q, lvl⟩
    intro x hx
    rw [insertOwn_cons] at hx
    by_cases hpq : p = q
    · rw [if_pos hpq, pricesOf_cons] at hx
      rcases List.mem_cons.mp hx with hx | hx
      · exact Or.inr (by simp [pricesOf, hx])
      · exact Or.inr (by rw [pricesOf_cons]; exact List.mem_cons_of_mem _ hx)
    · rw [if_neg hpq] at hx
      by_cases hlt : if isBid then q < p else p < q
      · rw [if_pos hlt, pricesOf_cons, pricesOf_cons] at hx
        rcases List.mem_cons.mp hx with hx | hx
        · exact Or.inl hx
        · exact Or.inr hx
      · rw [if_neg hlt, pricesOf_cons] at hx
        rcases List.mem_cons.mp hx with hx | hx
        · exact Or.inr (by rw [pricesOf_cons, hx]; exact List.mem_cons_self _ _)
        · rcases ih x hx with hh | hh
          · exact Or.inl hh
          · exact Or.inr (by rw [pricesOf_cons]; exact List.mem_cons_of_mem _ hh)

theorem insertOwn_sorted (isBid : Bool) (p : ℚ) (o : RestingOrder) (s : BookSide)
    (hs : sortedSide isBid s) : sortedSide isBid (insertOwn isBid p o s) := by
  induction s with
  | nil =>
    simp [insertOwn, sortedSide, pricesOf]
  | cons ql rest ih =>
    rcases ql with ⟨q, lvl⟩
    rw [sortedSide, pricesOf_cons, List.pairwise_cons] at hs
    obtain ⟨hq, hrest⟩ := hs
    rw [insertOwn_cons]
    by_cases hpq : p = q
    · rw [if_pos hpq, sortedSide, pricesOf_cons, List.pairwise_cons]
      exact ⟨hq, hrest⟩
    · rw [if_neg hpq]
      by_cases hlt : if isBid then q < p else p < q
      · rw [if_pos hlt, sortedSide, pricesOf_cons, pricesOf_cons, List.pairwise_cons]
        constructor
        · intro x hx
          rcases List.mem_cons.mp hx with hx | hx
          · subst hx
            cases isBid <;> simpa using hlt
          · cases isBid <;> simp_all <;> linarith [hq x hx]
        · rw [List.pairwise_cons]
          exact ⟨hq, hrest⟩
      · rw [if_neg hlt, sortedSide, pricesOf_cons, List.pairwise_cons]
        constructor
        · intro x hx
          rcases insertOwn_prices_mem isBid p o rest x hx with hx | hx
          · subst hx
            cases isBid
            · simp only [Bool.false_eq_true, if_false] at hlt ⊢
              exact lt_of_le_of_ne (le_of_not_lt hlt) fun h => hpq h.symm
            · simp only [if_true] at hlt ⊢
              exact lt_of_le_of_ne (le_of_not_lt hlt) hpq
          · exact hq x hx
        · exact ih hrest

theorem insertOwn_pos (isBid : Bool) (p : ℚ) (o : RestingOrder) (s : BookSide)
    (hs : posSide s) (ho : 0 < o.quantity) : posSide (insertOwn isBid p o s) := by
  induction s with
  | nil =>
    rw [insertOwn]
    refine (posSide_cons _ _ _).mpr ⟨⟨by simp, ?_⟩, by simp [posSide]⟩
    intro x hx
    rcases List.mem_singleton.mp hx with rfl
    exact ho
  | cons ql rest ih =>
    rcases ql with ⟨q, lvl⟩
    obtain ⟨⟨hne, hql⟩, hrest⟩ := (posSide_cons q lvl rest).mp hs
    rw [insertOwn_cons]
    by_cases hpq : p = q
    · rw [if_pos hpq]
      refine (posSide_cons _ _ _).mpr ⟨⟨by simp, ?_⟩, hrest⟩
      intro x hx
      rcases List.mem_append.mp hx with hx | hx
      · exact hql x hx
      · rcases List.mem_singleton.mp hx with rfl
        exact ho
    · rw [if_neg hpq]
      by_cases hlt : if isBid then q < p else p < q
      · rw [if_pos hlt]
        refine (posSide_cons _ _ _).mpr
          ⟨⟨by simp, ?_⟩, (posSide_cons _ _ _).mpr ⟨⟨hne, hql⟩, hrest⟩⟩
        intro x hx
        rcases List.mem_singleton.mp hx with rfl
        exact ho
      · rw [if_neg hlt]
        exact (posSide_cons _ _ _).mpr ⟨⟨hne, hql⟩, ih hrest⟩

theorem insertOwn_flatten_perm (isBid : Bool) (p : ℚ) (o : RestingOrder) (s : BookSide) :
    List.Perm (flattenPM (insertOwn isBid p o s)) ((p, o.order_id) :: flattenPM s) := by
  induction s with
  | nil =>
    simp [insertOwn, flattenPM]
  | cons ql rest ih =>
    rcases ql with ⟨q, lvl⟩
    rw [insertOwn_cons]
    by_cases hpq : p = q
    · subst hpq
      rw [if_pos rfl]
      simp only [flattenPM, List.map_append, List.map_cons, List.map_nil]
      have heq : (List.map (fun x => (p, x.order_id)) lvl ++ [(p, o.order_id)]) ++ flattenPM rest
          = List.map (fun x => (p, x.order_id)) lvl ++ (p, o.order_id) :: flattenPM rest := by
        simp
      rw [heq]
      exact List.perm_middle
    · rw [if_neg hpq]
      by_cases hlt : if isBid then q < p else p < q
      · rw [if_pos hlt]
        simp [flattenPM]
      · rw [if_neg hlt]
        simp only [flattenPM]
        exact List.Perm.trans (List.Perm.append_left _ ih) List.perm_middle

theorem levelQtyOf_append (id : Nat) (a b : Level) :
    levelQtyOf id (a ++ b) = levelQtyOf id a + levelQtyOf id b := by
  induction a with
  | nil => simp [levelQtyOf]
  | cons x rest ih =>
    simp only [List.cons_append, List.append_eq, levelQtyOf, ih]
    ring

theorem insertOwn_sideQty (isBid : Bool) (p : ℚ) (o : RestingOrder) (s : BookSide) (id : Nat) :
    sideQty id (insertOwn isBid p o s)
      = sideQty id s + (if o.order_id = id then o.quantity else 0) := by
  induction s with
  | nil =>
    simp only [insertOwn, sideQty, levelQtyOf]
    ring
  | cons ql rest ih =>
    rcases ql with ⟨q, lvl⟩
    rw [insertOwn_cons]
    by_cases hpq : p = q
    · rw [if_pos hpq]
      simp only [sideQty, levelQtyOf_append, levelQtyOf]
      ring
    · rw [if_neg hpq]
      by_cases hlt : if isBid then q < p else p < q
      · rw [if_pos hlt]
        simp only [sideQty, levelQtyOf]
        ring
      · rw [if_neg hlt]
        simp only [sideQty, ih]
        ring

theorem removeOrderFromLevel_sublist (id : Nat) (lvl : Level) :
    List.Sublist (removeOrderFromLevel id lvl) lvl := by
  induction lvl with
  | nil => simp [removeOrderFromLevel]
  | cons o rest ih =>
    rw [removeOrderFromLevel]
    split
    · exact List.sublist_cons_self o rest
    · exact List.Sublist.cons₂ o ih

theorem removeOrderFromLevel_not_mem (id : Nat) (lvl : Level)
    (hnd : (lvl.map RestingOrder.order_id).Nodup) :
    id ∉ (removeOrderFromLevel id lvl).map RestingOrder.order_id := by
  induction lvl with
  | nil => simp [removeOrderFromLevel]
  | cons o rest ih =>
    rw [List.map_cons, List.nodup_cons] at hnd
    rw [removeOrderFromLevel]
    split
    · next heq =>
      intro hmem
      exact hnd.1 (by rw [heq]; exact hmem)
    · next hne =>
      rw [List.map_cons]
      intro hmem
      rcases List.mem_cons.mp hmem with hh | hh
      · exact hne hh.symm
      · exact ih hnd.2 hh

theorem removeFromSide_prices_sublist (p : ℚ) (id : Nat) (s : BookSide) :
    List.Sublist (pricesOf (removeFromSide p id s)) (pricesOf s) := by
  induction s with
  | nil => simp [removeFromSide, pricesOf]
  | cons ql rest ih =>
    rcases ql with ⟨q, lvl⟩
    rw [removeFromSide]
    split
    · cases hrm : removeOrderFromLevel id lvl with
      | nil =>
        simp only [hrm, pricesOf_cons]
        exact List.sublist_cons_self q (pricesOf rest)
      | cons y ys =>
        simp only [hrm, pricesOf_cons]
        exact List.Sublist.cons₂ q (List.Sublist.refl _)
    · rw [pricesOf_cons, pricesOf_cons]
      exact List.Sublist.cons₂ q ih

theorem removeFromSide_flatten_sublist (p : ℚ) (id : Nat) (s : BookSide) :
    List.Sublist (flattenPM (removeFromSide p id s)) (flattenPM s) := by
  induction s with
  | nil => simp [removeFromSide, flattenPM]
  | cons ql rest ih =>
    rcases ql with ⟨q, lvl⟩
    rw [removeFromSide]
    split
    · cases hrm : removeOrderFromLevel id lvl with
      | nil =>
        simp only [hrm, flattenPM]
        exact List.sublist_append_right _ _
      | cons y ys =>
        simp only [hrm, flattenPM]
        exact List.Sublist.append
          (List.Sublist.map _ (hrm ▸ removeOrderFromLevel_sublist id lvl))
          (List.Sublist.refl _)
    · rw [flattenPM, flattenPM]
      exact List.Sublist.append (List.Sublist.refl _) ih

theorem removeFromSide_pos (p : ℚ) (id : Nat) (s : BookSide) (hs : posSide s) :
    posSide (removeFromSide p id s) := by
  induction s with
  | nil => simpa [removeFromSide] using hs
  | cons ql rest ih =>
    rcases ql with ⟨q, lvl⟩
    obtain ⟨⟨hne, hql⟩, hrest⟩ := (posSide_cons q lvl rest).mp hs
    rw [removeFromSide]
    split
    · cases hrm : removeOrderFromLevel id lvl with
      | nil =>
        simp only [hrm]
        exact hrest
      | cons y ys =>
        simp only [hrm]
        refine (posSide_cons _ _ _).mpr ⟨⟨by simp, ?_⟩, hrest⟩
        intro x hx
        exact hql x ((removeOrderFromLevel_sublist id lvl).mem (by rw [hrm]; exact hx))
    · exact (posSide_cons _ _ _).mpr ⟨⟨hne, hql⟩, ih hrest⟩

theorem levelQtyOf_nonneg (id : Nat) (lvl : Level) (h : ∀ o ∈ lvl, 0 < o.quantity) :
    0 ≤ levelQtyOf id lvl := by
  induction lvl with
  | nil => simp [levelQtyOf]
  | cons o rest ih =>
    have h1 := h o (List.mem_cons_self _ _)
    have h2 := ih fun x hx => h x (List.mem_cons_of_mem _ hx)
    rw [levelQtyOf]
    by_cases hid : o.order_id = id
    · rw [if_pos hid]
      linarith
    · rw [if_neg hid]
      linarith

theorem sideQty_nonneg (id : Nat) (s : BookSide) (hs : posSide s) : 0 ≤ sideQty id s := by
  induction s with
  | nil => simp [sideQty]
  | cons ql rest ih =>
    rcases ql with ⟨q, lvl⟩
    obtain ⟨⟨-, hql⟩, hrest⟩ := (posSide_cons q lvl rest).mp hs
    rw [sideQty]
    have h1 := levelQtyOf_nonneg id lvl hql
    have h2 := ih hrest
    linarith

theorem levelQtyOf_sublist_le (id : Nat) (a b : Level) (hab : List.Sublist a b)
    (hb : ∀ o ∈ b, 0 < o.quantity) : levelQtyOf id a ≤ levelQtyOf id b := by
  induction hab with
  | slnil => simp [levelQtyOf]
  | cons o hsub ih =>
    next l1 l2 =>
    have h1 := hb o (List.mem_cons_self _ _)
    have h2 := ih fun x hx => hb x (List.mem_cons_of_mem _ hx)
    rw [levelQtyOf]
    by_cases hid : o.order_id = id
    · rw [if_pos hid]
      linarith
    · rw [if_neg hid]
      linarith
  | cons₂ o hsub ih =>
    next l1 l2 =>
    have h2 := ih fun x hx => hb x (List.mem_cons_of_mem _ hx)
    rw [levelQtyOf, levelQtyOf]
    linarith

theorem removeFromSide_sideQty_le (p : ℚ) (id id' : Nat) (s : BookSide) (hs : posSide s) :
    sideQty id (removeFromSide p id' s) ≤ sideQty id s := by
  induction s with
  | nil => simp [removeFromSide]
  | cons ql rest ih =>
    rcases ql with ⟨q, lvl⟩
    obtain ⟨⟨-, hql⟩, hrest⟩ := (posSide_cons q lvl rest).mp hs
    rw [removeFromSide]
    split
    · have hsub := removeOrderFromLevel_sublist id' lvl
      cases hrm : removeOrderFromLevel id' lvl with
      | nil =>
        simp only [hrm, sideQty]
        have := levelQtyOf_nonneg id lvl hql
        have h2 := sideQty_nonneg id rest hrest
        linarith
      | cons y ys =>
        simp only [hrm, sideQty]
        have := levelQtyOf_sublist_le id (y :: ys) lvl (by rw [← hrm]; exact hsub) hql
        linarith
    · rw [sideQty, sideQty]
      have := ih hrest
      linarith

theorem flattenPM_mem_prices (s : BookSide) (pr : ℚ × Nat) (h : pr ∈ flattenPM s) :
    pr.1 ∈ pricesOf s := by
  induction s with
  | nil => simp [flattenPM] at h
  | cons ql rest ih =>
    rcases ql with ⟨q, lvl⟩
    rw [flattenPM] at h
    rw [pricesOf_cons]
    rcases List.mem_append.mp h with h | h
    · obtain ⟨o, -, ho⟩ := List.mem_map.mp h
      have h1 : pr.1 = q := by rw [← ho]
      rw [h1]
      exact List.mem_cons_self _ _
    · exact List.mem_cons_of_mem _ (ih h)

theorem flattenPM_cons_snd (q : ℚ) (lvl : Level) (rest : BookSide) :
    (flattenPM ((q, lvl) :: rest)).map Prod.snd
      = lvl.map RestingOrder.order_id ++ (flattenPM rest).map Prod.snd := by
  simp [flattenPM, List.map_map, Function.comp]

theorem removeFromSide_not_mem (p : ℚ) (id : Nat) (s : BookSide)
    (hnd : ((flattenPM s).map Prod.snd).Nodup)
    (hpnd : (pricesOf s).Nodup)
    (hloc : ∀ pr ∈ flattenPM s, pr.2 = id → pr.1 = p) :
    id ∉ (flattenPM (removeFromSide p id s)).map Prod.snd := by
  induction s with
  | nil => simp [removeFromSide, flattenPM]
  | cons ql rest ih =>
    rcases ql with ⟨q, lvl⟩
    rw [flattenPM_cons_snd] at hnd
    rw [List.nodup_append] at hnd
    obtain ⟨hndl, hndr, hdisj⟩ := hnd
    rw [pricesOf_cons, List.nodup_cons] at hpnd
    obtain ⟨hqnr, hpnd⟩ := hpnd
    have hrest_not : id ∈ (flattenPM rest).map Prod.snd → q = p → False := by
      intro hidr hqp
      obtain ⟨pr, hpr, hprid⟩ := List.mem_map.mp hidr
      have := hloc pr (by rw [flattenPM]; exact List.mem_append_right _ hpr) hprid
      have hq' : pr.1 ∈ pricesOf rest := flattenPM_mem_prices rest pr hpr
      rw [this, ← hqp] at hq'
      exact hqnr hq'
    rw [removeFromSide]
    by_cases hqp : q = p
    · rw [if_pos hqp]
      cases hrm : removeOrderFromLevel id lvl with
      | nil =>
        simp only [hrm]
        intro hmem
        exact hrest_not hmem hqp
      | cons y ys =>
        simp only [hrm]
        rw [flattenPM_cons_snd]
        intro hmem
        rcases List.mem_append.mp hmem with hmem | hmem
        · rw [← hrm] at hmem
          exact removeOrderFromLevel_not_mem id lvl hndl hmem
        · exact hrest_not hmem hqp
    · rw [if_neg hqp]
      rw [flattenPM_cons_snd]
      intro hmem
      rcases List.mem_append.mp hmem with hmem | hmem
      · obtain ⟨o, ho, hoid⟩ := List.mem_map.mp hmem
        have := hloc (q, o.order_id)
          (by rw [flattenPM]; exact List.mem_append_left _ (List.mem_map_of_mem _ ho)) hoid
        exact hqp this
      · refine ih hndr hpnd ?_ hmem
        intro pr hpr hprid
        exact hloc pr (by rw [flattenPM]; exact List.mem_append_right _ hpr) hprid


/-! ### Registry bookkeeping for `get_order_book` and `setBook` -/

theorem lookupBook_append (a b : List (String × Book)) (k : String) :
    lookupBook (a ++ b) k =
      match lookupBook a k with | some x => some x | none => lookupBook b k := by
  induction a with
  | nil => rfl
  | cons p rest ih =>
    cases p with
    | mk s0 b0 =>
      by_cases hp : s0 = k
      · simp [lookupBook, hp]
      · simpa [lookupBook, hp] using ih

theorem gob_key (bl : List (String × Book)) (s : String) :
    (get_order_book bl s).1 = (strUp s) := get_order_book_fst bl s

theorem gob_lookup (bl : List (String × Book)) (s : String) :
    lookupBook (get_order_book bl s).2.2 (strUp s)
      = some ((lookupBook bl (strUp s)).getD {}) := by
  simp only [get_order_book]
  cases h : lookupBook bl (strUp s)
  · simp only [Option.getD_none]
    rw [lookupBook_append, h]
    simp [lookupBook]
  · simpa [h] using h

theorem gob_books_cases (bl : List (String × Book)) (s : String) :
    (get_order_book bl s).2.2 = bl ∨
    ((get_order_book bl s).2.2 = bl ++ [((strUp s), ({} : Book))] ∧
      lookupBook bl (strUp s) = none) := by
  simp only [get_order_book]
  cases h : lookupBook bl (strUp s)
  · exact Or.inr ⟨rfl, rfl⟩
  · exact Or.inl rfl

theorem bookIds_empty : bookIds ({} : Book) = [] := rfl

theorem gob_ids (bl : List (String × Book)) (s : String) :
    booksIds (get_order_book bl s).2.2 = booksIds bl := by
  rcases gob_books_cases bl s with h | ⟨h, -⟩
  · rw [h]
  · rw [h, booksIds_append]
    simp [booksIds, bookIds_empty]

theorem gob_qty (id : Nat) (bl : List (String × Book)) (s : String) :
    booksQty id (get_order_book bl s).2.2 = booksQty id bl := by
  rcases gob_books_cases bl s with h | ⟨h, -⟩
  · rw [h]
  · rw [h, booksQty_append]
    simp [booksQty, bookQtyOf, sideQty]

theorem gob_keys_nodup (bl : List (String × Book)) (s : String)
    (h : (bl.map Prod.fst).Nodup) :
    (((get_order_book bl s).2.2).map Prod.fst).Nodup := by
  rcases gob_books_cases bl s with hb | ⟨hb, hnone⟩
  · rw [hb]
    exact h
  · rw [hb, List.map_append]
    rw [List.nodup_append]
    refine ⟨h, by simp, ?_⟩
    intro x hx
    simp only [List.map_cons, List.map_nil, List.mem_singleton]
    intro hcon
    subst hcon
    exact (lookupBook_eq_none bl (strUp s)).mp hnone hx

theorem gob_mem (bl : List (String × Book)) (s : String) (sb : String × Book)
    (h : sb ∈ (get_order_book bl s).2.2) : sb ∈ bl ∨ sb = ((strUp s), ({} : Book)) := by
  rcases gob_books_cases bl s with hb | ⟨hb, -⟩
  · rw [hb] at h
    exact Or.inl h
  · rw [hb] at h
    rcases List.mem_append.mp h with h | h
    · exact Or.inl h
    · exact Or.inr (List.mem_singleton.mp h)

theorem booksIds_middle (pre post : List (String × Book)) (k : String) (b : Book) :
    booksIds (pre ++ (k, b) :: post) = booksIds pre ++ bookIds b ++ booksIds post := by
  rw [booksIds_append]
  simp [booksIds, List.append_assoc]

theorem booksQty_middle (id : Nat) (pre post : List (String × Book)) (k : String) (b : Book) :
    booksQty id (pre ++ (k, b) :: post)
      = booksQty id pre + bookQtyOf id b + booksQty id post := by
  rw [booksQty_append]
  simp only [booksQty]
  ring

theorem WFBook_empty : WFBook ({} : Book) := by
  refine ⟨?_, ?_, ?_, ?_, ?_⟩ <;> simp [sortedSide, posSide, NoCross, pricesOf]

theorem mem_booksIds (bl : List (String × Book)) (sb : String × Book) (id : Nat)
    (hsb : sb ∈ bl) (hid : id ∈ bookIds sb.2) : id ∈ booksIds bl := by
  induction bl with
  | nil => simp at hsb
  | cons p rest ih =>
    rcases List.mem_cons.mp hsb with h | h
    · subst h
      simp only [booksIds, List.mem_append]
      exact Or.inl hid
    · simp only [booksIds, List.mem_append]
      exact Or.inr (ih h)

/-! ### Characterization of `cancel_order` -/

theorem cancel_not_found (st : EngineState) (u : String) (id : Nat)
    (h : lookupOrder st.orders id = none) :
    cancel_order st u id = .error .notFound := by
  simp [cancel_order, h]

theorem cancel_already_terminal (st : EngineState) (u : String) (id : Nat) (dbr : DBRecord)
    (h : lookupOrder st.orders id = some dbr)
    (ht : dbr.status = "filled" ∨ dbr.status = "cancelled") :
    cancel_order st u id = .error .alreadyTerminal := by
  simp [cancel_order, h, ht]

theorem cancel_ok_cases (st : EngineState) (u : String) (id : Nat) (r : CancelResult)
    (st' : EngineState) (h : cancel_order st u id = .ok (r, st')) :
    ∃ dbOrder, lookupOrder st.orders id = some dbOrder ∧
      ¬(dbOrder.status = "filled" ∨ dbOrder.status = "cancelled") ∧
      r = { order_id := id, status := "cancelled" } ∧
      st' = { books := setBook (get_order_book st.books dbOrder.symbol).2.2
                        (strUp dbOrder.symbol) (cancelBook st dbOrder id),
              orders := updateStatus st.orders id "cancelled",
              trades := st.trades, nextId := st.nextId } := by
  simp only [cancel_order] at h
  rcases hlk : lookupOrder st.orders id with _ | dbOrder
  · rw [hlk] at h
    exact absurd h (by simp)
  rw [hlk] at h
  simp only at h
  split at h
  · exact absurd h (by simp)
  next hterm =>
  rw [get_order_book_fst, get_order_book_book] at h
  injection h with h
  injection h with hr hst
  refine ⟨dbOrder, rfl, hterm, hr.symm, ?_⟩
  rw [← hst]
  simp only [cancelBook, bookOf]


/-! ### Invariant preservation: `cancel_order` -/

theorem lookupBook_getD_wf (bl : List (String × Book)) (hw : ∀ sb ∈ bl, WFBook sb.2)
    (s : String) : WFBook ((lookupBook bl s).getD {}) := by
  cases hlb : lookupBook bl s
  · simpa using WFBook_empty
  · simpa using hw (s, _) (lookupBook_mem _ _ _ hlb)

theorem lookupBook_getD_located (bl : List (String × Book)) (odb : OrdersDB)
    (hl : ∀ sb ∈ bl, LocatedSide odb sb.1 true sb.2.bids ∧ LocatedSide odb sb.1 false sb.2.asks)
    (s : String) :
    LocatedSide odb s true ((lookupBook bl s).getD {}).bids ∧
    LocatedSide odb s false ((lookupBook bl s).getD {}).asks := by
  cases hlb : lookupBook bl s
  · constructor <;> · intro pr hpr; simp [flattenPM] at hpr
  · simpa using hl (s, _) (lookupBook_mem _ _ _ hlb)

theorem LocatedSide_static (odb odb' : OrdersDB)
    (hstat : ∀ i, (lookupOrder odb' i).map dbStatic = (lookupOrder odb i).map dbStatic)
    (key : String) (isBids : Bool) (s : BookSide) (hl : LocatedSide odb key isBids s) :
    LocatedSide odb' key isBids s := by
  intro pr hpr
  obtain ⟨rec, hrec, h1, h2, h3⟩ := hl pr hpr
  have hmap := hstat pr.2
  rw [hrec] at hmap
  cases hlk : lookupOrder odb' pr.2 with
  | none =>
    rw [hlk] at hmap
    simp at hmap
  | some v =>
    rw [hlk] at hmap
    simp only [Option.map_some'] at hmap
    injection hmap with hmap
    have hsym : v.symbol = rec.symbol := congrArg Prod.fst hmap
    have hside : v.side = rec.side := congrArg (fun x => x.2.2.1) hmap
    have hprice : v.price = rec.price := congrArg (fun x => x.2.2.2.2) hmap
    refine ⟨v, rfl, by rw [hsym]; exact h1, ?_, by rw [hprice]; exact h3⟩
    cases isBids
    · simp only [Bool.false_eq_true, if_false] at h2 ⊢
      rw [hside]
      exact h2
    · simp only [if_true] at h2 ⊢
      rw [hside]
      exact h2

theorem cancelBook_none (st : EngineState) (dbOrder : DBRecord) (id : Nat)
    (h : dbOrder.price = none) : cancelBook st dbOrder id = bookOf st dbOrder.symbol := by
  rw [cancelBook, h]

theorem cancelBook_some (st : EngineState) (dbOrder : DBRecord) (id : Nat) (p : ℚ)
    (h : dbOrder.price = some p) :
    cancelBook st dbOrder id =
      if dbOrder.side = "buy" then
        { bookOf st dbOrder.symbol with
          bids := removeFromSide p id (bookOf st dbOrder.symbol).bids }
      else
        { bookOf st dbOrder.symbol with
          asks := removeFromSide p id (bookOf st dbOrder.symbol).asks } := by
  rw [cancelBook, h]

theorem cancelBook_wf (st : EngineState) (dbOrder : DBRecord) (id : Nat)
    (hw : WFBook (bookOf st dbOrder.symbol)) : WFBook (cancelBook st dbOrder id) := by
  obtain ⟨hsb, hsa, hpb, hpa, hnc⟩ := hw
  rcases hp : dbOrder.price with _ | p
  · rw [cancelBook_none st dbOrder id hp]
    exact ⟨hsb, hsa, hpb, hpa, hnc⟩
  · rw [cancelBook_some st dbOrder id p hp]
    by_cases hside : dbOrder.side = "buy"
    · rw [if_pos hside]
      refine ⟨?_, hsa, ?_, hpa, ?_⟩
      · exact List.Pairwise.sublist (removeFromSide_prices_sublist p id _) hsb
      · exact removeFromSide_pos p id _ hpb
      · intro pb hpbm pa hpam
        exact hnc pb ((removeFromSide_prices_sublist p id _).mem hpbm) pa hpam
    · rw [if_neg hside]
      refine ⟨hsb, ?_, hpb, ?_, ?_⟩
      · exact List.Pairwise.sublist (removeFromSide_prices_sublist p id _) hsa
      · exact removeFromSide_pos p id _ hpa
      · intro pb hpbm pa hpam
        exact hnc pb hpbm pa ((removeFromSide_prices_sublist p id _).mem hpam)

theorem cancelBook_bids_sub (st : EngineState) (dbOrder : DBRecord) (id : Nat) :
    ∀ pr ∈ flattenPM (cancelBook st dbOrder id).bids,
      pr ∈ flattenPM (bookOf st dbOrder.symbol).bids := by
  intro pr hpr
  rcases hp : dbOrder.price with _ | p
  · rw [cancelBook_none st dbOrder id hp] at hpr
    exact hpr
  · rw [cancelBook_some st dbOrder id p hp] at hpr
    by_cases hside : dbOrder.side = "buy"
    · rw [if_pos hside] at hpr
      exact (removeFromSide_flatten_sublist p id _).mem hpr
    · rw [if_neg hside] at hpr
      exact hpr

theorem cancelBook_asks_sub (st : EngineState) (dbOrder : DBRecord) (id : Nat) :
    ∀ pr ∈ flattenPM (cancelBook st dbOrder id).asks,
      pr ∈ flattenPM (bookOf st dbOrder.symbol).asks := by
  intro pr hpr
  rcases hp : dbOrder.price with _ | p
  · rw [cancelBook_none st dbOrder id hp] at hpr
    exact hpr
  · rw [cancelBook_some st dbOrder id p hp] at hpr
    by_cases hside : dbOrder.side = "buy"
    · rw [if_pos hside] at hpr
      exact hpr
    · rw [if_neg hside] at hpr
      exact (removeFromSide_flatten_sublist p id _).mem hpr

theorem cancelBook_ids_sublist (st : EngineState) (dbOrder : DBRecord) (id : Nat) :
    List.Sublist (bookIds (cancelBook st dbOrder id)) (bookIds (bookOf st dbOrder.symbol)) := by
  rcases hp : dbOrder.price with _ | p
  · rw [cancelBook_none st dbOrder id hp]
  · rw [cancelBook_some st dbOrder id p hp]
    by_cases hside : dbOrder.side = "buy"
    · rw [if_pos hside]
      exact List.Sublist.append
        (List.Sublist.map _ (removeFromSide_flatten_sublist p id _)) (List.Sublist.refl _)
    · rw [if_neg hside]
      exact List.Sublist.append
        (List.Sublist.refl _) (List.Sublist.map _ (removeFromSide_flatten_sublist p id _))

theorem inv_cancel (st : EngineState) (u : String) (id : Nat) (r : CancelResult)
    (st' : EngineState) (hInv : Inv st) (h : cancel_order st u id = .ok (r, st')) :
    Inv st' := by
  obtain ⟨dbOrder, hlk, hterm, hr, hst⟩ := cancel_ok_cases st u id r st' h
  subst hst
  set key := (strUp dbOrder.symbol) with hkey
  set books0 := (get_order_book st.books dbOrder.symbol).2.2 with hbooks0
  set B0 := (lookupBook st.books key).getD ({} : Book) with hB0
  set B := cancelBook st dbOrder id with hB
  have f1 : lookupBook books0 key = some B0 := gob_lookup st.books dbOrder.symbol
  obtain ⟨pre, post, hdec1, hdec2, hdecpre⟩ := setBook_decomp books0 key B B0 f1
  have hmem0 : ∀ sb ∈ books0, sb ∈ st.books ∨ sb = (key, ({} : Book)) :=
    fun sb hs => gob_mem st.books dbOrder.symbol sb hs
  have hpremem : ∀ sb ∈ pre, sb ∈ books0 := by
    intro sb hs
    rw [hdec1]
    exact List.mem_append_left _ hs
  have hpostmem : ∀ sb ∈ post, sb ∈ books0 := by
    intro sb hs
    rw [hdec1]
    exact List.mem_append_right _ (List.mem_cons_of_mem _ hs)
  have hB0eq : B0 = bookOf st dbOrder.symbol := by rw [hB0, bookOf, hkey]
  have hstat : ∀ i, (lookupOrder (updateStatus st.orders id "cancelled") i).map dbStatic
      = (lookupOrder st.orders i).map dbStatic := fun i => updateStatus_static _ _ _ i
  have hwfB : WFBook B := by
    rw [hB]
    exact cancelBook_wf st dbOrder id (hB0eq ▸ lookupBook_getD_wf st.books hInv.wf key)
  constructor
  · -- wf
    intro sb hsb
    simp only [hdec2] at hsb
    rcases List.mem_append.mp hsb with hs | hs
    · rcases hmem0 sb (hpremem sb hs) with hs' | hs'
      · exact hInv.wf sb hs'
      · rw [hs']
        exact WFBook_empty
    · rcases List.mem_cons.mp hs with hs | hs
      · rw [hs]
        exact hwfB
      · rcases hmem0 sb (hpostmem sb hs) with hs' | hs'
        · exact hInv.wf sb hs'
        · rw [hs']
          exact WFBook_empty
  · -- located
    intro sb hsb
    simp only [hdec2] at hsb
    have hEntry : ∀ sb ∈ books0,
        LocatedSide (updateStatus st.orders id "cancelled") sb.1 true sb.2.bids ∧
        LocatedSide (updateStatus st.orders id "cancelled") sb.1 false sb.2.asks := by
      intro sb hs
      rcases hmem0 sb hs with hs' | hs'
      · obtain ⟨l1, l2⟩ := hInv.located sb hs'
        exact ⟨LocatedSide_static _ _ hstat _ _ _ l1, LocatedSide_static _ _ hstat _ _ _ l2⟩
      · rw [hs']
        constructor <;> · intro pr hpr; simp [flattenPM] at hpr
    rcases List.mem_append.mp hsb with hs | hs
    · exact hEntry sb (hpremem sb hs)
    rcases List.mem_cons.mp hs with hs | hs
    · subst hs
      have hloc0 := lookupBook_getD_located st.books st.orders hInv.located key
      rw [← hB0] at hloc0
      constructor
      · intro pr hpr
        have hpr' : pr ∈ flattenPM B0.bids := by
          rw [hB0eq]
          exact cancelBook_bids_sub st dbOrder id pr (by rw [← hB]; exact hpr)
        exact LocatedSide_static _ _ hstat _ _ _ hloc0.1 pr hpr'
      · intro pr hpr
        have hpr' : pr ∈ flattenPM B0.asks := by
          rw [hB0eq]
          exact cancelBook_asks_sub st dbOrder id pr (by rw [← hB]; exact hpr)
        exact LocatedSide_static _ _ hstat _ _ _ hloc0.2 pr hpr'
    · exact hEntry sb (hpostmem sb hs)
  · -- idsLt
    intro i hi
    have hglobal : booksIds books0 = booksIds st.books := gob_ids st.books dbOrder.symbol
    have hmid1 : booksIds books0 = booksIds pre ++ bookIds B0 ++ booksIds post := by
      rw [hdec1]
      exact booksIds_middle pre post key B0
    have hmid2 : booksIds (setBook books0 key B)
        = booksIds pre ++ bookIds B ++ booksIds post := by
      rw [hdec2]
      exact booksIds_middle pre post key B
    rw [hmid2] at hi
    have hBsub : List.Sublist (bookIds B) (bookIds B0) := by
      rw [hB, hB0eq]
      exact cancelBook_ids_sublist st dbOrder id
    have : i ∈ booksIds st.books := by
      rw [← hglobal, hmid1]
      rcases List.mem_append.mp hi with hi | hi
      · rcases List.mem_append.mp hi with hi | hi
        · exact List.mem_append_left _ (List.mem_append_left _ hi)
        · exact List.mem_append_left _ (List.mem_append_right _ (hBsub.mem hi))
      · exact List.mem_append_right _ hi
    exact hInv.idsLt i this
  · -- idsNodup
    have hglobal : booksIds books0 = booksIds st.books := gob_ids st.books dbOrder.symbol
    have hmid1 : booksIds books0 = booksIds pre ++ bookIds B0 ++ booksIds post := by
      rw [hdec1]
      exact booksIds_middle pre post key B0
    have hmid2 : booksIds (setBook books0 key B)
        = booksIds pre ++ bookIds B ++ booksIds post := by
      rw [hdec2]
      exact booksIds_middle pre post key B
    have hold : (booksIds pre ++ bookIds B0 ++ booksIds post).Nodup := by
      rw [← hmid1, hglobal]
      exact hInv.idsNodup
    have hBsub : List.Sublist (bookIds B) (bookIds B0) := by
      rw [hB, hB0eq]
      exact cancelBook_ids_sublist st dbOrder id
    rw [hmid2]
    exact List.Nodup.sublist
      (List.Sublist.append (List.Sublist.append (List.Sublist.refl _) hBsub)
        (List.Sublist.refl _)) hold
  · -- keysNodup
    have h1 : ((setBook books0 key B).map Prod.fst) = books0.map Prod.fst := by
      rw [hdec2, hdec1]
      simp
    rw [h1]
    exact gob_keys_nodup st.books dbOrder.symbol hInv.keysNodup
  · -- ordKeysLt
    intro p hp
    have : p.1 ∈ (updateStatus st.orders id "cancelled").map Prod.fst :=
      List.mem_map_of_mem _ hp
    rw [updateStatus_keys] at this
    obtain ⟨q, hq, hqeq⟩ := List.mem_map.mp this
    rw [← hqeq]
    exact hInv.ordKeysLt q hq
  · -- tradesLt
    exact hInv.tradesLt


/-! ### Invariant preservation: `submit_order` -/

theorem subBooks0_lookup (st : EngineState) (o : OrderIn) :
    lookupBook (subBooks0 st o) (subKey o) = some (subBook st o) :=
  gob_lookup st.books (strUp o.symbol)

theorem subBooks0_mem (st : EngineState) (o : OrderIn) (sb : String × Book)
    (h : sb ∈ subBooks0 st o) : sb ∈ st.books ∨ sb = (subKey o, ({} : Book)) :=
  gob_mem st.books (strUp o.symbol) sb h

theorem subBooks0_ids (st : EngineState) (o : OrderIn) :
    booksIds (subBooks0 st o) = booksIds st.books :=
  gob_ids st.books (strUp o.symbol)

theorem subBooks0_qty (id : Nat) (st : EngineState) (o : OrderIn) :
    booksQty id (subBooks0 st o) = booksQty id st.books :=
  gob_qty id st.books (strUp o.symbol)

theorem subOrders0_lookup_ne (st : EngineState) (u : String) (o : OrderIn) (i : Nat)
    (hi : i ≠ st.nextId) :
    lookupOrder (subOrders0 st u o) i = lookupOrder st.orders i := by
  rw [subOrders0, lookupOrder_append]
  cases h : lookupOrder st.orders i
  · simp [lookupOrder, Ne.symm hi]
  · rfl

theorem subOrders0_lookup_new (st : EngineState) (u : String) (o : OrderIn)
    (hkeys : ∀ p ∈ st.orders, p.1 < st.nextId) :
    lookupOrder (subOrders0 st u o) st.nextId = some (newRec u o) := by
  rw [subOrders0, lookupOrder_append]
  have hnone : lookupOrder st.orders st.nextId = none :=
    lookupOrder_eq_none _ _ fun p hp => Nat.ne_of_lt (hkeys p hp)
  rw [hnone]
  simp [lookupOrder]

theorem subRes_prices_backOf (st : EngineState) (u : String) (o : OrderIn) :
    BackOf (pricesOf (subRes st u o).opp) (pricesOf (subOpp st o)) :=
  matchLoop_prices_backOf _ _ _ _ _ _ _ _ _

theorem subRes_flatten_backOf (st : EngineState) (u : String) (o : OrderIn) :
    BackOf (flattenPM (subRes st u o).opp) (flattenPM (subOpp st o)) :=
  matchLoop_flatten_backOf _ _ _ _ _ _ _ _ _

theorem subRes_posSide (st : EngineState) (u : String) (o : OrderIn)
    (hp : posSide (subOpp st o)) : posSide (subRes st u o).opp :=
  matchLoop_posSide _ _ _ _ _ _ _ _ _ hp

theorem subRes_sideQty (st : EngineState) (u : String) (o : OrderIn) (id : Nat) :
    sideQty id (subRes st u o).opp + makerFillSum id (subRes st u o).trades
      = sideQty id (subOpp st o) :=
  matchLoop_sideQty _ _ _ _ _ _ _ _ _ id

theorem subRes_orders_static (st : EngineState) (u : String) (o : OrderIn) (i : Nat) :
    (lookupOrder (subRes st u o).orders i).map dbStatic
      = (lookupOrder (subOrders0 st u o) i).map dbStatic :=
  matchLoop_orders_static _ _ _ _ _ _ _ _ _ i

theorem subRes_orders_keys (st : EngineState) (u : String) (o : OrderIn) :
    (subRes st u o).orders.map Prod.fst = (subOrders0 st u o).map Prod.fst :=
  matchLoop_orders_keys _ _ _ _ _ _ _ _ _

theorem subRes_exit (st : EngineState) (u : String) (o : OrderIn)
    (hp : posSide (subOpp st o)) (htyp : subTyp o ≠ "ioc") :
    (subRes st u o).remaining ≤ 0 ∨ (subRes st u o).opp = [] ∨
    ∃ p l s, (subRes st u o).opp = (p, l) :: s ∧
      marketable (subSide o) (subPrice o) p = false :=
  matchLoop_exit_shape _ _ _ _ _ _ _ _ _ hp (Nat.lt_succ_self _) htyp

theorem subRes_trades_frontOf (st : EngineState) (u : String) (o : OrderIn) :
    FrontOf ((subRes st u o).trades.map (fun t => (t.price, t.maker_order_id)))
      (flattenPM (subOpp st o)) :=
  matchLoop_frontOf _ _ _ _ _ _ _ _ _

theorem subRes_trades_pos (st : EngineState) (u : String) (o : OrderIn)
    (hp : posSide (subOpp st o)) :
    ∀ t ∈ (subRes st u o).trades, 0 < t.quantity :=
  matchLoop_trades_pos _ _ _ _ _ _ _ _ _ hp

theorem subRes_remaining_eq (st : EngineState) (u : String) (o : OrderIn) :
    (subRes st u o).remaining = o.quantity - tradeQtySum (subRes st u o).trades :=
  matchLoop_remaining_eq _ _ _ _ _ _ _ _ _

theorem subRes_remaining_nonneg (st : EngineState) (u : String) (o : OrderIn)
    (h : 0 ≤ o.quantity) : 0 ≤ (subRes st u o).remaining :=
  matchLoop_remaining_nonneg _ _ _ _ _ _ _ _ _ h

theorem rest_lt_opp (side : String) (hbuy : side = "buy") (price : Option ℚ) (rp : ℚ)
    (s : BookSide) (hprice : price = some rp) (hs : sortedSide false s)
    (hex : s = [] ∨ ∃ p l t, s = (p, l) :: t ∧ marketable side price p = false) :
    ∀ pa ∈ pricesOf s, rp < pa := by
  subst hbuy
  subst hprice
  intro pa hpa
  rcases hex with hex | ⟨p0, l0, t0, hex, hmf⟩
  · subst hex
    simp [pricesOf] at hpa
  · subst hex
    have hrp : rp < p0 := by
      simp only [marketable, eq_self_iff_true, if_true, decide_eq_false_iff_not] at hmf
      exact lt_of_not_le hmf
    rw [pricesOf_cons] at hpa
    rcases List.mem_cons.mp hpa with h | h
    · subst h
      exact hrp
    · have hpw := (List.pairwise_cons.mp hs).1 pa h
      simp only [Bool.false_eq_true, if_false] at hpw
      linarith

theorem rest_gt_opp (side : String) (hnb : side ≠ "buy") (price : Option ℚ) (rp : ℚ)
    (s : BookSide) (hprice : price = some rp) (hs : sortedSide true s)
    (hex : s = [] ∨ ∃ p l t, s = (p, l) :: t ∧ marketable side price p = false) :
    ∀ pb ∈ pricesOf s, pb < rp := by
  subst hprice
  intro pb hpb
  rcases hex with hex | ⟨p0, l0, t0, hex, hmf⟩
  · subst hex
    simp [pricesOf] at hpb
  · subst hex
    have hrp : p0 < rp := by
      simp only [marketable, if_neg hnb, decide_eq_false_iff_not] at hmf
      exact lt_of_not_le hmf
    rw [pricesOf_cons] at hpb
    rcases List.mem_cons.mp hpb with h | h
    · subst h
      exact hrp
    · have hpw := (List.pairwise_cons.mp hs).1 pb h
      simp only [if_true] at hpw
      linarith

theorem subBook1_wf (st : EngineState) (u : String) (o : OrderIn)
    (hwf : WFBook (subBook st o)) : WFBook (subBook1 st u o) := by
  obtain ⟨hsb, hsa, hpb, hpa, hnc⟩ := hwf
  rw [subBook1]
  by_cases hbuy : subSide o = "buy"
  · rw [if_pos hbuy]
    have hopp : subOpp st o = (subBook st o).asks := by
      rw [subOpp, oppOf, if_pos hbuy]
    have hback : BackOf (pricesOf (subRes st u o).opp) (pricesOf ((subBook st o).asks)) := by
      rw [← hopp]
      exact subRes_prices_backOf st u o
    refine ⟨hsb, ?_, hpb, ?_, ?_⟩
    · exact backOf_pairwise _ _ _ hback hsa
    · exact subRes_posSide st u o (by rw [hopp]; exact hpa)
    · intro pb hpbm pa hpam
      exact hnc pb hpbm pa (backOf_mem _ _ pa hback hpam)
  · rw [if_neg hbuy]
    have hopp : subOpp st o = (subBook st o).bids := by
      rw [subOpp, oppOf, if_neg hbuy]
    have hback : BackOf (pricesOf (subRes st u o).opp) (pricesOf ((subBook st o).bids)) := by
      rw [← hopp]
      exact subRes_prices_backOf st u o
    refine ⟨?_, hsa, ?_, hpa, ?_⟩
    · exact backOf_pairwise _ _ _ hback hsb
    · exact subRes_posSide st u o (by rw [hopp]; exact hpb)
    · intro pb hpbm pa hpam
      exact hnc pb (backOf_mem _ _ pb hback hpbm) pa hpam

theorem subBook2_wf (st : EngineState) (u : String) (o : OrderIn) (rp : ℚ)
    (hwf : WFBook (subBook st o)) (hrem : 0 < (subRes st u o).remaining)
    (htyp : subTyp o ≠ "ioc") (hrp : subPrice o = some rp) :
    WFBook (subBook2 st u o rp) := by
  obtain ⟨hsb1, hsa1, hpb1, hpa1, hnc1⟩ := subBook1_wf st u o hwf
  rw [subBook2]
  by_cases hbuy : subSide o = "buy"
  · rw [if_pos hbuy]
    have hopp : subOpp st o = (subBook st o).asks := by
      rw [subOpp, oppOf, if_pos hbuy]
    have hb1bids : (subBook1 st u o).bids = (subBook st o).bids := by
      rw [subBook1, if_pos hbuy]
    have hb1asks : (subBook1 st u o).asks = (subRes st u o).opp := by
      rw [subBook1, if_pos hbuy]
    have hexit := subRes_exit st u o (by rw [hopp]; exact hwf.2.2.2.1) htyp
    have hex : (subRes st u o).opp = [] ∨ ∃ p l s, (subRes st u o).opp = (p, l) :: s ∧
        marketable (subSide o) (subPrice o) p = false := by
      rcases hexit with hex | hex
      · exact absurd hrem (not_lt_of_le hex)
      · exact hex
    have hlt : ∀ pa ∈ pricesOf (subRes st u o).opp, rp < pa := by
      refine rest_lt_opp (subSide o) hbuy (subPrice o) rp _ hrp ?_ hex
      rw [← hb1asks]
      exact hsa1
    refine ⟨?_, by rw [hb1asks] at hsa1 ⊢; exact hsa1, ?_,
      by rw [hb1asks] at hpa1 ⊢; exact hpa1, ?_⟩
    · exact insertOwn_sorted true rp _ _ hsb1
    · exact insertOwn_pos true rp _ _ hpb1 hrem
    · intro pb hpbm pa hpam
      rw [hb1asks] at hpam
      rcases insertOwn_prices_mem true rp _ _ pb hpbm with hh | hh
      · subst hh
        exact hlt pa hpam
      · rw [hb1bids] at hh
        have := hnc1 pb (by rw [hb1bids]; exact hh) pa (by rw [hb1asks]; exact hpam)
        exact this
  · rw [if_neg hbuy]
    have hopp : subOpp st o = (subBook st o).bids := by
      rw [subOpp, oppOf, if_neg hbuy]
    have hb1bids : (subBook1 st u o).bids = (subRes st u o).opp := by
      rw [subBook1, if_neg hbuy]
    have hb1asks : (subBook1 st u o).asks = (subBook st o).asks := by
      rw [subBook1, if_neg hbuy]
    have hexit := subRes_exit st u o (by rw [hopp]; exact hwf.2.2.1) htyp
    have hex : (subRes st u o).opp = [] ∨ ∃ p l s, (subRes st u o).opp = (p, l) :: s ∧
        marketable (subSide o) (subPrice o) p = false := by
      rcases hexit with hex | hex
      · exact absurd hrem (not_lt_of_le hex)
      · exact hex
    have hlt : ∀ pb ∈ pricesOf (subRes st u o).opp, pb < rp := by
      refine rest_gt_opp (subSide o) hbuy (subPrice o) rp _ hrp ?_ hex
      rw [← hb1bids]
      exact hsb1
    refine ⟨by rw [hb1bids] at hsb1 ⊢; exact hsb1, ?_,
      by rw [hb1bids] at hpb1 ⊢; exact hpb1, ?_, ?_⟩
    · exact insertOwn_sorted false rp _ _ hsa1
    · exact insertOwn_pos false rp _ _ hpa1 hrem
    · intro pb hpbm pa hpam
      rw [hb1bids] at hpbm
      rcases insertOwn_prices_mem false rp _ _ pa hpam with hh | hh
      · subst hh
        exact hlt pb hpbm
      · rw [hb1asks] at hh
        exact hnc1 pb (by rw [hb1bids]; exact hpbm) pa (by rw [hb1asks]; exact hh)


theorem LocatedSide_trans (odb odb' : OrdersDB) (key : String) (isBids : Bool) (s : BookSide)
    (hl : LocatedSide odb key isBids s)
    (hstat : ∀ pr ∈ flattenPM s,
      (lookupOrder odb' pr.2).map dbStatic = (lookupOrder odb pr.2).map dbStatic) :
    LocatedSide odb' key isBids s := by
  intro pr hpr
  obtain ⟨rec, hrec, h1, h2, h3⟩ := hl pr hpr
  have hmap := hstat pr hpr
  rw [hrec] at hmap
  cases hlk : lookupOrder odb' pr.2 with
  | none =>
    rw [hlk] at hmap
    simp at hmap
  | some v =>
    rw [hlk] at hmap
    simp only [Option.map_some'] at hmap
    injection hmap with hmap
    have hsym : v.symbol = rec.symbol := congrArg Prod.fst hmap
    have hside : v.side = rec.side := congrArg (fun x => x.2.2.1) hmap
    have hprice : v.price = rec.price := congrArg (fun x => x.2.2.2.2) hmap
    refine ⟨v, rfl, by rw [hsym]; exact h1, ?_, by rw [hprice]; exact h3⟩
    cases isBids
    · simp only [Bool.false_eq_true, if_false] at h2 ⊢
      rw [hside]
      exact h2
    · simp only [if_true] at h2 ⊢
      rw [hside]
      exact h2

theorem backOf_sublist (xs ys : List α) (h : BackOf xs ys) : List.Sublist xs ys := by
  obtain ⟨t, ht⟩ := h
  rw [← ht]
  exact List.sublist_append_right t xs

theorem nodup_bookIds_of_mem (bl : List (String × Book)) (sb : String × Book)
    (hmem : sb ∈ bl) (hnd : (booksIds bl).Nodup) : (bookIds sb.2).Nodup := by
  induction bl with
  | nil => simp at hmem
  | cons p rest ih =>
    simp only [booksIds] at hnd
    rw [List.nodup_append] at hnd
    rcases List.mem_cons.mp hmem with h | h
    · subst h
      exact hnd.1
    · exact ih h hnd.2.1

theorem subBook_ids_subset (st : EngineState) (o : OrderIn) :
    ∀ i ∈ bookIds (subBook st o), i ∈ booksIds st.books := by
  intro i hi
  rw [subBook, bookOf] at hi
  cases hlb : lookupBook st.books (strUp (strUp o.symbol)) with
  | none =>
    rw [hlb] at hi
    simp [bookIds, flattenPM] at hi
  | some b =>
    rw [hlb] at hi
    exact mem_booksIds st.books ((strUp (strUp o.symbol)), b) i
      (lookupBook_mem _ _ _ hlb) (by simpa using hi)

theorem subBook_ids_nodup (st : EngineState) (o : OrderIn)
    (h : (booksIds st.books).Nodup) : (bookIds (subBook st o)).Nodup := by
  rw [subBook, bookOf]
  cases hlb : lookupBook st.books (strUp (strUp o.symbol)) with
  | none => simp [bookIds, flattenPM]
  | some b =>
    simpa using nodup_bookIds_of_mem st.books ((strUp (strUp o.symbol)), b)
      (lookupBook_mem _ _ _ hlb) h

theorem subBook1_ids_sublist (st : EngineState) (u : String) (o : OrderIn) :
    List.Sublist (bookIds (subBook1 st u o)) (bookIds (subBook st o)) := by
  rw [subBook1]
  by_cases hbuy : subSide o = "buy"
  · rw [if_pos hbuy]
    have hopp : subOpp st o = (subBook st o).asks := by
      rw [subOpp, oppOf, if_pos hbuy]
    refine List.Sublist.append (List.Sublist.refl _) (List.Sublist.map _ ?_)
    rw [← hopp]
    exact backOf_sublist _ _ (subRes_flatten_backOf st u o)
  · rw [if_neg hbuy]
    have hopp : subOpp st o = (subBook st o).bids := by
      rw [subOpp, oppOf, if_neg hbuy]
    refine List.Sublist.append (List.Sublist.map _ ?_) (List.Sublist.refl _)
    rw [← hopp]
    exact backOf_sublist _ _ (subRes_flatten_backOf st u o)

theorem subOpp_ids_sub_book (st : EngineState) (o : OrderIn) :
    ∀ i ∈ (flattenPM (subOpp st o)).map Prod.snd, i ∈ bookIds (subBook st o) := by
  intro i hi
  rw [subOpp, oppOf] at hi
  rw [bookIds]
  by_cases hbuy : subSide o = "buy"
  · rw [if_pos hbuy] at hi
    exact List.mem_append_right _ hi
  · rw [if_neg hbuy] at hi
    exact List.mem_append_left _ hi

theorem subRes_makers_lt (st : EngineState) (u : String) (o : OrderIn)
    (hlt : ∀ i ∈ booksIds st.books, i < st.nextId) :
    ∀ t ∈ (subRes st u o).trades, t.maker_order_id < st.nextId := by
  intro t ht
  have h1 : (t.price, t.maker_order_id) ∈ flattenPM (subOpp st o) :=
    frontOf_mem _ _ _ (subRes_trades_frontOf st u o)
      (List.mem_map_of_mem _ ht)
  have h2 : t.maker_order_id ∈ (flattenPM (subOpp st o)).map Prod.snd :=
    List.mem_map_of_mem _ h1
  exact hlt _ (subBook_ids_subset st o _ (subOpp_ids_sub_book st o _ h2))

theorem inv_subFinSt (st : EngineState) (u : String) (o : OrderIn) (B : Book) (ODB : OrdersDB)
    (hInv : Inv st)
    (hwfB : WFBook B)
    (hstat : ∀ i, i ≠ st.nextId →
      (lookupOrder ODB i).map dbStatic = (lookupOrder st.orders i).map dbStatic)
    (hODBkeys : ODB.map Prod.fst = (subOrders0 st u o).map Prod.fst)
    (hlocB : LocatedSide ODB (subKey o) true B.bids ∧
      LocatedSide ODB (subKey o) false B.asks)
    (hndB : (bookIds B).Nodup)
    (helemB : ∀ i ∈ bookIds B, i ∈ bookIds (subBook st o) ∨ i = st.nextId) :
    Inv (subFinSt st u o B ODB) := by
  have f1 := subBooks0_lookup st o
  obtain ⟨pre, post, hdec1, hdec2, hdecpre⟩ :=
    setBook_decomp (subBooks0 st o) (subKey o) B (subBook st o) f1
  have hpremem : ∀ sb ∈ pre, sb ∈ subBooks0 st o := by
    intro sb hs
    rw [hdec1]
    exact List.mem_append_left _ hs
  have hpostmem : ∀ sb ∈ post, sb ∈ subBooks0 st o := by
    intro sb hs
    rw [hdec1]
    exact List.mem_append_right _ (List.mem_cons_of_mem _ hs)
  have hglobal : booksIds (subBooks0 st o) = booksIds st.books := subBooks0_ids st o
  have hmid1 : booksIds (subBooks0 st o)
      = booksIds pre ++ bookIds (subBook st o) ++ booksIds post := by
    rw [hdec1]
    exact booksIds_middle pre post (subKey o) (subBook st o)
  have hmid2 : booksIds (setBook (subBooks0 st o) (subKey o) B)
      = booksIds pre ++ bookIds B ++ booksIds post := by
    rw [hdec2]
    exact booksIds_middle pre post (subKey o) B
  have hmaker := subRes_makers_lt st u o hInv.idsLt
  have hoth : ∀ sb ∈ subBooks0 st o, ∀ i ∈ bookIds sb.2, i < st.nextId := by
    intro sb hs i hi
    rcases subBooks0_mem st o sb hs with hs' | hs'
    · exact hInv.idsLt i (mem_booksIds st.books sb i hs' hi)
    · rw [hs'] at hi
      simp [bookIds, flattenPM] at hi
  constructor
  · -- wf
    intro sb hsb
    simp only [subFinSt] at hsb
    rw [hdec2] at hsb
    rcases List.mem_append.mp hsb with hs | hs
    · rcases subBooks0_mem st o sb (hpremem sb hs) with hs' | hs'
      · exact hInv.wf sb hs'
      · rw [hs']
        exact WFBook_empty
    · rcases List.mem_cons.mp hs with hs | hs
      · rw [hs]
        exact hwfB
      · rcases subBooks0_mem st o sb (hpostmem sb hs) with hs' | hs'
        · exact hInv.wf sb hs'
        · rw [hs']
          exact WFBook_empty
  · -- located
    intro sb hsb
    simp only [subFinSt] at hsb
    rw [hdec2] at hsb
    have hEntry : ∀ sb ∈ subBooks0 st o,
        LocatedSide ODB sb.1 true sb.2.bids ∧ LocatedSide ODB sb.1 false sb.2.asks := by
      intro sb hs
      have hstat' : ∀ side : BookSide, ∀ pr ∈ flattenPM side,
          (∀ pr2 ∈ flattenPM side, pr2.2 ∈ bookIds sb.2 → True) → True := fun _ _ _ _ => trivial
      rcases subBooks0_mem st o sb hs with hs' | hs'
      · obtain ⟨l1, l2⟩ := hInv.located sb hs'
        constructor
        · refine LocatedSide_trans st.orders ODB _ _ _ l1 ?_
          intro pr hpr
          refine hstat pr.2 (Nat.ne_of_lt ?_)
          refine hInv.idsLt _ (mem_booksIds st.books sb _ hs' ?_)
          rw [bookIds]
          exact List.mem_append_left _ (List.mem_map_of_mem _ hpr)
        · refine LocatedSide_trans st.orders ODB _ _ _ l2 ?_
          intro pr hpr
          refine hstat pr.2 (Nat.ne_of_lt ?_)
          refine hInv.idsLt _ (mem_booksIds st.books sb _ hs' ?_)
          rw [bookIds]
          exact List.mem_append_right _ (List.mem_map_of_mem _ hpr)
      · rw [hs']
        constructor <;> · intro pr hpr; simp [flattenPM] at hpr
    rcases List.mem_append.mp hsb with hs | hs
    · exact hEntry sb (hpremem sb hs)
    · rcases List.mem_cons.mp hs with hs | hs
      · rw [hs]
        exact hlocB
      · exact hEntry sb (hpostmem sb hs)
  · -- idsLt
    intro i hi
    simp only [subFinSt] at hi
    rw [hmid2] at hi
    have hA : ∀ j, j ∈ booksIds pre ++ bookIds (subBook st o) ++ booksIds post →
        j < st.nextId := by
      intro j hj
      rw [← hmid1, hglobal] at hj
      exact hInv.idsLt j hj
    rcases List.mem_append.mp hi with hi | hi
    · rcases List.mem_append.mp hi with hi | hi
      · exact Nat.lt_succ_of_lt (hA i (List.mem_append_left _ (List.mem_append_left _ hi)))
      · rcases helemB i hi with hh | hh
        · exact Nat.lt_succ_of_lt
            (hA i (List.mem_append_left _ (List.mem_append_right _ hh)))
        · rw [hh]
          exact Nat.lt_succ_self _
    · exact Nat.lt_succ_of_lt (hA i (List.mem_append_right _ hi))
  · -- idsNodup
    simp only [subFinSt]
    rw [hmid2]
    have holdnd : (booksIds pre ++ bookIds (subBook st o) ++ booksIds post).Nodup := by
      rw [← hmid1, hglobal]
      exact hInv.idsNodup
    rw [List.nodup_append, List.nodup_append] at holdnd
    obtain ⟨⟨hndA, hndM, hdisjAM⟩, hndZ, hdisjAMZ⟩ := holdnd
    have hfreshA : ∀ j ∈ booksIds pre, j ≠ st.nextId := by
      intro j hj
      refine Nat.ne_of_lt (hInv.idsLt j ?_)
      rw [← hglobal, hmid1]
      exact List.mem_append_left _ (List.mem_append_left _ hj)
    have hfreshZ : ∀ j ∈ booksIds post, j ≠ st.nextId := by
      intro j hj
      refine Nat.ne_of_lt (hInv.idsLt j ?_)
      rw [← hglobal, hmid1]
      exact List.mem_append_right _ hj
    rw [List.nodup_append, List.nodup_append]
    refine ⟨⟨hndA, hndB, ?_⟩, hndZ, ?_⟩
    · intro a ha hb
      rcases helemB a hb with hh | hh
      · exact hdisjAM ha hh
      · exact hfreshA a ha hh
    · intro a ha hb
      rcases List.mem_append.mp ha with ha | ha
      · exact hdisjAMZ (List.mem_append_left _ ha) hb
      · rcases helemB a ha with hh | hh
        · exact hdisjAMZ (List.mem_append_right _ hh) hb
        · exact hfreshZ a hb hh
  · -- keysNodup
    simp only [subFinSt]
    have h1 : ((setBook (subBooks0 st o) (subKey o) B).map Prod.fst)
        = (subBooks0 st o).map Prod.fst := by
      rw [hdec2, hdec1]
      simp
    rw [h1]
    exact gob_keys_nodup st.books (strUp o.symbol) hInv.keysNodup
  · -- ordKeysLt
    intro p hp
    simp only [subFinSt] at hp
    have : p.1 ∈ ODB.map Prod.fst := List.mem_map_of_mem _ hp
    rw [hODBkeys, subOrders0] at this
    rw [List.map_append] at this
    rcases List.mem_append.mp this with hh | hh
    · obtain ⟨q, hq, hqeq⟩ := List.mem_map.mp hh
      rw [← hqeq]
      exact Nat.lt_succ_of_lt (hInv.ordKeysLt q hq)
    · simp at hh
      rw [hh]
      exact Nat.lt_succ_self _
  · -- tradesLt
    intro t ht
    simp only [subFinSt] at ht
    rcases List.mem_append.mp ht with ht | ht
    · exact Nat.lt_succ_of_lt (hInv.tradesLt t ht)
    · exact Nat.lt_succ_of_lt (hmaker t ht)


theorem LocatedSide_mono (odb : OrdersDB) (key : String) (isBids : Bool) (s s' : BookSide)
    (hsub : ∀ pr ∈ flattenPM s', pr ∈ flattenPM s)
    (hl : LocatedSide odb key isBids s) : LocatedSide odb key isBids s' :=
  fun pr hpr => hl pr (hsub pr hpr)

theorem subODB_static_ne (st : EngineState) (u : String) (o : OrderIn) (i : Nat)
    (hi : i ≠ st.nextId) :
    (lookupOrder (subRes st u o).orders i).map dbStatic
      = (lookupOrder st.orders i).map dbStatic := by
  rw [subRes_orders_static, subOrders0_lookup_ne st u o i hi]

theorem subBook_wf (st : EngineState) (o : OrderIn)
    (h : ∀ sb ∈ st.books, WFBook sb.2) : WFBook (subBook st o) :=
  lookupBook_getD_wf st.books h (subKey o)

theorem subBook_located (st : EngineState) (o : OrderIn)
    (h : ∀ sb ∈ st.books,
      LocatedSide st.orders sb.1 true sb.2.bids ∧ LocatedSide st.orders sb.1 false sb.2.asks) :
    LocatedSide st.orders (subKey o) true (subBook st o).bids ∧
    LocatedSide st.orders (subKey o) false (subBook st o).asks :=
  lookupBook_getD_located st.books st.orders h (subKey o)

theorem subBook1_bids_sub (st : EngineState) (u : String) (o : OrderIn) :
    ∀ pr ∈ flattenPM (subBook1 st u o).bids, pr ∈ flattenPM (subBook st o).bids := by
  intro pr hpr
  rw [subBook1] at hpr
  by_cases hbuy : subSide o = "buy"
  · rw [if_pos hbuy] at hpr
    exact hpr
  · rw [if_neg hbuy] at hpr
    have hopp : subOpp st o = (subBook st o).bids := by
      rw [subOpp, oppOf, if_neg hbuy]
    have := backOf_mem _ _ pr (subRes_flatten_backOf st u o) hpr
    rwa [hopp] at this

theorem subBook1_asks_sub (st : EngineState) (u : String) (o : OrderIn) :
    ∀ pr ∈ flattenPM (subBook1 st u o).asks, pr ∈ flattenPM (subBook st o).asks := by
  intro pr hpr
  rw [subBook1] at hpr
  by_cases hbuy : subSide o = "buy"
  · rw [if_pos hbuy] at hpr
    have hopp : subOpp st o = (subBook st o).asks := by
      rw [subOpp, oppOf, if_pos hbuy]
    have := backOf_mem _ _ pr (subRes_flatten_backOf st u o) hpr
    rwa [hopp] at this
  · rw [if_neg hbuy] at hpr
    exact hpr

theorem subBook_fresh (st : EngineState) (o : OrderIn) (hInv : Inv st) :
    ∀ i ∈ bookIds (subBook st o), i ≠ st.nextId :=
  fun i hi => Nat.ne_of_lt (hInv.idsLt i (subBook_ids_subset st o i hi))

theorem subBook1_located (st : EngineState) (u : String) (o : OrderIn) (ODB : OrdersDB)
    (hInv : Inv st)
    (hstat : ∀ i, i ≠ st.nextId →
      (lookupOrder ODB i).map dbStatic = (lookupOrder st.orders i).map dbStatic) :
    LocatedSide ODB (subKey o) true (subBook1 st u o).bids ∧
    LocatedSide ODB (subKey o) false (subBook1 st u o).asks := by
  obtain ⟨l1, l2⟩ := subBook_located st o hInv.located
  constructor
  · refine LocatedSide_trans st.orders ODB _ _ _
      (LocatedSide_mono _ _ _ _ _ (subBook1_bids_sub st u o) l1) ?_
    intro pr hpr
    refine hstat pr.2 (subBook_fresh st o hInv pr.2 ?_)
    rw [bookIds]
    exact List.mem_append_left _
      (List.mem_map_of_mem _ (subBook1_bids_sub st u o pr hpr))
  · refine LocatedSide_trans st.orders ODB _ _ _
      (LocatedSide_mono _ _ _ _ _ (subBook1_asks_sub st u o) l2) ?_
    intro pr hpr
    refine hstat pr.2 (subBook_fresh st o hInv pr.2 ?_)
    rw [bookIds]
    exact List.mem_append_right _
      (List.mem_map_of_mem _ (subBook1_asks_sub st u o pr hpr))

theorem subNew_lookup (st : EngineState) (u : String) (o : OrderIn)
    (hkeys : ∀ p ∈ st.orders, p.1 < st.nextId) :
    ∃ v, lookupOrder (subRes st u o).orders st.nextId = some v ∧
      dbStatic v = dbStatic (newRec u o) := by
  have h1 := subRes_orders_static st u o st.nextId
  rw [subOrders0_lookup_new st u o hkeys] at h1
  cases hlk : lookupOrder (subRes st u o).orders st.nextId with
  | none =>
    rw [hlk] at h1
    simp at h1
  | some v =>
    rw [hlk] at h1
    simp only [Option.map_some'] at h1
    injection h1 with h1
    exact ⟨v, rfl, h1⟩

theorem inv_subFokSt (st : EngineState) (u : String) (o : OrderIn) (hInv : Inv st) :
    Inv (subFokSt st u o) := by
  have hstatF : ∀ i, i ≠ st.nextId →
      (lookupOrder (updateStatus (subOrders0 st u o) st.nextId "cancelled") i).map dbStatic
        = (lookupOrder st.orders i).map dbStatic := by
    intro i hi
    rw [lookupOrder_updateStatus, if_neg hi, subOrders0_lookup_ne st u o i hi]
  constructor
  · intro sb hsb
    simp only [subFokSt] at hsb
    rcases subBooks0_mem st o sb hsb with hs | hs
    · exact hInv.wf sb hs
    · rw [hs]
      exact WFBook_empty
  · intro sb hsb
    simp only [subFokSt] at hsb
    rcases subBooks0_mem st o sb hsb with hs | hs
    · obtain ⟨l1, l2⟩ := hInv.located sb hs
      constructor
      · refine LocatedSide_trans st.orders _ _ _ _ l1 ?_
        intro pr hpr
        refine hstatF pr.2 (Nat.ne_of_lt ?_)
        refine hInv.idsLt _ (mem_booksIds st.books sb _ hs ?_)
        rw [bookIds]
        exact List.mem_append_left _ (List.mem_map_of_mem _ hpr)
      · refine LocatedSide_trans st.orders _ _ _ _ l2 ?_
        intro pr hpr
        refine hstatF pr.2 (Nat.ne_of_lt ?_)
        refine hInv.idsLt _ (mem_booksIds st.books sb _ hs ?_)
        rw [bookIds]
        exact List.mem_append_right _ (List.mem_map_of_mem _ hpr)
    · rw [hs]
      constructor <;> · intro pr hpr; simp [flattenPM] at hpr
  · intro i hi
    simp only [subFokSt] at hi
    rw [subBooks0_ids] at hi
    exact Nat.lt_succ_of_lt (hInv.idsLt i hi)
  · simp only [subFokSt]
    rw [subBooks0_ids]
    exact hInv.idsNodup
  · simp only [subFokSt]
    exact gob_keys_nodup st.books (strUp o.symbol) hInv.keysNodup
  · intro p hp
    simp only [subFokSt] at hp
    have : p.1 ∈ (updateStatus (subOrders0 st u o) st.nextId "cancelled").map Prod.fst :=
      List.mem_map_of_mem _ hp
    rw [updateStatus_keys, subOrders0, List.map_append] at this
    rcases List.mem_append.mp this with hh | hh
    · obtain ⟨q, hq, hqeq⟩ := List.mem_map.mp hh
      rw [← hqeq]
      exact Nat.lt_succ_of_lt (hInv.ordKeysLt q hq)
    · simp at hh
      rw [hh]
      exact Nat.lt_succ_self _
  · intro t ht
    simp only [subFokSt] at ht
    exact Nat.lt_succ_of_lt (hInv.tradesLt t ht)

theorem inv_submit_book1 (st : EngineState) (u : String) (o : OrderIn) (s : String)
    (hInv : Inv st) :
    Inv (subFinSt st u o (subBook1 st u o)
      (updateStatus (subRes st u o).orders st.nextId s)) := by
  have hstat : ∀ i, i ≠ st.nextId →
      (lookupOrder (updateStatus (subRes st u o).orders st.nextId s) i).map dbStatic
        = (lookupOrder st.orders i).map dbStatic := by
    intro i hi
    rw [lookupOrder_updateStatus, if_neg hi]
    exact subODB_static_ne st u o i hi
  refine inv_subFinSt st u o _ _ hInv
    (subBook1_wf st u o (subBook_wf st o hInv.wf)) hstat ?_ ?_ ?_ ?_
  · rw [updateStatus_keys]
    exact subRes_orders_keys st u o
  · exact subBook1_located st u o _ hInv hstat
  · exact (subBook_ids_nodup st o hInv.idsNodup).sublist (subBook1_ids_sublist st u o)
  · intro i hi
    exact Or.inl ((subBook1_ids_sublist st u o).subset hi)

theorem inv_submit_book2 (st : EngineState) (u : String) (o : OrderIn) (rp : ℚ)
    (hInv : Inv st) (hrem : 0 < (subRes st u o).remaining)
    (htyp : subTyp o ≠ "ioc") (hrp : subPrice o = some rp) :
    Inv (subFinSt st u o (subBook2 st u o rp)
      (updateQtyStatus (subRes st u o).orders st.nextId (subRes st u o).remaining "open")) := by
  have hstat : ∀ i, i ≠ st.nextId →
      (lookupOrder (updateQtyStatus (subRes st u o).orders st.nextId
          (subRes st u o).remaining "open") i).map dbStatic
        = (lookupOrder st.orders i).map dbStatic := by
    intro i hi
    rw [lookupOrder_updateQtyStatus, if_neg hi]
    exact subODB_static_ne st u o i hi
  obtain ⟨v, hv, hvstat⟩ := subNew_lookup st u o hInv.ordKeysLt
  have hvsym : v.symbol = (newRec u o).symbol := congrArg Prod.fst hvstat
  have hvside : v.side = (newRec u o).side := congrArg (fun x => x.2.2.1) hvstat
  have hvprice : v.price = (newRec u o).price := congrArg (fun x => x.2.2.2.2) hvstat
  have hnewlk : lookupOrder (updateQtyStatus (subRes st u o).orders st.nextId
      (subRes st u o).remaining "open") st.nextId
      = some { v with quantity := (subRes st u o).remaining, status := "open" } := by
    rw [lookupOrder_updateQtyStatus, if_pos rfl, hv]
    rfl
  have hnew : ∀ isBids : Bool, (if isBids then subSide o = "buy" else subSide o ≠ "buy") →
      ∀ pr : ℚ × Nat, pr = (rp, st.nextId) →
      ∃ rec, lookupOrder (updateQtyStatus (subRes st u o).orders st.nextId
          (subRes st u o).remaining "open") pr.2 = some rec ∧
        (strUp rec.symbol) = subKey o ∧
        (if isBids then rec.side = "buy" else rec.side ≠ "buy") ∧
        rec.price = some pr.1 := by
    intro isBids hside pr hpr
    subst hpr
    refine ⟨{ v with quantity := (subRes st u o).remaining, status := "open" }, hnewlk, ?_, ?_, ?_⟩
    · show (strUp v.symbol) = subKey o
      rw [hvsym]
      rfl
    · cases isBids
      · simp only [Bool.false_eq_true, if_false] at hside ⊢
        show v.side ≠ "buy"
        rw [hvside]
        exact hside
      · simp only [if_true] at hside ⊢
        show v.side = "buy"
        rw [hvside]
        exact hside
    · show v.price = some rp
      rw [hvprice, ← hrp]
      rfl
  obtain ⟨hb1loc, hb1loca⟩ := subBook1_located st u o _ hInv hstat
  have hndM := subBook_ids_nodup st o hInv.idsNodup
  have hnd1 : (bookIds (subBook1 st u o)).Nodup :=
    hndM.sublist (subBook1_ids_sublist st u o)
  have hfresh1 : st.nextId ∉ bookIds (subBook1 st u o) := by
    intro hmem
    exact subBook_fresh st o hInv st.nextId ((subBook1_ids_sublist st u o).subset hmem) rfl
  refine inv_subFinSt st u o _ _ hInv
    (subBook2_wf st u o rp (subBook_wf st o hInv.wf) hrem htyp hrp) hstat ?_ ?_ ?_ ?_
  · rw [updateQtyStatus_keys]
    exact subRes_orders_keys st u o
  · rw [subBook2]
    by_cases hbuy : subSide o = "buy"
    · rw [if_pos hbuy]
      constructor
      · intro pr hpr
        have hmem := (insertOwn_flatten_perm true rp
          ⟨st.nextId, (subRes st u o).remaining⟩ (subBook1 st u o).bids).mem_iff.mp hpr
        rcases List.mem_cons.mp hmem with hh | hh
        · exact hnew true hbuy pr hh
        · exact hb1loc pr hh
      · exact hb1loca
    · rw [if_neg hbuy]
      constructor
      · exact hb1loc
      · intro pr hpr
        have hmem := (insertOwn_flatten_perm false rp
          ⟨st.nextId, (subRes st u o).remaining⟩ (subBook1 st u o).asks).mem_iff.mp hpr
        rcases List.mem_cons.mp hmem with hh | hh
        · exact hnew false hbuy pr hh
        · exact hb1loca pr hh
  · have hndcons : (st.nextId :: bookIds (subBook1 st u o)).Nodup :=
      List.nodup_cons.mpr ⟨hfresh1, hnd1⟩
    rw [subBook2]
    by_cases hbuy : subSide o = "buy"
    · rw [if_pos hbuy]
      have hpm2 : List.Perm
          ((flattenPM (insertOwn true rp ⟨st.nextId, (subRes st u o).remaining⟩
            (subBook1 st u o).bids)).map Prod.snd)
          (st.nextId :: (flattenPM (subBook1 st u o).bids).map Prod.snd) :=
        (insertOwn_flatten_perm true rp ⟨st.nextId, (subRes st u o).remaining⟩
          (subBook1 st u o).bids).map Prod.snd
      have hperm := hpm2.append_right ((flattenPM (subBook1 st u o).asks).map Prod.snd)
      exact hperm.nodup_iff.mpr hndcons
    · rw [if_neg hbuy]
      have hpm2 : List.Perm
          ((flattenPM (insertOwn false rp ⟨st.nextId, (subRes st u o).remaining⟩
            (subBook1 st u o).asks)).map Prod.snd)
          (st.nextId :: (flattenPM (subBook1 st u o).asks).map Prod.snd) :=
        (insertOwn_flatten_perm false rp ⟨st.nextId, (subRes st u o).remaining⟩
          (subBook1 st u o).asks).map Prod.snd
      have hperm := (hpm2.append_left ((flattenPM (subBook1 st u o).bids).map Prod.snd)).trans
        List.perm_middle
      exact hperm.nodup_iff.mpr hndcons
  · intro i hi
    rw [subBook2] at hi
    by_cases hbuy : subSide o = "buy"
    · rw [if_pos hbuy] at hi
      have hi' : i ∈ (flattenPM (insertOwn true rp ⟨st.nextId, (subRes st u o).remaining⟩
          (subBook1 st u o).bids)).map Prod.snd
          ++ (flattenPM (subBook1 st u o).asks).map Prod.snd := hi
      have hpm2 : List.Perm
          ((flattenPM (insertOwn true rp ⟨st.nextId, (subRes st u o).remaining⟩
            (subBook1 st u o).bids)).map Prod.snd)
          (st.nextId :: (flattenPM (subBook1 st u o).bids).map Prod.snd) :=
        (insertOwn_flatten_perm true rp ⟨st.nextId, (subRes st u o).remaining⟩
          (subBook1 st u o).bids).map Prod.snd
      rcases List.mem_append.mp hi' with hh | hh
      · rcases List.mem_cons.mp (hpm2.mem_iff.mp hh) with h1 | h1
        · exact Or.inr h1
        · exact Or.inl ((subBook1_ids_sublist st u o).subset (List.mem_append_left _ h1))
      · exact Or.inl ((subBook1_ids_sublist st u o).subset (List.mem_append_right _ hh))
    · rw [if_neg hbuy] at hi
      have hi' : i ∈ (flattenPM (subBook1 st u o).bids).map Prod.snd
          ++ (flattenPM (insertOwn false rp ⟨st.nextId, (subRes st u o).remaining⟩
          (subBook1 st u o).asks)).map Prod.snd := hi
      have hpm2 : List.Perm
          ((flattenPM (insertOwn false rp ⟨st.nextId, (subRes st u o).remaining⟩
            (subBook1 st u o).asks)).map Prod.snd)
          (st.nextId :: (flattenPM (subBook1 st u o).asks).map Prod.snd) :=
        (insertOwn_flatten_perm false rp ⟨st.nextId, (subRes st u o).remaining⟩
          (subBook1 st u o).asks).map Prod.snd
      rcases List.mem_append.mp hi' with hh | hh
      · exact Or.inl ((subBook1_ids_sublist st u o).subset (List.mem_append_left _ hh))
      · rcases List.mem_cons.mp (hpm2.mem_iff.mp hh) with h1 | h1
        · exact Or.inr h1
        · exact Or.inl ((subBook1_ids_sublist st u o).subset (List.mem_append_right _ h1))

theorem inv_submit (st : EngineState) (u : String) (o : OrderIn) (r : SubmitResult)
    (st' : EngineState) (hInv : Inv st)
    (h : submit_order st u o = .ok (r, st')) : Inv st' := by
  obtain ⟨hq, hrid, hcases⟩ := submit_ok_cases st u o r st' h
  rcases hcases with ⟨hfok, hlt, hr, hst'⟩ | ⟨hnofok, hr, hmain⟩
  · rw [hst']
    exact inv_subFokSt st u o hInv
  · rcases hmain with ⟨hrem, hlim, rp, hrp, hst'⟩ | ⟨hrem, hlim, hst'⟩ | ⟨hrem, hst'⟩
    · rw [hst']
      refine inv_submit_book2 st u o rp hInv hrem ?_ hrp
      rw [hlim]
      intro hcon
      exact absurd hcon (by decide)
    · rw [hst']
      exact inv_submit_book1 st u o "cancelled" hInv
    · rw [hst']
      exact inv_submit_book1 st u o "filled" hInv

theorem reach_inv (st : EngineState) (h : Reach st) : Inv st := by
  induction h with
  | init =>
    refine ⟨?_, ?_, ?_, ?_, ?_, ?_, ?_⟩ <;>
      simp [initialState, booksIds, List.Nodup, List.Pairwise]
  | submitStep st u o r st' _ hsub ih => exact inv_submit st u o r st' ih hsub
  | cancelStep st u id r st' _ hcan ih => exact inv_cancel st u id r st' ih hcan


theorem submit_rid (st : EngineState) (u : String) (o : OrderIn) (r : SubmitResult)
    (st' : EngineState) (h : submit_order st u o = .ok (r, st')) :
    r.order_id = st.nextId :=
  (submit_ok_cases st u o r st' h).2.1

theorem submit_nextId (st : EngineState) (u : String) (o : OrderIn) (r : SubmitResult)
    (st' : EngineState) (h : submit_order st u o = .ok (r, st')) :
    st'.nextId = st.nextId + 1 := by
  obtain ⟨_, _, hc⟩ := submit_ok_cases st u o r st' h
  rcases hc with ⟨_, _, _, hst⟩ | ⟨_, _, hm⟩
  · rw [hst]
    rfl
  · rcases hm with ⟨_, _, rp, _, hst⟩ | ⟨_, _, hst⟩ | ⟨_, hst⟩ <;> rw [hst] <;> rfl

theorem cancel_nextId (st : EngineState) (u : String) (i : Nat) (r : CancelResult)
    (st' : EngineState) (h : cancel_order st u i = .ok (r, st')) :
    st'.nextId = st.nextId := by
  obtain ⟨dbOrder, _, _, _, hst⟩ := cancel_ok_cases st u i r st' h
  rw [hst]

theorem cancelBook_qty_le (st : EngineState) (dbOrder : DBRecord) (i id : Nat)
    (hwf : WFBook (bookOf st dbOrder.symbol)) :
    bookQtyOf id (cancelBook st dbOrder i) ≤ bookQtyOf id (bookOf st dbOrder.symbol) := by
  cases hp : dbOrder.price with
  | none =>
    rw [cancelBook_none st dbOrder i hp]
  | some p =>
    rw [cancelBook_some st dbOrder i p hp]
    by_cases hside : dbOrder.side = "buy"
    · rw [if_pos hside]
      show sideQty id (removeFromSide p i (bookOf st dbOrder.symbol).bids)
          + sideQty id (bookOf st dbOrder.symbol).asks
          ≤ bookQtyOf id (bookOf st dbOrder.symbol)
      exact add_le_add_right
        (removeFromSide_sideQty_le p id i (bookOf st dbOrder.symbol).bids hwf.2.2.1) _
    · rw [if_neg hside]
      show sideQty id (bookOf st dbOrder.symbol).bids
          + sideQty id (removeFromSide p i (bookOf st dbOrder.symbol).asks)
          ≤ bookQtyOf id (bookOf st dbOrder.symbol)
      exact add_le_add_left
        (removeFromSide_sideQty_le p id i (bookOf st dbOrder.symbol).asks hwf.2.2.2.1) _

theorem cancel_qty_step (st : EngineState) (u : String) (i : Nat) (r : CancelResult)
    (st' : EngineState) (hInv : Inv st) (h : cancel_order st u i = .ok (r, st')) (id : Nat) :
    makerFillSum id st'.trades + stQty st' id ≤ makerFillSum id st.trades + stQty st id := by
  obtain ⟨dbOrder, hlk, hterm, hr, hst⟩ := cancel_ok_cases st u i r st' h
  subst hst
  have hwf0 : WFBook (bookOf st dbOrder.symbol) := by
    rw [bookOf]
    exact lookupBook_getD_wf st.books hInv.wf _
  have f1 : lookupBook (get_order_book st.books dbOrder.symbol).2.2 (strUp dbOrder.symbol)
      = some ((lookupBook st.books (strUp dbOrder.symbol)).getD {}) :=
    gob_lookup st.books dbOrder.symbol
  obtain ⟨pre, post, hdec1, hdec2, _⟩ :=
    setBook_decomp _ _ (cancelBook st dbOrder i) _ f1
  have hle : bookQtyOf id (cancelBook st dbOrder i)
      ≤ bookQtyOf id ((lookupBook st.books (strUp dbOrder.symbol)).getD {}) :=
    cancelBook_qty_le st dbOrder i id hwf0
  have h2 : booksQty id (setBook (get_order_book st.books dbOrder.symbol).2.2
        (strUp dbOrder.symbol) (cancelBook st dbOrder i))
      = booksQty id pre + bookQtyOf id (cancelBook st dbOrder i) + booksQty id post := by
    rw [hdec2]
    exact booksQty_middle id pre post _ _
  have h1 : booksQty id st.books
      = booksQty id pre
        + bookQtyOf id ((lookupBook st.books (strUp dbOrder.symbol)).getD {})
        + booksQty id post := by
    rw [← gob_qty id st.books dbOrder.symbol, hdec1]
    exact booksQty_middle id pre post _ _
  show makerFillSum id st.trades
      + booksQty id (setBook (get_order_book st.books dbOrder.symbol).2.2
          (strUp dbOrder.symbol) (cancelBook st dbOrder i))
      ≤ makerFillSum id st.trades + booksQty id st.books
  linarith [h1, h2, hle]

theorem submit_qty_step (st : EngineState) (u : String) (o : OrderIn) (r : SubmitResult)
    (st' : EngineState) (hInv : Inv st)
    (h : submit_order st u o = .ok (r, st')) (id : Nat) :
    makerFillSum id st'.trades + stQty st' id
      ≤ makerFillSum id st.trades + stQty st id
        + (if r.order_id = id then o.quantity else 0) := by
  obtain ⟨hq, hrid, hcases⟩ := submit_ok_cases st u o r st' h
  rw [hrid]
  have hif2 : 0 ≤ (if st.nextId = id then o.quantity else 0) := by
    by_cases hc : st.nextId = id
    · rw [if_pos hc]
      exact le_of_lt hq
    · rw [if_neg hc]
  have hwf0 := subBook_wf st o hInv.wf
  have hposOpp : posSide (subOpp st o) := by
    rw [subOpp, oppOf]
    by_cases hbuy : subSide o = "buy"
    · rw [if_pos hbuy]
      exact hwf0.2.2.2.1
    · rw [if_neg hbuy]
      exact hwf0.2.2.1
  have hfin : ∀ (B : Book) (ODB : OrdersDB),
      bookQtyOf id B + makerFillSum id (subRes st u o).trades
        ≤ bookQtyOf id (subBook st o) + (if st.nextId = id then o.quantity else 0) →
      makerFillSum id (subFinSt st u o B ODB).trades + stQty (subFinSt st u o B ODB) id
        ≤ makerFillSum id st.trades + stQty st id
          + (if st.nextId = id then o.quantity else 0) := by
    intro B ODB hkey
    obtain ⟨pre, post, hdec1, hdec2, _⟩ :=
      setBook_decomp (subBooks0 st o) (subKey o) B (subBook st o) (subBooks0_lookup st o)
    have ht : makerFillSum id (subFinSt st u o B ODB).trades
        = makerFillSum id st.trades + makerFillSum id (subRes st u o).trades := by
      show makerFillSum id (st.trades ++ (subRes st u o).trades) = _
      exact makerFillSum_append id _ _
    have hq2 : stQty (subFinSt st u o B ODB) id
        = booksQty id pre + bookQtyOf id B + booksQty id post := by
      show booksQty id (setBook (subBooks0 st o) (subKey o) B) = _
      rw [hdec2]
      exact booksQty_middle id pre post _ _
    have hq1 : stQty st id
        = booksQty id pre + bookQtyOf id (subBook st o) + booksQty id post := by
      show booksQty id st.books = _
      rw [← subBooks0_qty id st o, hdec1]
      exact booksQty_middle id pre post _ _
    rw [ht, hq2, hq1]
    linarith [hkey]
  have hsq := subRes_sideQty st u o id
  rcases hcases with ⟨_, _, _, hst'⟩ | ⟨hnofok, _, hmain⟩
  · rw [hst']
    have hq1 : stQty (subFokSt st u o) id = booksQty id st.books := by
      show booksQty id (subBooks0 st o) = booksQty id st.books
      exact subBooks0_qty id st o
    have ht1 : makerFillSum id (subFokSt st u o).trades = makerFillSum id st.trades := rfl
    have hq0 : stQty st id = booksQty id st.books := rfl
    rw [ht1, hq1, hq0]
    linarith [hif2]
  · have hkey1 : bookQtyOf id (subBook1 st u o) + makerFillSum id (subRes st u o).trades
        ≤ bookQtyOf id (subBook st o) + (if st.nextId = id then o.quantity else 0) := by
      have hbq : bookQtyOf id (subBook st o)
          = sideQty id (subBook st o).bids + sideQty id (subBook st o).asks := rfl
      by_cases hbuy : subSide o = "buy"
      · have hopp : subOpp st o = (subBook st o).asks := by
          rw [subOpp, oppOf, if_pos hbuy]
        have e1 : (subBook1 st u o).bids = (subBook st o).bids := by
          rw [subBook1, if_pos hbuy]
        have e2 : (subBook1 st u o).asks = (subRes st u o).opp := by
          rw [subBook1, if_pos hbuy]
        have hb1 : bookQtyOf id (subBook1 st u o)
            = sideQty id (subBook st o).bids + sideQty id (subRes st u o).opp := by
          rw [bookQtyOf, e1, e2]
        rw [hopp] at hsq
        rw [hb1, hbq]
        linarith [hsq, hif2]
      · have hopp : subOpp st o = (subBook st o).bids := by
          rw [subOpp, oppOf, if_neg hbuy]
        have e1 : (subBook1 st u o).bids = (subRes st u o).opp := by
          rw [subBook1, if_neg hbuy]
        have e2 : (subBook1 st u o).asks = (subBook st o).asks := by
          rw [subBook1, if_neg hbuy]
        have hb1 : bookQtyOf id (subBook1 st u o)
            = sideQty id (subRes st u o).opp + sideQty id (subBook st o).asks := by
          rw [bookQtyOf, e1, e2]
        rw [hopp] at hsq
        rw [hb1, hbq]
        linarith [hsq, hif2]
    rcases hmain with ⟨hrem, hlim, rp, hrp, hst'⟩ | ⟨_, _, hst'⟩ | ⟨_, hst'⟩
    · have hrem_le : (subRes st u o).remaining ≤ o.quantity := by
        have h1 := subRes_remaining_eq st u o
        have h2 : 0 ≤ tradeQtySum (subRes st u o).trades :=
          tradeQtySum_nonneg _ (subRes_trades_pos st u o hposOpp)
        linarith
      have hifle : (if st.nextId = id then (subRes st u o).remaining else 0)
          ≤ (if st.nextId = id then o.quantity else 0) := by
        by_cases hc : st.nextId = id
        · rw [if_pos hc, if_pos hc]
          exact hrem_le
        · rw [if_neg hc, if_neg hc]
      have hkey2 : bookQtyOf id (subBook2 st u o rp) + makerFillSum id (subRes st u o).trades
          ≤ bookQtyOf id (subBook st o) + (if st.nextId = id then o.quantity else 0) := by
        have hbq : bookQtyOf id (subBook st o)
            = sideQty id (subBook st o).bids + sideQty id (subBook st o).asks := rfl
        by_cases hbuy : subSide o = "buy"
        · have hopp : subOpp st o = (subBook st o).asks := by
            rw [subOpp, oppOf, if_pos hbuy]
          have e1b : (subBook1 st u o).bids = (subBook st o).bids := by
            rw [subBook1, if_pos hbuy]
          have e1a : (subBook1 st u o).asks = (subRes st u o).opp := by
            rw [subBook1, if_pos hbuy]
          have e2b : (subBook2 st u o rp).bids
              = insertOwn true rp ⟨st.nextId, (subRes st u o).remaining⟩
                  (subBook1 st u o).bids := by
            rw [subBook2, if_pos hbuy]
          have e2a : (subBook2 st u o rp).asks = (subBook1 st u o).asks := by
            rw [subBook2, if_pos hbuy]
          have hins : sideQty id (insertOwn true rp
                ⟨st.nextId, (subRes st u o).remaining⟩ (subBook1 st u o).bids)
              = sideQty id (subBook1 st u o).bids
                + (if st.nextId = id then (subRes st u o).remaining else 0) :=
            insertOwn_sideQty true rp ⟨st.nextId, (subRes st u o).remaining⟩
              (subBook1 st u o).bids id
          rw [hopp] at hsq
          rw [bookQtyOf, e2b, e2a, e1a, hins, e1b, hbq]
          linarith [hsq, hifle]
        · have hopp : subOpp st o = (subBook st o).bids := by
            rw [subOpp, oppOf, if_neg hbuy]
          have e1b : (subBook1 st u o).bids = (subRes st u o).opp := by
            rw [subBook1, if_neg hbuy]
          have e1a : (subBook1 st u o).asks = (subBook st o).asks := by
            rw [subBook1, if_neg hbuy]
          have e2b : (subBook2 st u o rp).bids = (subBook1 st u o).bids := by
            rw [subBook2, if_neg hbuy]
          have e2a : (subBook2 st u o rp).asks
              = insertOwn false rp ⟨st.nextId, (subRes st u o).remaining⟩
                  (subBook1 st u o).asks := by
            rw [subBook2, if_neg hbuy]
          have hins : sideQty id (insertOwn false rp
                ⟨st.nextId, (subRes st u o).remaining⟩ (subBook1 st u o).asks)
              = sideQty id (subBook1 st u o).asks
                + (if st.nextId = id then (subRes st u o).remaining else 0) :=
            insertOwn_sideQty false rp ⟨st.nextId, (subRes st u o).remaining⟩
              (subBook1 st u o).asks id
          rw [hopp] at hsq
          rw [bookQtyOf, e2b, e2a, e1b, hins, e1a, hbq]
          linarith [hsq, hifle]
      rw [hst']
      exact hfin _ _ hkey2
    · rw [hst']
      exact hfin _ _ hkey1
    · rw [hst']
      exact hfin _ _ hkey1

theorem booksQty_nonneg (id : Nat) (bl : List (String × Book))
    (h : ∀ sb ∈ bl, posSide sb.2.bids ∧ posSide sb.2.asks) : 0 ≤ booksQty id bl := by
  induction bl with
  | nil => simp [booksQty]
  | cons sb rest ih =>
    simp only [booksQty]
    have h1 := h sb (List.mem_cons_self sb rest)
    refine add_nonneg (add_nonneg (sideQty_nonneg id _ h1.1) (sideQty_nonneg id _ h1.2)) ?_
    exact ih fun q hq => h q (List.mem_cons_of_mem sb hq)

theorem runOp_reach (st : EngineState) (op : Op) (h : Reach st) : Reach (runOp st op) := by
  cases op with
  | sub u o =>
    simp only [runOp]
    cases hs : submit_order st u o with
    | ok p => exact Reach.submitStep st u o p.1 p.2 h (by rw [hs])
    | error e => exact h
  | can u i =>
    simp only [runOp]
    cases hs : cancel_order st u i with
    | ok p => exact Reach.cancelStep st u i p.1 p.2 h (by rw [hs])
    | error e => exact h

theorem runFrom_reach (ops : List Op) : ∀ st, Reach st → Reach (runFrom st ops) := by
  induction ops with
  | nil => exact fun st h => h
  | cons op rest ih => exact fun st h => ih (runOp st op) (runOp_reach st op h)

theorem runOps_reach (ops : List Op) : Reach (runOps ops) :=
  runFrom_reach ops initialState Reach.init

theorem origQtyAux_zero (ops : List Op) : ∀ (st : EngineState) (id : Nat), id < st.nextId →
    origQtyAux st ops id = 0 := by
  induction ops with
  | nil => intro st id _; rfl
  | cons op rest ih =>
    intro st id hid
    cases op with
    | sub u o =>
      simp only [origQtyAux]
      cases hs : submit_order st u o with
      | error e => exact ih st id hid
      | ok p =>
        have hok : submit_order st u o = .ok (p.1, p.2) := by rw [hs]
        have hne : ¬ p.1.order_id = id := by
          rw [submit_rid st u o p.1 p.2 hok]
          exact Nat.ne_of_gt hid
        show (if p.1.order_id = id then o.quantity else origQtyAux p.2 rest id) = 0
        rw [if_neg hne]
        refine ih p.2 id ?_
        rw [submit_nextId st u o p.1 p.2 hok]
        exact Nat.lt_succ_of_lt hid
    | can u i =>
      simp only [origQtyAux]
      cases hs : cancel_order st u i with
      | error e => exact ih st id hid
      | ok p =>
        have hok : cancel_order st u i = .ok (p.1, p.2) := by rw [hs]
        show origQtyAux p.2 rest id = 0
        refine ih p.2 id ?_
        rw [cancel_nextId st u i p.1 p.2 hok]
        exact hid

theorem runFrom_fill_bound (ops : List Op) : ∀ (st : EngineState), Inv st → ∀ id : Nat,
    makerFillSum id (runFrom st ops).trades + stQty (runFrom st ops) id
      ≤ makerFillSum id st.trades + stQty st id + origQtyAux st ops id := by
  induction ops with
  | nil =>
    intro st _ id
    show makerFillSum id st.trades + stQty st id ≤ makerFillSum id st.trades + stQty st id + 0
    rw [add_zero]
  | cons op rest ih =>
    intro st hInv id
    cases op with
    | sub u o =>
      simp only [runFrom, runOp, origQtyAux]
      cases hs : submit_order st u o with
      | error e => exact ih st hInv id
      | ok p =>
        show makerFillSum id (runFrom p.2 rest).trades + stQty (runFrom p.2 rest) id
            ≤ makerFillSum id st.trades + stQty st id
              + (if p.1.order_id = id then o.quantity else origQtyAux p.2 rest id)
        have hok : submit_order st u o = .ok (p.1, p.2) := by rw [hs]
        have hInv2 : Inv p.2 := inv_submit st u o p.1 p.2 hInv hok
        have hstep := submit_qty_step st u o p.1 p.2 hInv hok id
        have hrec := ih p.2 hInv2 id
        by_cases hc : p.1.order_id = id
        · rw [if_pos hc]
          rw [if_pos hc] at hstep
          have hz : origQtyAux p.2 rest id = 0 := by
            refine origQtyAux_zero rest p.2 id ?_
            rw [submit_nextId st u o p.1 p.2 hok, ← hc, submit_rid st u o p.1 p.2 hok]
            exact Nat.lt_succ_self _
          rw [hz] at hrec
          linarith [hrec, hstep]
        · rw [if_neg hc]
          rw [if_neg hc] at hstep
          linarith [hrec, hstep]
    | can u i =>
      simp only [runFrom, runOp, origQtyAux]
      cases hs : cancel_order st u i with
      | error e => exact ih st hInv id
      | ok p =>
        show makerFillSum id (runFrom p.2 rest).trades + stQty (runFrom p.2 rest) id
            ≤ makerFillSum id st.trades + stQty st id + origQtyAux p.2 rest id
        have hok : cancel_order st u i = .ok (p.1, p.2) := by rw [hs]
        have hInv2 : Inv p.2 := inv_cancel st u i p.1 p.2 hInv hok
        have hstep := cancel_qty_step st u i p.1 p.2 hInv hok id
        have hrec := ih p.2 hInv2 id
        linarith [hrec, hstep]

theorem trace_maker_bound (ops : List Op) (id : Nat) :
    makerFillSum id (runOps ops).trades ≤ origQty ops id := by
  have hb := runFrom_fill_bound ops initialState (reach_inv _ Reach.init) id
  have hpos : ∀ sb ∈ (runOps ops).books, posSide sb.2.bids ∧ posSide sb.2.asks := by
    intro sb hsb
    have hwf := (reach_inv _ (runOps_reach ops)).wf sb hsb
    exact ⟨hwf.2.2.1, hwf.2.2.2.1⟩
  have hq : 0 ≤ stQty (runOps ops) id := booksQty_nonneg id (runOps ops).books hpos
  have h0a : makerFillSum id initialState.trades = 0 := rfl
  have h0b : stQty initialState id = 0 := rfl
  calc makerFillSum id (runOps ops).trades
      ≤ makerFillSum id (runOps ops).trades + stQty (runOps ops) id := by linarith
    _ ≤ makerFillSum id initialState.trades + stQty initialState id
          + origQtyAux initialState ops id := hb
    _ = origQty ops id := by rw [h0a, h0b, zero_add, zero_add]; rfl


theorem subBooks0_getD (st : EngineState) (o : OrderIn) (k : String) :
    (lookupBook (subBooks0 st o) k).getD {} = (lookupBook st.books k).getD {} := by
  rcases gob_books_cases st.books (strUp o.symbol) with hb | ⟨hb, hnone⟩
  · rw [subBooks0, hb]
  · rw [subBooks0, hb, lookupBook_append]
    cases hlk : lookupBook st.books k with
    | some b => rfl
    | none =>
      show (lookupBook [((strUp (strUp o.symbol)), ({} : Book))] k).getD {} = ({} : Book)
      simp only [lookupBook]
      by_cases hk : (strUp (strUp o.symbol)) = k
      · rw [if_pos hk]
        rfl
      · rw [if_neg hk]
        rfl

theorem fokAvailable_oppOf (side : String) (price : Option ℚ) (b : Book) :
    fokAvailable side price b = sideAvail side price (oppOf side b) := by
  rw [fokAvailable, oppOf]
  by_cases hbuy : side = "buy"
  · rw [if_pos hbuy, if_pos hbuy]
  · rw [if_neg hbuy, if_neg hbuy]

theorem headBest_of_sorted (side : String) (b : Book) (hwf : WFBook b) :
    headBest side (oppOf side b) := by
  rw [headBest, oppOf]
  by_cases hbuy : side = "buy"
  · rw [if_pos hbuy]
    refine List.Pairwise.imp ?_ hwf.2.1
    intro a c hac
    rw [if_pos hbuy]
    exact le_of_lt hac
  · rw [if_neg hbuy]
    refine List.Pairwise.imp ?_ hwf.1
    intro a c hac
    rw [if_neg hbuy]
    exact le_of_lt hac

theorem sorted_prices_nodup (isBid : Bool) (s : BookSide) (hs : sortedSide isBid s) :
    (pricesOf s).Nodup := by
  cases isBid
  · exact hs.imp fun h => ne_of_lt h
  · exact hs.imp fun h => ne_of_gt h

theorem booksIds_mem_ex (bl : List (String × Book)) (id : Nat) (h : id ∈ booksIds bl) :
    ∃ sb ∈ bl, id ∈ bookIds sb.2 := by
  induction bl with
  | nil => simp [booksIds] at h
  | cons sb rest ih =>
    simp only [booksIds, List.mem_append] at h
    rcases h with h | h
    · exact ⟨sb, List.mem_cons_self _ _, h⟩
    · obtain ⟨q, hq, hid⟩ := ih h
      exact ⟨q, List.mem_cons_of_mem _ hq, hid⟩

theorem located_id_facts (st : EngineState) (hInv : Inv st) (dbo : DBRecord) (id : Nat)
    (hlk : lookupOrder st.orders id = some dbo) (sb : String × Book) (hsb : sb ∈ st.books) :
    (∀ pr ∈ flattenPM sb.2.bids, pr.2 = id →
      sb.1 = (strUp dbo.symbol) ∧ dbo.side = "buy" ∧ dbo.price = some pr.1) ∧
    (∀ pr ∈ flattenPM sb.2.asks, pr.2 = id →
      sb.1 = (strUp dbo.symbol) ∧ dbo.side ≠ "buy" ∧ dbo.price = some pr.1) := by
  obtain ⟨l1, l2⟩ := hInv.located sb hsb
  constructor
  · intro pr hpr hid
    obtain ⟨rec, hrec, h1, h2, h3⟩ := l1 pr hpr
    rw [hid, hlk] at hrec
    injection hrec with hrec
    subst hrec
    exact ⟨h1.symm, h2, h3⟩
  · intro pr hpr hid
    obtain ⟨rec, hrec, h1, h2, h3⟩ := l2 pr hpr
    rw [hid, hlk] at hrec
    injection hrec with hrec
    subst hrec
    exact ⟨h1.symm, h2, h3⟩

theorem cancel_removed (st : EngineState) (u : String) (id : Nat) (r : CancelResult)
    (st' : EngineState) (hInv : Inv st) (h : cancel_order st u id = .ok (r, st')) :
    id ∉ booksIds st'.books := by
  obtain ⟨dbo, hlk, hterm, hr, hst⟩ := cancel_ok_cases st u id r st' h
  subst hst
  intro hmem
  have f1 : lookupBook (get_order_book st.books dbo.symbol).2.2 (strUp dbo.symbol)
      = some ((lookupBook st.books (strUp dbo.symbol)).getD {}) :=
    gob_lookup st.books dbo.symbol
  obtain ⟨pre, post, hdec1, hdec2, hdecpre⟩ :=
    setBook_decomp _ _ (cancelBook st dbo id) _ f1
  have hmem1 : id ∈ booksIds (setBook (get_order_book st.books dbo.symbol).2.2
      (strUp dbo.symbol) (cancelBook st dbo id)) := hmem
  rw [hdec2, booksIds_middle pre post (strUp dbo.symbol) (cancelBook st dbo id)] at hmem1
  have hAside : ∀ sb ∈ (get_order_book st.books dbo.symbol).2.2, id ∈ bookIds sb.2 →
      sb.1 = (strUp dbo.symbol) := by
    intro sb hsb hid
    rcases gob_mem st.books dbo.symbol sb hsb with hs | hs
    · rw [bookIds, List.mem_append] at hid
      rcases hid with hid | hid
      · obtain ⟨pr, hpr, hpid⟩ := List.mem_map.mp hid
        exact ((located_id_facts st hInv dbo id hlk sb hs).1 pr hpr hpid).1
      · obtain ⟨pr, hpr, hpid⟩ := List.mem_map.mp hid
        exact ((located_id_facts st hInv dbo id hlk sb hs).2 pr hpr hpid).1
    · rw [hs] at hid
      simp [bookIds, flattenPM] at hid
  have hkeys0 := gob_keys_nodup st.books dbo.symbol hInv.keysNodup
  rw [hdec1, List.map_append, List.map_cons, List.nodup_append] at hkeys0
  rcases List.mem_append.mp hmem1 with h1 | h1
  · rcases List.mem_append.mp h1 with h1 | h1
    · obtain ⟨sb, hsb, hid⟩ := booksIds_mem_ex pre id h1
      have hb0mem : sb ∈ (get_order_book st.books dbo.symbol).2.2 := by
        rw [hdec1]
        exact List.mem_append_left _ hsb
      have hkey := hAside sb hb0mem hid
      exact hdecpre (hkey ▸ List.mem_map_of_mem Prod.fst hsb)
    · -- the cancelled symbol's own book, after the removal
      cases hp : dbo.price with
      | none =>
        rw [cancelBook_none st dbo id hp] at h1
        cases hlb : lookupBook st.books (strUp dbo.symbol) with
        | none =>
          rw [bookOf, hlb] at h1
          simp [bookIds, flattenPM] at h1
        | some b =>
          rw [bookOf, hlb, Option.getD_some] at h1
          have hbm : ((strUp dbo.symbol), b) ∈ st.books := lookupBook_mem _ _ _ hlb
          rw [bookIds, List.mem_append] at h1
          rcases h1 with h1 | h1
          · obtain ⟨pr, hpr, hpid⟩ := List.mem_map.mp h1
            have hpf := ((located_id_facts st hInv dbo id hlk _ hbm).1 pr hpr hpid).2.2
            rw [hp] at hpf
            exact absurd hpf (by simp)
          · obtain ⟨pr, hpr, hpid⟩ := List.mem_map.mp h1
            have hpf := ((located_id_facts st hInv dbo id hlk _ hbm).2 pr hpr hpid).2.2
            rw [hp] at hpf
            exact absurd hpf (by simp)
      | some p =>
        rw [cancelBook_some st dbo id p hp] at h1
        cases hlb : lookupBook st.books (strUp dbo.symbol) with
        | none =>
          by_cases hside : dbo.side = "buy"
          · rw [if_pos hside] at h1
            rw [bookOf, hlb] at h1
            simp [bookIds, flattenPM, removeFromSide] at h1
          · rw [if_neg hside] at h1
            rw [bookOf, hlb] at h1
            simp [bookIds, flattenPM, removeFromSide] at h1
        | some b =>
          have hbm : ((strUp dbo.symbol), b) ∈ st.books := lookupBook_mem _ _ _ hlb
          have hbeq : bookOf st dbo.symbol = b := by
            rw [bookOf, hlb, Option.getD_some]
          have hwfb : WFBook b := hInv.wf _ hbm
          have hndb : (bookIds b).Nodup :=
            nodup_bookIds_of_mem st.books _ hbm hInv.idsNodup
          rw [bookIds, List.nodup_append] at hndb
          by_cases hside : dbo.side = "buy"
          · rw [if_pos hside, hbeq] at h1
            have h1' : id ∈ (flattenPM (removeFromSide p id b.bids)).map Prod.snd
                ++ (flattenPM b.asks).map Prod.snd := h1
            rcases List.mem_append.mp h1' with hh | hh
            · refine removeFromSide_not_mem p id b.bids hndb.1
                (sorted_prices_nodup true b.bids hwfb.1) ?_ hh
              intro pr hpr hpid
              have hpf := ((located_id_facts st hInv dbo id hlk _ hbm).1 pr hpr hpid).2.2
              rw [hp] at hpf
              injection hpf with hpf
              exact hpf.symm
            · obtain ⟨pr, hpr, hpid⟩ := List.mem_map.mp hh
              exact ((located_id_facts st hInv dbo id hlk _ hbm).2 pr hpr hpid).2.1 hside
          · rw [if_neg hside, hbeq] at h1
            have h1' : id ∈ (flattenPM b.bids).map Prod.snd
                ++ (flattenPM (removeFromSide p id b.asks)).map Prod.snd := h1
            rcases List.mem_append.mp h1' with hh | hh
            · obtain ⟨pr, hpr, hpid⟩ := List.mem_map.mp hh
              exact hside ((located_id_facts st hInv dbo id hlk _ hbm).1 pr hpr hpid).2.1
            · refine removeFromSide_not_mem p id b.asks hndb.2.1
                (sorted_prices_nodup false b.asks hwfb.2.1) ?_ hh
              intro pr hpr hpid
              have hpf := ((located_id_facts st hInv dbo id hlk _ hbm).2 pr hpr hpid).2.2
              rw [hp] at hpf
              injection hpf with hpf
              exact hpf.symm
  · obtain ⟨sb, hsb, hid⟩ := booksIds_mem_ex post id h1
    have hb0mem : sb ∈ (get_order_book st.books dbo.symbol).2.2 := by
      rw [hdec1]
      exact List.mem_append_right _ (List.mem_cons_of_mem _ hsb)
    have hkey := hAside sb hb0mem hid
    have hmm : (strUp dbo.symbol) ∈ post.map Prod.fst := by
      rw [← hkey]
      exact List.mem_map_of_mem Prod.fst hsb
    exact (List.nodup_cons.mp hkeys0.2.1).1 hmm


/-! ### Claim theorems -/

/-- C1: refuted.  The source breaks out of the matching loop immediately
after the first trade of an IOC order (`if typ == "ioc": break`), so an IOC
buy for 1.0 at 100 facing exactly 1.0 of marketable liquidity spread over
two makers at one level records a single trade for 0.4, cancels the
remaining 0.6, and leaves the best ask still marketable — contradicting the
claimed "match while remaining > 0 and the best opposite level is
marketable, taking successive makers" behaviour. -/
theorem spec_C1 :
    fokAvailable (subSide c1Buy) (subPrice c1Buy) (subBook c1St c1Buy) = c1Buy.quantity ∧
    (flattenPM (subOpp c1St c1Buy)).length = 2 ∧
    submit_order c1St "carol" c1Buy = .ok c1Out ∧
    (c1Out.1.trades.getD []).length = 1 ∧
    tradeQtySum (c1Out.1.trades.getD []) = 2/5 ∧
    statusOf c1Out.2.orders c1Out.1.order_id = some "cancelled" ∧
    get_best_price (bookOf c1Out.2 "BTC").bids (bookOf c1Out.2 "BTC").asks
      = (none, some 100) ∧
    marketable (subSide c1Buy) (subPrice c1Buy) 100 = true ∧
    fokAvailable (subSide c1Buy) (subPrice c1Buy) (bookOf c1Out.2 "BTC") = 3/5 := by
  refine ⟨?_, ?_, ?_, ?_, ?_, ?_, ?_, ?_, ?_⟩ <;> rfl

/-- C2: corrected.  Every accepted submission's return value carries the
order identifier, but never all three advertised fields at once: the FOK
infeasibility path returns `status = "cancelled"` and `filled = false` with
no `trades` key, and every other success path returns the `trades` list
with no `status` (and no `filled`) key. -/
theorem spec_C2 (st : EngineState) (u : String) (o : OrderIn) (r : SubmitResult)
    (st' : EngineState) (h : submit_order st u o = .ok (r, st')) :
    r.order_id = st.nextId ∧
    ((r.status = some "cancelled" ∧ r.filled = some false ∧ r.trades = none) ∨
     (r.trades = some (subRes st u o).trades ∧ r.status = none ∧ r.filled = none)) := by
  obtain ⟨hq, hrid, hc⟩ := submit_ok_cases st u o r st' h
  refine ⟨hrid, ?_⟩
  rcases hc with ⟨_, _, hr, _⟩ | ⟨_, hr, _⟩
  · rw [hr]
    exact Or.inl ⟨rfl, rfl, rfl⟩
  · rw [hr]
    exact Or.inr ⟨rfl, rfl, rfl⟩

/-- Witness for `spec_C2`: a concrete market buy on the empty book. -/
theorem spec_C2_witness :
    c2Out.1.order_id = initialState.nextId ∧
    ((c2Out.1.status = some "cancelled" ∧ c2Out.1.filled = some false ∧
        c2Out.1.trades = none) ∨
     (c2Out.1.trades = some (subRes initialState "alice" c2o).trades ∧
        c2Out.1.status = none ∧ c2Out.1.filled = none)) :=
  spec_C2 initialState "alice" c2o c2Out.1 c2Out.2 rfl

/-- Counterexample to the literal C2 claim: two accepted submissions whose
return values lack the `status` key and the `trades` key respectively. -/
theorem spec_C2_cex :
    (submit_order initialState "alice" c2o = .ok c2Out ∧ c2Out.1.status = none) ∧
    (submit_order initialState "alice" c2f = .ok c2fOut ∧ c2fOut.1.trades = none) :=
  ⟨⟨rfl, rfl⟩, ⟨rfl, rfl⟩⟩

/-- C3: confirmed.  A FOK submission against any reachable book state is
all-or-nothing: if the summed quantity at marketable opposite levels is
below the requested quantity the order is finalized cancelled with no
trades and every book is unchanged, otherwise it executes trades totalling
exactly the requested quantity and is finalized `filled`. -/
theorem spec_C3 (st : EngineState) (u : String) (o : OrderIn) (r : SubmitResult)
    (st' : EngineState) (hre : Reach st) (h : submit_order st u o = .ok (r, st'))
    (hfok : subTyp o = "fok") :
    (fokAvailable (subSide o) (subPrice o) (subBook st o) < o.quantity →
      r.trades = none ∧ r.status = some "cancelled" ∧
      ∀ s, bookOf st' s = bookOf st s) ∧
    (o.quantity ≤ fokAvailable (subSide o) (subPrice o) (subBook st o) →
      ∃ ts, r.trades = some ts ∧ tradeQtySum ts = o.quantity ∧
        statusOf st'.orders r.order_id = some "filled") := by
  obtain ⟨hq, hrid, hc⟩ := submit_ok_cases st u o r st' h
  have hInv := reach_inv st hre
  have hwf0 := subBook_wf st o hInv.wf
  have hposOpp : posSide (subOpp st o) := by
    rw [subOpp, oppOf]
    by_cases hbuy : subSide o = "buy"
    · rw [if_pos hbuy]
      exact hwf0.2.2.2.1
    · rw [if_neg hbuy]
      exact hwf0.2.2.1
  constructor
  · intro hlt
    rcases hc with ⟨_, _, hr, hst'⟩ | ⟨hnofok, _, _⟩
    · refine ⟨by rw [hr], by rw [hr], ?_⟩
      intro s
      rw [hst']
      show (lookupBook (subBooks0 st o) (strUp s)).getD {} = bookOf st s
      rw [subBooks0_getD]
      rfl
    · exact absurd ⟨hfok, hlt⟩ hnofok
  · intro hge
    rcases hc with ⟨_, hlt, _, _⟩ | ⟨_, hr, hmain⟩
    · exact absurd hge (not_le.mpr hlt)
    · have htyp : subTyp o ≠ "ioc" := by
        rw [hfok]
        decide
      have havail : o.quantity ≤ sideAvail (subSide o) (subPrice o) (subOpp st o) := by
        rw [subOpp, ← fokAvailable_oppOf]
        exact hge
      have hfill : (subRes st u o).remaining = 0 :=
        matchLoop_fok_fills (subTyp o) (subSide o) (subPrice o) st.nextId (strUp o.symbol)
          (sideCount (subOpp st o) + 1) o.quantity (subOpp st o) (subOrders0 st u o)
          (le_of_lt hq) havail htyp hposOpp
          (headBest_of_sorted (subSide o) (subBook st o) hwf0) (Nat.lt_succ_self _)
      rcases hmain with ⟨hrem, _, _, _, _⟩ | ⟨hrem, _, _⟩ | ⟨_, hst'⟩
      · rw [hfill] at hrem
        exact absurd hrem (lt_irrefl 0)
      · rw [hfill] at hrem
        exact absurd hrem (lt_irrefl 0)
      · refine ⟨(subRes st u o).trades, by rw [hr], ?_, ?_⟩
        · have he := subRes_remaining_eq st u o
          rw [hfill] at he
          linarith
        · rw [hst', hrid]
          show statusOf (updateStatus (subRes st u o).orders st.nextId "filled")
              st.nextId = some "filled"
          obtain ⟨v, hv, _⟩ := subNew_lookup st u o hInv.ordKeysLt
          rw [statusOf, lookupOrder_updateStatus, if_pos rfl, hv]
          rfl

/-- Witness for `spec_C3`: a FOK buy against the empty book is infeasible,
cancels with zero trades and leaves every book unchanged. -/
theorem spec_C3_witness :
    subTyp c3o = "fok" ∧
    ((fokAvailable (subSide c3o) (subPrice c3o) (subBook initialState c3o) < c3o.quantity →
        c3Out.1.trades = none ∧ c3Out.1.status = some "cancelled" ∧
        ∀ s, bookOf c3Out.2 s = bookOf initialState s) ∧
     (c3o.quantity ≤ fokAvailable (subSide c3o) (subPrice c3o) (subBook initialState c3o) →
        ∃ ts, c3Out.1.trades = some ts ∧ tradeQtySum ts = c3o.quantity ∧
          statusOf c3Out.2.orders c3Out.1.order_id = some "filled")) :=
  ⟨rfl, spec_C3 initialState "alice" c3o c3Out.1 c3Out.2 Reach.init rfl rfl⟩

/-- C4: confirmed.  In every state reachable by submit and cancel
operations, every symbol's book has its best bid strictly below its best
ask whenever both sides are non-empty. -/
theorem spec_C4 (st : EngineState) (hre : Reach st) (sb : String × Book)
    (hsb : sb ∈ st.books) (pb pa : ℚ)
    (hbp : get_best_price sb.2.bids sb.2.asks = (some pb, some pa)) : pb < pa := by
  have hnc : NoCross sb.2 := ((reach_inv st hre).wf sb hsb).2.2.2.2
  rw [get_best_price, Prod.mk.injEq] at hbp
  obtain ⟨h1, h2⟩ := hbp
  cases hb : sb.2.bids with
  | nil =>
    rw [hb] at h1
    exact absurd h1 (by simp)
  | cons x xs =>
    cases ha : sb.2.asks with
    | nil =>
      rw [ha] at h2
      exact absurd h2 (by simp)
    | cons y ys =>
      rw [hb] at h1
      rw [ha] at h2
      simp only [List.head?_cons, Option.map_some'] at h1 h2
      injection h1 with h1
      injection h2 with h2
      rw [← h1, ← h2]
      refine hnc x.1 ?_ y.1 ?_
      · rw [pricesOf, hb]
        exact List.mem_map_of_mem _ (List.mem_cons_self x xs)
      · rw [pricesOf, ha]
        exact List.mem_map_of_mem _ (List.mem_cons_self y ys)

/-- Witness for `spec_C4`: a concrete two-sided book with bid 99 and ask
101. -/
theorem spec_C4_witness :
    ("BTC", bookOf (runOps c4Ops) "BTC") ∈ (runOps c4Ops).books ∧
    get_best_price (bookOf (runOps c4Ops) "BTC").bids (bookOf (runOps c4Ops) "BTC").asks
      = (some 99, some 101) ∧ (99 : ℚ) < 101 :=
  ⟨by decide, rfl,
   spec_C4 (runOps c4Ops) (runOps_reach c4Ops) ("BTC", bookOf (runOps c4Ops) "BTC")
     (by decide) 99 101 rfl⟩

/-- C5: confirmed.  The `(price, maker id)` sequence of the trades a
submission emits is an initial segment of the opposite side flattened in
priority order (best price level first, FIFO within each level), so an
earlier resting order at a price is always filled before a later one and
trades are produced best price first. -/
theorem spec_C5 (st : EngineState) (u : String) (o : OrderIn) (r : SubmitResult)
    (st' : EngineState) (h : submit_order st u o = .ok (r, st')) (ts : List Trade)
    (hts : r.trades = some ts) :
    FrontOf (ts.map fun t => (t.price, t.maker_order_id)) (flattenPM (subOpp st o)) := by
  obtain ⟨_, _, hc⟩ := submit_ok_cases st u o r st' h
  rcases hc with ⟨_, _, hr, _⟩ | ⟨_, hr, _⟩
  · rw [hr] at hts
    exact Option.noConfusion hts
  · rw [hr] at hts
    have hts' : some (subRes st u o).trades = some ts := hts
    injection hts' with hts'
    rw [← hts']
    exact subRes_trades_frontOf st u o

/-- Witness for `spec_C5`: a buy sweeping two ask levels fills them in
price-time order. -/
theorem spec_C5_witness :
    FrontOf ((c5Out.1.trades.getD []).map fun t => (t.price, t.maker_order_id))
      (flattenPM (subOpp c5St c5o)) :=
  spec_C5 c5St "carol" c5o c5Out.1 c5Out.2 rfl (c5Out.1.trades.getD []) rfl

/-- C6: confirmed.  Every trade a submission produces prices at a resting
level of the opposite side (the maker's price) and that level is marketable
against the taker's limit — the engine never uses the taker's limit when
the maker is more favorable. -/
theorem spec_C6 (st : EngineState) (u : String) (o : OrderIn) (t : Trade)
    (ht : t ∈ (subRes st u o).trades) :
    (t.price, t.maker_order_id) ∈ flattenPM (subOpp st o) ∧
    marketable (subSide o) (subPrice o) t.price = true :=
  ⟨frontOf_mem _ _ _ (subRes_trades_frontOf st u o) (List.mem_map_of_mem _ ht),
   (matchLoop_trades_facts (subTyp o) (subSide o) (subPrice o) st.nextId (strUp o.symbol)
     (sideCount (subOpp st o) + 1) o.quantity (subOpp st o) (subOrders0 st u o)
     t ht).2.2.2⟩

/-- Witness for `spec_C6`: a limit buy at 105 against a resting ask at 100
trades at the maker's 100, not 105. -/
theorem spec_C6_witness :
    c6t ∈ (subRes c6St "bob" c6o).trades ∧ c6t.price = 100 ∧ c6o.price = some 105 ∧
    ((c6t.price, c6t.maker_order_id) ∈ flattenPM (subOpp c6St c6o) ∧
     marketable (subSide c6o) (subPrice c6o) c6t.price = true) :=
  ⟨by decide, rfl, rfl, spec_C6 c6St "bob" c6o c6t (by decide)⟩

/-- C7: confirmed.  A cancel of an unknown id fails `notFound`; a cancel of
a filled or cancelled order fails `alreadyTerminal`; a successful cancel
returns the id with status `cancelled`, records the status, removes the
order from every book, and a second cancel (by any user) fails
`alreadyTerminal`. -/
theorem spec_C7 (st : EngineState) (u u' : String) (id : Nat) (hre : Reach st) :
    (lookupOrder st.orders id = none → cancel_order st u id = .error .notFound) ∧
    (∀ dbo, lookupOrder st.orders id = some dbo →
      dbo.status = "filled" ∨ dbo.status = "cancelled" →
      cancel_order st u id = .error .alreadyTerminal) ∧
    (∀ r st', cancel_order st u id = .ok (r, st') →
      r = { order_id := id, status := "cancelled" } ∧
      statusOf st'.orders id = some "cancelled" ∧
      id ∉ booksIds st'.books ∧
      cancel_order st' u' id = .error .alreadyTerminal) := by
  refine ⟨fun hn => cancel_not_found st u id hn,
    fun dbo hlk ht => cancel_already_terminal st u id dbo hlk ht, ?_⟩
  intro r st' h
  obtain ⟨dbo, hlk, hterm, hr, hst⟩ := cancel_ok_cases st u id r st' h
  have hlk2 : lookupOrder st'.orders id = some { dbo with status := "cancelled" } := by
    rw [hst]
    show lookupOrder (updateStatus st.orders id "cancelled") id = _
    rw [lookupOrder_updateStatus, if_pos rfl, hlk]
    rfl
  refine ⟨hr, ?_, cancel_removed st u id r st' (reach_inv st hre) h, ?_⟩
  · rw [statusOf, hlk2]
    rfl
  · exact cancel_already_terminal st' u' id _ hlk2 (Or.inr rfl)

/-- Witness for `spec_C7`: the cancel semantics at a book holding one open
resting bid with id 0. -/
theorem spec_C7_witness :
    (lookupOrder (runOps c7Ops).orders 0 = none →
      cancel_order (runOps c7Ops) "bob" 0 = .error .notFound) ∧
    (∀ dbo, lookupOrder (runOps c7Ops).orders 0 = some dbo →
      dbo.status = "filled" ∨ dbo.status = "cancelled" →
      cancel_order (runOps c7Ops) "bob" 0 = .error .alreadyTerminal) ∧
    (∀ r st', cancel_order (runOps c7Ops) "bob" 0 = .ok (r, st') →
      r = { order_id := 0, status := "cancelled" } ∧
      statusOf st'.orders 0 = some "cancelled" ∧
      0 ∉ booksIds st'.books ∧
      cancel_order st' "carol" 0 = .error .alreadyTerminal) :=
  spec_C7 (runOps c7Ops) "bob" "carol" 0 (runOps_reach c7Ops)

/-- C8: confirmed.  Along every request trace from the empty engine: the
total quantity traded against any maker id never exceeds the quantity its
order was submitted with; every quantity resting in any reachable book is
strictly positive (so no maker remainder is ever negative); and the taker's
loop remainder never goes negative. -/
theorem spec_C8 (ops : List Op) (id : Nat) :
    makerFillSum id (runOps ops).trades ≤ origQty ops id ∧
    (∀ sb ∈ (runOps ops).books, posSide sb.2.bids ∧ posSide sb.2.asks) ∧
    (∀ (st : EngineState) (u : String) (o : OrderIn), 0 ≤ o.quantity →
      0 ≤ (subRes st u o).remaining) := by
  refine ⟨trace_maker_bound ops id, ?_, ?_⟩
  · intro sb hsb
    have hwf := (reach_inv _ (runOps_reach ops)).wf sb hsb
    exact ⟨hwf.2.2.1, hwf.2.2.2.1⟩
  · intro st u o hq
    exact subRes_remaining_nonneg st u o hq

/-- Witness for `spec_C8`: a fully filled maker, with the fill sum meeting
its original quantity exactly. -/
theorem spec_C8_witness :
    makerFillSum 0 (runOps c8Ops).trades = 1 ∧ origQty c8Ops 0 = 1 ∧
    (makerFillSum 0 (runOps c8Ops).trades ≤ origQty c8Ops 0 ∧
     (∀ sb ∈ (runOps c8Ops).books, posSide sb.2.bids ∧ posSide sb.2.asks) ∧
     (∀ (st : EngineState) (u : String) (o : OrderIn), 0 ≤ o.quantity →
       0 ≤ (subRes st u o).remaining)) :=
  ⟨rfl, rfl, spec_C8 c8Ops 0⟩

/-- C10: confirmed.  `cancel_order` never reads its caller argument, so the
outcome of a cancellation is literally identical for every authenticated
user: any user can cancel any other user's order. -/
theorem spec_C10 (st : EngineState) (u u' : String) (id : Nat) :
    cancel_order st u id = cancel_order st u' id := rfl

end Engine
